import Mathlib

/-!
# Aleph: boundary matrices, persistence pairing extraction, clique enumeration

A shallow embedding of

* `calculatePersistencePairing` (include/aleph/persistentHomology/Calculation.hh),
* `makeBoundaryMatrix` (include/aleph/topology/Conversions.hh),
* the thresholding step of `main` (tools/clique-communities.cc),

together with the parts of the library these functions rely on that are
described by the specification only (boundary matrix representation,
persistence pairing container, simplices and simplicial complexes, the
standard column reduction and the dualization transform), and of the two
maximal-clique enumerators that tests/test_clique_enumeration.cc exercises.

Machine integers of type `Index` (the default `unsigned`) are natural numbers
taken modulo `2 ^ 32` wherever the C++ arithmetic can wrap.  Operations that
throw in C++ (an out-of-range `at`, a failed `index` lookup) return `none`.
-/

namespace Aleph

/-! ## Index arithmetic -/

/-- Width in bits of `Representation::Index`, the default `unsigned`. -/
def indexBits : Nat := 32

/-- Number of values of the `Index` type. -/
def indexModulus : Nat := 2 ^ indexBits

/-- Unsigned subtraction `a - b` on `Index`: the result wraps modulo `2 ^ 32`. -/
def indexSub (a b : Nat) : Nat :=
  (a % indexModulus + indexModulus - b % indexModulus) % indexModulus

/-- Conversion `static_cast<Index>( x )` of a `std::size_t` value. -/
def toIndex (x : Nat) : Nat := x % indexModulus

/-! ## Boundary matrices -/

/-- Modelled from the spec: the `BoundaryMatrix` type (BoundaryMatrix.hh and its
column representation are not part of the sources at hand).  An indexable
collection of columns, column `j` being the set of row indices of the boundary
faces of simplex `j`, each column with an associated simplex dimension, and a
`dualized` flag.  The number of columns is the length of `columns`. -/
structure BoundaryMatrix where
  columns : List (List Nat)
  dimensions : List Nat
  dualized : Bool
deriving DecidableEq, Repr

/-- Modelled from the spec: the low of a column, "the maximal row index present
in a non-empty column"; `none` for an empty column. -/
def maxIndex : List Nat → Option Nat
  | [] => none
  | x :: xs => some (xs.foldl Nat.max x)

namespace BoundaryMatrix

/-- Modelled from the spec: `getNumColumns()`. -/
def getNumColumns (M : BoundaryMatrix) : Nat := M.columns.length

/-- Modelled from the spec: `isDualized()`. -/
def isDualized (M : BoundaryMatrix) : Bool := M.dualized

/-- Modelled from the spec: `getMaximumIndex( j )`, the pair `(i, valid)` of
the maximal row index of column `j` and a flag telling whether the column is
non-empty.  Asking for a column the matrix does not have fails. -/
def getMaximumIndex (M : BoundaryMatrix) (j : Nat) : Option (Nat × Bool) :=
  match M.columns[j]? with
  | none => none
  | some c =>
    match maxIndex c with
    | none => some (0, false)
    | some i => some (i, true)

/-- Modelled from the spec: `getDimension( j )`, the simplex dimension
associated with column `j`.  Asking for a column the matrix does not have
fails. -/
def getDimension (M : BoundaryMatrix) (j : Nat) : Option Nat := M.dimensions[j]?

/-- Modelled from the spec: `getDimension()`, the top dimension of the matrix,
the largest dimension associated with one of its columns. -/
def topDimension (M : BoundaryMatrix) : Nat := M.dimensions.foldl Nat.max 0

/-- Modelled from the spec: `setNumColumns( n )` on a fresh matrix: `n` empty
columns. -/
def withNumColumns (n : Nat) : BoundaryMatrix :=
  { columns := List.replicate n [], dimensions := List.replicate n 0, dualized := false }

/-- Modelled from the spec: `setColumn( j, begin, end )` stores "the sorted
index set as column `j`"; the associated dimension is the one of a simplex
with that many boundary faces.  Column `j` has to exist. -/
def setColumn (M : BoundaryMatrix) (j : Nat) (column : List Nat) : Option BoundaryMatrix :=
  if j < M.columns.length then
    some { M with
      columns := M.columns.set j (column.insertionSort (· ≤ ·))
      dimensions := M.dimensions.set j (column.length - 1) }
  else none

/-- Modelled from the spec: `dualize()`, the anti-transpose of the matrix.
Row `r` of column `c` is set in the dual exactly when row `n-1-c` of column
`n-1-r` is set in the original matrix.  Dimensions are counted from the top
dimension downwards, which is the convention the creator filter of
`calculatePersistencePairing` relies on. -/
def dualize (M : BoundaryMatrix) : BoundaryMatrix :=
  let n := M.columns.length
  { columns := (List.range n).map (fun c =>
      (List.range n).filter (fun r => decide ((n - 1 - c) ∈ M.columns.getD (n - 1 - r) [])))
    dimensions := (List.range n).map (fun c =>
      M.topDimension - M.dimensions.getD (n - 1 - c) 0)
    dualized := !M.dualized }

end BoundaryMatrix

/-! ## Standard reduction -/

/-- Modelled from the spec: addition of two columns over the field with two
elements, the symmetric difference of the row-index sets, kept sorted. -/
def addColumns (a b : List Nat) : List Nat :=
  (a.filter (fun x => decide (x ∉ b)) ++ b.filter (fun x => decide (x ∉ a))).insertionSort (· ≤ ·)

/-- Modelled from the spec: the inner loop of the standard reduction.  "While
the current column is non-empty and another earlier column shares the same low
index, add that earlier column to the current one".  Every addition lowers the
low of the current column, so `fuel` larger than the low is never used up. -/
def reduceColumn (earlier : List (List Nat)) : Nat → List Nat → List Nat
  | 0, c => c
  | fuel + 1, c =>
    match maxIndex c with
    | none => c
    | some i =>
      match earlier.find? (fun d => decide (maxIndex d = some i)) with
      | none => c
      | some d => reduceColumn earlier fuel (addColumns c d)

/-- Fuel that suffices for `reduceColumn`: one more than the low of the column. -/
def reduceFuel (c : List Nat) : Nat :=
  match maxIndex c with
  | none => 0
  | some i => i + 1

/-- Modelled from the spec: the outer loop of the standard reduction,
"process columns left to right".  `done` holds the columns reduced so far. -/
def reduceColumns : List (List Nat) → List (List Nat) → List (List Nat)
  | done, [] => done
  | done, c :: rest => reduceColumns (done ++ [reduceColumn done (reduceFuel c) c]) rest

/-- Modelled from the spec: the standard reduction algorithm (the
`ReductionAlgorithm` strategy classes are not part of the sources at hand). -/
def standardReduction (M : BoundaryMatrix) : BoundaryMatrix :=
  { M with columns := reduceColumns [] M.columns }

/-! ## Persistence pairings -/

/-- Modelled from the spec: an entry of a `PersistencePairing`, either an
index pair `(creator, some destroyer)` or an index-only entry
`(creator, none)` of an essential creator. -/
abbrev Entry := Nat × Option Nat

/-- Modelled from the spec: the order the pairing is sorted by, "by (creator,
destroyer) with essential entries ordered by their single index"; among
entries with the same creator an essential entry comes last. -/
def entryLE (a b : Entry) : Prop :=
  a.1 < b.1 ∨ (a.1 = b.1 ∧
    match a.2, b.2 with
    | _, none => True
    | none, some _ => False
    | some x, some y => x ≤ y)

instance entryLE_decidable : DecidableRel entryLE := fun a b => by
  unfold entryLE
  cases a.2 <;> cases b.2 <;> infer_instance

/-- State of the loop of `calculatePersistencePairing`: the pairs added so
far, in the order of the calls of `pairing.add`, and the set `creators`. -/
structure LoopState where
  pairing : List Entry
  creators : List Nat
deriving DecidableEq, Repr

/-- The filter of Calculation.hh, lines 112-114, deciding whether the empty
column `j` of dimension `dimJ` is inserted into `creators`. -/
def keepsCreator (dualized : Bool) (dimJ topDim : Nat) (includeAllUnpairedCreators : Bool) : Bool :=
  (!dualized && dimJ != topDim) || (dualized && dimJ != 0) || includeAllUnpairedCreators

/-- The pair `(u, v)` of Calculation.hh, lines 85-97, for column `j` with
maximal index `i`; `numColumns` is the local variable of that name. -/
def pairOf (dualized : Bool) (numColumns i j : Nat) : Nat × Nat :=
  if dualized then (indexSub (indexSub numColumns 1) j, indexSub (indexSub numColumns 1) i)
  else (i, j)

/-- The index emitted for a remaining creator, Calculation.hh, lines 123-126. -/
def essentialOf (dualized : Bool) (numColumns creator : Nat) : Nat :=
  if dualized then indexSub (indexSub numColumns 1) creator else creator

/-- One iteration of the loop of Calculation.hh, lines 77-119, for column `j`. -/
def columnStep (B : BoundaryMatrix) (includeAllUnpairedCreators : Bool) (max numColumns : Nat)
    (st : LoopState) (j : Nat) : Option LoopState :=
  match B.getMaximumIndex j with
  | none => none
  | some (i, true) =>
    let creators := st.creators.erase i
    let uv := pairOf B.isDualized numColumns i j
    if max = 0 ∨ i < max then
      some { pairing := st.pairing ++ [(uv.1, some uv.2)], creators := creators }
    else
      some { pairing := st.pairing, creators := creators }
  | some (_, false) =>
    match B.getDimension j with
    | none => none
    | some d =>
      if keepsCreator B.isDualized d B.topDimension includeAllUnpairedCreators then
        some { st with creators := if j ∈ st.creators then st.creators else st.creators ++ [j] }
      else
        some st

/-- The loop of Calculation.hh, lines 77-119: the state after the iterations
for the columns `0, ..., count - 1`. -/
def pairingLoop (B : BoundaryMatrix) (includeAllUnpairedCreators : Bool) (max numColumns : Nat) :
    Nat → Option LoopState
  | 0 => some { pairing := [], creators := [] }
  | j + 1 =>
    match pairingLoop B includeAllUnpairedCreators max numColumns j with
    | none => none
    | some st => columnStep B includeAllUnpairedCreators max numColumns st j

/-- The local variable `numColumns` of Calculation.hh, line 73. -/
def loopBound (B : BoundaryMatrix) (max : Nat) : Nat :=
  if max ≠ 0 then max else B.getNumColumns

/-- Lines 121-130 of Calculation.hh: the remaining creators are added as
essential entries, in the order `order` in which the unordered set hands them
out, and the pairing is sorted. -/
def finishPairing (dualized : Bool) (numColumns : Nat) (pairing : List Entry) (order : List Nat) :
    List Entry :=
  (pairing ++ order.map (fun c => (essentialOf dualized numColumns c, none))).insertionSort entryLE

/-- The function `calculatePersistencePairing` of Calculation.hh.  The
template parameter `ReductionAlgorithm` is the argument `reductionAlgorithm`;
the result is `none` when a column outside of the matrix is asked for. -/
def calculatePersistencePairing (reductionAlgorithm : BoundaryMatrix → BoundaryMatrix)
    (M : BoundaryMatrix) (includeAllUnpairedCreators : Bool) (max : Nat) : Option (List Entry) :=
  let B := reductionAlgorithm M
  let numColumns := loopBound B max
  match pairingLoop B includeAllUnpairedCreators max numColumns numColumns with
  | none => none
  | some st => some (finishPairing B.isDualized numColumns st.pairing st.creators)

/-! ## Simplicial complexes and their conversion -/

/-- Modelled from the spec: a `Simplex`, "an ordered, deduplicated set of
vertex identifiers plus one scalar data value" (Simplex.hh is not part of the
sources at hand).  The data type is the template parameter `D`. -/
structure Simplex (D : Type) where
  vertices : List Nat
  data : D
deriving DecidableEq, Repr

/-- Modelled from the spec: the boundary faces of a simplex, its
"codimension-1 subsets", one for every vertex left out.  A simplex with at
most one vertex has no boundary face. -/
def Simplex.boundary {D : Type} (s : Simplex D) : List (List Nat) :=
  if s.vertices.length ≤ 1 then []
  else (List.range s.vertices.length).map (fun p => s.vertices.eraseIdx p)

/-- Modelled from the spec: a `SimplicialComplex`, "an ordered sequence of
Simplex"; the index of a simplex is its position. -/
abbrev SimplicialComplex (D : Type) := List (Simplex D)

/-- Modelled from the spec: `K.index( face )`, "index lookup by vertex-set";
the lookup fails when the face is not in the complex. -/
def SimplicialComplex.index {D : Type} (K : SimplicialComplex D) (face : List Nat) : Option Nat :=
  let p := K.findIdx (fun s => decide (s.vertices = face))
  if p < K.length then some p else none

/-- The inner loop of Conversions.hh, lines 44-54, over the boundary faces
still to be looked up: the index of every face, converted to `Index`, is
appended to the column; a failed lookup ends the conversion. -/
def lookupFaces {D : Type} (K : SimplicialComplex D) : List (List Nat) → Option (List Nat)
  | [] => some []
  | face :: rest =>
    match K.index face with
    | none => none
    | some p =>
      match lookupFaces K rest with
      | none => none
      | some ps => some (toIndex p :: ps)

/-- The boundary column of Conversions.hh, lines 41-54, of the simplex `s`. -/
def boundaryColumn {D : Type} (K : SimplicialComplex D) (s : Simplex D) : Option (List Nat) :=
  lookupFaces K s.boundary

/-- The loop of Conversions.hh, lines 39-62, over the simplices still to be
converted; `j` is the column counter. -/
def convertLoop {D : Type} (K : SimplicialComplex D) (max : Nat) :
    List (Simplex D) → Nat → BoundaryMatrix → Option BoundaryMatrix
  | [], _, M => some M
  | s :: rest, j, M =>
    match boundaryColumn K s with
    | none => none
    | some column =>
      match M.setColumn j column with
      | none => none
      | some M' =>
        let j' := toIndex (j + 1)
        if max ≠ 0 ∧ j' ≥ max then some M' else convertLoop K max rest j' M'

/-- The function `makeBoundaryMatrix` of Conversions.hh. -/
def makeBoundaryMatrix {D : Type} (K : SimplicialComplex D) (max : Nat) : Option BoundaryMatrix :=
  convertLoop K max K 0 (BoundaryMatrix.withNumColumns (toIndex K.length))


/-! ## Predicates and closed forms used in the statements and proofs -/

namespace BoundaryMatrix

/-- The representation invariant of a matrix value: one dimension per column,
and a number of columns that fits into `Index`. -/
def WellFormed (M : BoundaryMatrix) : Prop :=
  M.dimensions.length = M.columns.length ∧ M.columns.length < indexModulus

instance wellFormed_decidable (M : BoundaryMatrix) : Decidable M.WellFormed := by
  unfold WellFormed; infer_instance

/-- The invariant of the data model: "row indices in a column are always < its
own column index". -/
def Triangular (M : BoundaryMatrix) : Prop :=
  ∀ j, j < M.columns.length → ∀ r ∈ M.columns.getD j [], r < j

instance triangular_decidable (M : BoundaryMatrix) : Decidable M.Triangular := by
  unfold Triangular; infer_instance

/-- The low of column `j`, `none` for an empty or absent column. -/
def lowOf (M : BoundaryMatrix) (j : Nat) : Option Nat := maxIndex (M.columns.getD j [])

end BoundaryMatrix

/-- The entry column `j` contributes to the pairing, if any: closed form of
the first branch of `columnStep`. -/
def pairEntry (B : BoundaryMatrix) (max numColumns j : Nat) : Option Entry :=
  match B.lowOf j with
  | none => none
  | some i =>
    if max = 0 ∨ i < max then
      some ((pairOf B.isDualized numColumns i j).1, some (pairOf B.isDualized numColumns i j).2)
    else none

/-- Closed form of membership in `creators` after `count` iterations: column
`c` is empty, passes the filter, and no later column processed so far has low
`c`. -/
def survives (B : BoundaryMatrix) (includeAllUnpairedCreators : Bool) (count c : Nat) : Prop :=
  B.lowOf c = none ∧
  keepsCreator B.isDualized (B.dimensions.getD c 0) B.topDimension includeAllUnpairedCreators = true ∧
  ∀ j, j < count → c < j → B.lowOf j ≠ some c

instance survives_decidable (B : BoundaryMatrix) (f : Bool) (count c : Nat) :
    Decidable (survives B f count c) := by
  unfold survives; infer_instance

/-- A reduction strategy that leaves the number of columns, the dimensions
and the `dualized` flag of the matrix alone ("never shrinks or grows its column
count"). -/
def KeepsShape (red : BoundaryMatrix → BoundaryMatrix) : Prop :=
  ∀ X, (red X).columns.length = X.columns.length ∧ (red X).dimensions = X.dimensions ∧
    (red X).dualized = X.dualized

/-- A reduction strategy that maintains the invariant of the data model. -/
def KeepsTriangular (red : BoundaryMatrix → BoundaryMatrix) : Prop :=
  ∀ X, X.Triangular → (red X).Triangular

/-- The creator filter in the words of the specification: "the complex is not
dualized and `j`'s dimension is not the complex's top dimension, OR the complex
is dualized and `j`'s dimension is 0, OR `includeAllUnpairedCreators` is
set". -/
def specKeepsCreator (dualized : Bool) (dimJ topDim : Nat) (includeAllUnpairedCreators : Bool) :
    Bool :=
  (!dualized && dimJ != topDim) || (dualized && dimJ == 0) || includeAllUnpairedCreators

/-- A complex closed under the boundary relation: every boundary face of
every simplex of `K` is found in `K`. -/
def SimplicialComplex.Closed {D : Type} (K : SimplicialComplex D) : Prop :=
  ∀ s ∈ K, ∀ face ∈ s.boundary, (K.index face).isSome = true

instance closed_decidable {D : Type} (K : SimplicialComplex D) : Decidable K.Closed := by
  unfold SimplicialComplex.Closed; infer_instance

/-- The invariant of `Simplex`: the vertex identifiers of every simplex of `K`
are deduplicated. -/
def SimplicialComplex.Deduplicated {D : Type} (K : SimplicialComplex D) : Prop :=
  ∀ s ∈ K, s.vertices.Nodup

instance deduplicated_decidable {D : Type} (K : SimplicialComplex D) :
    Decidable K.Deduplicated := by
  unfold SimplicialComplex.Deduplicated; infer_instance

/-! ## Matrices over the field with two elements, as functions

The proofs on the reduction work with the matrix of a column list as a
function from row and column index to `Bool`, and with the elementary
operations the reduction is made of. -/

/-- A matrix over the field with two elements: `X r c` tells whether row `r`
of column `c` is set. -/
abbrev Mat := Nat → Nat → Bool

/-- The matrix of a list of columns. -/
def entry (cols : List (List Nat)) : Mat := fun r c => decide (r ∈ cols.getD c [])

/-- Addition of column `k` to column `j`. -/
def colop (k j : Nat) (X : Mat) : Mat :=
  fun r c => if c = j then xor (X r j) (X r k) else X r c

/-- Addition of row `a` to row `b`. -/
def rowop (a b : Nat) (X : Mat) : Mat :=
  fun r c => if r = b then xor (X b c) (X a c) else X r c

/-- A sequence of column additions, each given as `(k, j)`: add column `k` to
column `j`. -/
def colops (ops : List (Nat × Nat)) (X : Mat) : Mat :=
  ops.foldl (fun Y op => colop op.1 op.2 Y) X

/-- A sequence of row additions, each given as `(a, b)`: add row `a` to row `b`. -/
def rowops (ops : List (Nat × Nat)) (X : Mat) : Mat :=
  ops.foldl (fun Y op => rowop op.1 op.2 Y) X

/-- Row `i` is the low of column `j`: the largest row set in that column. -/
def IsLow (X : Mat) (i j : Nat) : Prop := X i j = true ∧ ∀ r, i < r → X r j = false

/-- Column `j` is the leftmost column set in row `i`. -/
def IsLeft (X : Mat) (i j : Nat) : Prop := X i j = true ∧ ∀ c, c < j → X i c = false

/-- The anti-transpose of the `n × n` part of a matrix. -/
def antiT (n : Nat) (X : Mat) : Mat :=
  fun r c => decide (r < n) && decide (c < n) && X (n - 1 - c) (n - 1 - r)

/-- All entries of the matrix lie in rows below `n`. -/
def RowBounded (n : Nat) (X : Mat) : Prop := ∀ r c, X r c = true → r < n

/-- All entries of the matrix lie in columns below `n`. -/
def ColBounded (n : Nat) (X : Mat) : Prop := ∀ r c, X r c = true → c < n

/-- No two columns have the same low: the post-condition of a reduction. -/
def LowInjective (X : Mat) : Prop := ∀ i j j', IsLow X i j → IsLow X i j' → j = j'

/-- No two rows have the same leftmost column. -/
def LeftInjective (X : Mat) : Prop := ∀ i i' j, IsLeft X i j → IsLeft X i' j → i = i'

/-- Column additions that only add an earlier column to a later one of the
first `n` columns, as "process columns left to right" does. -/
def ForwardOps (n : Nat) (ops : List (Nat × Nat)) : Prop :=
  ∀ op ∈ ops, op.1 < op.2 ∧ op.2 < n

/-- Row additions that only add a lower row to a row above it, among the
first `n` rows. -/
def UpwardOps (n : Nat) (ops : List (Nat × Nat)) : Prop :=
  ∀ op ∈ ops, op.2 < op.1 ∧ op.1 < n

/-- Index `c` is neither the low of a column nor a column with a low: it stays
unpaired. -/
def IsEssential (X : Mat) (c : Nat) : Prop :=
  (∀ i, ¬ IsLow X i c) ∧ (∀ j, ¬ IsLow X c j)

/-- Index reversal under dualization, on exact natural numbers. -/
def reverseIndex (dualized : Bool) (n x : Nat) : Nat :=
  if dualized then n - 1 - x else x

/-- The entries a reduced matrix `X` with `n` columns gives rise to when all
unpaired creators are included and nothing is truncated: one pair for every
column with a low, one essential entry for every unpaired index, both remapped
when `dualized` is set. -/
def InPairing (dualized : Bool) (n : Nat) (X : Mat) (e : Entry) : Prop :=
  (∃ i j, IsLow X i j ∧
    e = (if dualized then n - 1 - j else i, some (if dualized then n - 1 - i else j))) ∨
  (∃ c, c < n ∧ IsEssential X c ∧ e = (reverseIndex dualized n c, none))

/-- Sum over the field with two elements of `w 0, ..., w (n-1)`. -/
def parity : Nat → (Nat → Bool) → Bool
  | 0, _ => false
  | n + 1, w => xor (parity n w) (w n)

/-- The boundary of a boundary is zero: for every column `j` and every row
`r`, the number of rows `i` of column `j` whose own column contains `r` is
even.  This is what makes a matrix the boundary matrix of a complex. -/
def BoundaryMatrix.BoundarySquaredZero (M : BoundaryMatrix) : Prop :=
  ∀ j, j < M.columns.length → ∀ r, r < M.columns.length →
    ((List.range M.columns.length).filter
      (fun i => decide (r ∈ M.columns.getD i []) && decide (i ∈ M.columns.getD j []))).length % 2 = 0

instance boundarySquaredZero_decidable (M : BoundaryMatrix) :
    Decidable M.BoundarySquaredZero := by
  unfold BoundaryMatrix.BoundarySquaredZero; infer_instance

/-- The number of times the index `k` occurs in a pairing, as the creator of
an entry (of a pair or of an essential entry) or as the destroyer of a pair. -/
def occurrences (k : Nat) (p : List Entry) : Nat :=
  p.countP (fun e => decide (e.1 = k)) + p.countP (fun e => decide (e.2 = some k))

/-- The contract of a reduction strategy: it keeps the shape and the invariant
of the matrix, it only adds earlier columns to later ones, and in its result no
two non-empty columns have the same low. -/
def IsColumnReduction (red : BoundaryMatrix → BoundaryMatrix) : Prop :=
  KeepsShape red ∧ KeepsTriangular red ∧
    ∀ X, LowInjective (entry (red X).columns) ∧
      ∃ ops : List (Nat × Nat), ForwardOps X.columns.length ops ∧
        entry (red X).columns = colops ops (entry X.columns)

/-! ## Maximal clique enumeration -/

/-- Modelled from the spec: the vertices of the graph ("1-skeleton") of a
complex, every vertex identifier that occurs in a simplex of `K`, in ascending
order (MaximalCliques.hh is not part of the sources at hand). -/
def SimplicialComplex.vertexList {D : Type} (K : SimplicialComplex D) : List Nat :=
  ((K.flatMap (fun s => s.vertices)).dedup).insertionSort (· ≤ ·)

/-- Modelled from the spec: adjacency in the graph ("1-skeleton") of a
complex: two different vertices are adjacent when `K` has an edge, a simplex
with two vertices, that contains both. -/
def SimplicialComplex.adjacent {D : Type} (K : SimplicialComplex D) (u v : Nat) : Bool :=
  (u != v) && K.any (fun s => s.vertices.length == 2 && s.vertices.contains u &&
    s.vertices.contains v)

/-- Modelled from the spec: the loop of the backtracking search over the
candidates `v` in turn: the cliques that extend `R` by `v` are enumerated with
the candidates `P` and the excluded vertices `X` restricted to the neighbours
of `v`, then `v` moves from `P` to `X`. -/
def enumerateLoop (adj : Nat → Nat → Bool)
    (recurse : List Nat → List Nat → List Nat → List (List Nat)) (R : List Nat) :
    List Nat → List Nat → List Nat → List (List Nat)
  | [], _, _ => []
  | v :: rest, P, X =>
    recurse (v :: R) (P.filter (adj v)) (X.filter (adj v)) ++
      enumerateLoop adj recurse R rest (P.erase v) (v :: X)

/-- Modelled from the spec: the pivot of the Bron-Kerbosch search "with
pivoting", a vertex of `P` or `X` with the largest number of neighbours in
`P`. -/
def choosePivot (adj : Nat → Nat → Bool) (P X : List Nat) : Option Nat :=
  match P ++ X with
  | [] => none
  | u :: us =>
    some (us.foldl (fun best w =>
      if (P.filter (adj best)).length < (P.filter (adj w)).length then w else best) u)

/-- Modelled from the spec: "a Bron-Kerbosch-style backtracking search with
pivoting".  `R` is the clique built so far, `P` the candidates, `X` the
excluded vertices; a clique is reported, as a sorted vertex set, when both `P`
and `X` are empty.  Only the candidates that are not neighbours of the pivot
are tried.  Every call on a deeper level has fewer candidates, so `fuel`
larger than the length of `P` is never used up. -/
def bronKerbosch (adj : Nat → Nat → Bool) :
    Nat → List Nat → List Nat → List Nat → List (List Nat)
  | 0, _, _, _ => []
  | fuel + 1, R, P, X =>
    if P.isEmpty && X.isEmpty then [R.insertionSort (· ≤ ·)]
    else
      match choosePivot adj P X with
      | none => []
      | some u =>
        enumerateLoop adj (bronKerbosch adj fuel) R (P.filter (fun v => !adj u v)) P X

/-- Modelled from the spec: the recursion of "Koch's algorithm": a clique is
reported when both `P` and `X` are empty, otherwise every candidate of `P` is
tried in the order in which `P` lists them. -/
def koch (adj : Nat → Nat → Bool) :
    Nat → List Nat → List Nat → List Nat → List (List Nat)
  | 0, _, _, _ => []
  | fuel + 1, R, P, X =>
    if P.isEmpty && X.isEmpty then [R.insertionSort (· ≤ ·)]
    else enumerateLoop adj (koch adj fuel) R P P X

/-- Modelled from the spec: a vertex of smallest degree among the vertices
`rest`, `best` being the smallest found so far; degrees count neighbours
among `remaining`. -/
def minDegreeVertex (adj : Nat → Nat → Bool) (remaining : List Nat) (best : Nat)
    (rest : List Nat) : Nat :=
  rest.foldl (fun b w =>
    if (remaining.filter (adj w)).length < (remaining.filter (adj b)).length then w else b) best

/-- Modelled from the spec: a degeneracy ordering of the vertices
`remaining`: a vertex of smallest degree in the remaining graph comes first
and is removed. -/
def degeneracyOrder (adj : Nat → Nat → Bool) : Nat → List Nat → List Nat
  | 0, _ => []
  | fuel + 1, remaining =>
    match remaining with
    | [] => []
    | u :: us =>
      let v := minDegreeVertex adj remaining u us
      v :: degeneracyOrder adj fuel (remaining.erase v)

/-- Modelled from the spec: `maximalCliquesBronKerbosch( K )` of
MaximalCliques.hh, which is not part of the sources at hand: the
Bron-Kerbosch search on the graph of `K`, started with all vertices as
candidates. -/
def maximalCliquesBronKerbosch {D : Type} (K : SimplicialComplex D) : List (List Nat) :=
  bronKerbosch K.adjacent (K.vertexList.length + 1) [] K.vertexList []

/-- Modelled from the spec: `maximalCliquesKoch( K )` of MaximalCliques.hh,
which is not part of the sources at hand: "Koch's algorithm
(degeneracy-ordering based)", the candidates are handed to the recursion in a
degeneracy ordering of the vertices. -/
def maximalCliquesKoch {D : Type} (K : SimplicialComplex D) : List (List Nat) :=
  koch K.adjacent (K.vertexList.length + 1) []
    (degeneracyOrder K.adjacent K.vertexList.length K.vertexList) []

/-- An inclusion-maximal clique of the graph with vertices `V` and adjacency
`adj`, as a list of vertices: all vertices belong to the graph, any two
different ones are adjacent, and no further vertex of the graph is adjacent to
all of them. -/
def IsMaximalClique (adj : Nat → Nat → Bool) (V c : List Nat) : Prop :=
  (∀ v ∈ c, v ∈ V) ∧ (∀ u ∈ c, ∀ v ∈ c, u ≠ v → adj u v = true) ∧
    ∀ w ∈ V, w ∉ c → ∃ u ∈ c, adj w u = false

instance isMaximalClique_decidable (adj : Nat → Nat → Bool) (V c : List Nat) :
    Decidable (IsMaximalClique adj V c) := by
  unfold IsMaximalClique; infer_instance

/-- The state of the backtracking search: `R` is a duplicate-free clique of
the graph, `P` is duplicate-free and disjoint from `X`, and `P` and `X`
together are the vertices outside of `R` adjacent to all of `R`. -/
def CliqueInv (adj : Nat → Nat → Bool) (V R P X : List Nat) : Prop :=
  R.Nodup ∧ (∀ v ∈ R, v ∈ V) ∧ (∀ u ∈ R, ∀ v ∈ R, u ≠ v → adj u v = true) ∧
    P.Nodup ∧ (∀ v ∈ P, v ∉ X) ∧
    ∀ v, (v ∈ P ∨ v ∈ X) ↔ (v ∈ V ∧ v ∉ R ∧ ∀ u ∈ R, adj v u = true)

/-- The cliques a call of the search with state `R`, `P` has to report: the
maximal cliques, as ascending lists, that contain `R` and, apart from `R`,
only candidates of `P`. -/
def InScope (adj : Nat → Nat → Bool) (V R P c : List Nat) : Prop :=
  c.Sorted (· < ·) ∧ IsMaximalClique adj V c ∧ (∀ v ∈ R, v ∈ c) ∧ ∀ v ∈ c, v ∈ R ∨ v ∈ P

/-- The contract of the recursion, for calls with fewer than `bound`
candidates: every clique in scope is reported, once, and nothing else. -/
def RecSpec (adj : Nat → Nat → Bool) (V : List Nat)
    (recurse : List Nat → List Nat → List Nat → List (List Nat)) (bound : Nat) : Prop :=
  ∀ R P X, CliqueInv adj V R P X → P.length < bound →
    (recurse R P X).Nodup ∧ ∀ c, c ∈ recurse R P X ↔ InScope adj V R P c

/-- The boundary faces of a simplex in terms of its vertices alone. -/
def facesOf (vs : List Nat) : List (List Nat) :=
  if vs.length ≤ 1 then [] else (List.range vs.length).map (fun p => vs.eraseIdx p)

/-- A complex in filtration order: "faces precede cofaces", every boundary
face of the simplex at position `j` has an index below `j`. -/
def SimplicialComplex.FacesFirst {D : Type} (K : SimplicialComplex D) : Prop :=
  ∀ j, j < K.length → ∀ s, K[j]? = some s → ∀ face ∈ s.boundary,
    ∀ p, K.index face = some p → p < j

/-! ## Thresholding of the clique-communities tool -/

/-- The algorithm `std::remove_copy_if( first, last, std::back_inserter( out ), pred )`:
the elements for which `pred` does not hold are appended to `out`, one after
the other. -/
def removeCopyIf {α : Type} (pred : α → Bool) : List α → List α
  | [] => []
  | x :: xs => if pred x then removeCopyIf pred xs else x :: removeCopyIf pred xs

/-- Modelled from the spec: the constructor `SimplicialComplex( begin, end )`
(SimplicialComplex.hh is not part of the sources at hand): "an ordered
sequence of Simplex", the simplices of the range in their order. -/
def SimplicialComplex.ofRange {D : Type} (simplices : List (Simplex D)) : SimplicialComplex D :=
  simplices

/-- The values of `DataType = double`, as the comparisons of IEEE 754 see
them: `nan` is a NaN, `num v` is a number, an infinity included.  `V` holds
the numbers in their order; numbers that compare equal, the two zeros, are one
value of `V`. -/
inductive Weight (V : Type) where
  | nan : Weight V
  | num : V → Weight V
deriving DecidableEq, Repr

/-- The comparison `a > b` of two doubles: it is false as soon as one of the
two is a NaN. -/
def Weight.gt {V : Type} [LinearOrder V] : Weight V → Weight V → Bool
  | Weight.num a, Weight.num b => decide (a > b)
  | _, _ => false

/-- The comparison `a <= b` of two doubles: it is false as soon as one of the
two is a NaN. -/
def Weight.le {V : Type} [LinearOrder V] : Weight V → Weight V → Bool
  | Weight.num a, Weight.num b => decide (a ≤ b)
  | _, _ => false

/-- The thresholding block of `main`, clique-communities.cc, lines 103-117:
the simplices `s` for which the comparison of doubles `s.data() > threshold`
holds are left out, the complex is rebuilt from the others.  The threshold is
any double, `std::stod` at line 72 reads a NaN or an infinity as well. -/
def thresholdComplex {V : Type} [LinearOrder V] (K : SimplicialComplex (Weight V))
    (threshold : Weight V) : SimplicialComplex (Weight V) :=
  SimplicialComplex.ofRange (removeCopyIf (fun s => Weight.gt s.data threshold) K)

/-! ## Index arithmetic lemmas -/

theorem indexSub_eq_sub {a b : Nat} (ha : a < indexModulus) (hb : b ≤ a) :
    indexSub a b = a - b := by
  unfold indexSub
  have hb' : b < indexModulus := lt_of_le_of_lt hb ha
  rw [Nat.mod_eq_of_lt ha, Nat.mod_eq_of_lt hb']
  have : a + indexModulus - b = (a - b) + indexModulus := by omega
  rw [this, Nat.add_mod_right, Nat.mod_eq_of_lt (by omega)]

theorem indexSub_lt_modulus (a b : Nat) : indexSub a b < indexModulus := by
  unfold indexSub
  exact Nat.mod_lt _ (by unfold indexModulus indexBits; norm_num)

/-! ## The low of a column -/

theorem foldl_max_spec (xs : List Nat) (x : Nat) :
    (xs.foldl Nat.max x = x ∨ xs.foldl Nat.max x ∈ xs) ∧ x ≤ xs.foldl Nat.max x ∧
      ∀ y ∈ xs, y ≤ xs.foldl Nat.max x := by
  induction xs generalizing x with
  | nil => simp
  | cons a as ih =>
    simp only [List.foldl_cons, List.mem_cons]
    obtain ⟨h1, h2, h3⟩ := ih (Nat.max x a)
    refine ⟨?_, ?_, ?_⟩
    · rcases h1 with h | h
      · rcases Nat.le_total x a with hxa | hxa
        · right; left; rw [h]; exact Nat.max_eq_right hxa
        · left; rw [h]; exact Nat.max_eq_left hxa
      · right; right; exact h
    · exact le_trans (Nat.le_max_left x a) h2
    · intro y hy
      rcases hy with rfl | hy
      · exact le_trans (Nat.le_max_right x y) h2
      · exact h3 y hy

theorem maxIndex_eq_none {c : List Nat} : maxIndex c = none ↔ c = [] := by
  cases c <;> simp [maxIndex]

theorem maxIndex_eq_some {c : List Nat} {i : Nat} :
    maxIndex c = some i ↔ i ∈ c ∧ ∀ x ∈ c, x ≤ i := by
  cases c with
  | nil => simp [maxIndex]
  | cons a as =>
    obtain ⟨h1, h2, h3⟩ := foldl_max_spec as a
    simp only [maxIndex, Option.some.injEq, List.mem_cons]
    constructor
    · rintro rfl
      refine ⟨?_, ?_⟩
      · rcases h1 with h | h
        · left; exact h
        · right; exact h
      · intro x hx
        rcases hx with rfl | hx
        · exact h2
        · exact h3 x hx
    · rintro ⟨hi, hle⟩
      apply le_antisymm
      · rcases h1 with h | h
        · rw [h]; exact hle a (Or.inl rfl)
        · exact hle _ (Or.inr h)
      · rcases hi with rfl | hi
        · exact h2
        · exact h3 i hi


/-! ## The loop of `calculatePersistencePairing` -/

theorem columnStep_eq (B : BoundaryMatrix) (f : Bool) (max N : Nat) (st : LoopState) (j : Nat)
    (hj : j < B.columns.length) (hd : B.dimensions.length = B.columns.length) :
    columnStep B f max N st j =
      match B.lowOf j with
      | some i => some
          { pairing := st.pairing ++ (pairEntry B max N j).toList
            creators := st.creators.erase i }
      | none => some
          { pairing := st.pairing
            creators :=
              if keepsCreator B.isDualized (B.dimensions.getD j 0) B.topDimension f = true then
                (if j ∈ st.creators then st.creators else st.creators ++ [j])
              else st.creators } := by
  have hj' : j < B.dimensions.length := by omega
  have hc : B.columns[j]? = some (B.columns.getD j []) := by
    simp [List.getD, List.getElem?_eq_getElem hj]
  have hdim : B.dimensions[j]? = some (B.dimensions.getD j 0) := by
    simp [List.getD, List.getElem?_eq_getElem hj']
  unfold columnStep BoundaryMatrix.getMaximumIndex BoundaryMatrix.getDimension pairEntry
    BoundaryMatrix.lowOf
  rw [hc, hdim]
  cases hlow : maxIndex (B.columns.getD j []) with
  | none =>
    simp only [hlow]
    split <;> rfl
  | some i =>
    simp only [hlow]
    split <;> simp

theorem pairingLoop_closed (B : BoundaryMatrix) (f : Bool) (max N : Nat)
    (hd : B.dimensions.length = B.columns.length) :
    ∀ k, k ≤ B.columns.length →
      pairingLoop B f max N k = some
        { pairing := (List.range k).filterMap (pairEntry B max N)
          creators := (List.range k).filter (fun c => decide (survives B f k c)) } := by
  intro k
  induction k with
  | zero => intro _; simp [pairingLoop]
  | succ k ih =>
    intro hk
    have hk' : k < B.columns.length := by omega
    rw [pairingLoop, ih (by omega)]
    simp only
    rw [columnStep_eq B f max N _ k hk' hd]
    have hnd : (List.filter (fun c => decide (survives B f k c)) (List.range k)).Nodup :=
      (List.nodup_range k).filter _
    cases hlow : B.lowOf k with
    | none =>
      simp only [LoopState.mk.injEq, Option.some.injEq]
      refine ⟨?_, ?_⟩
      · rw [List.range_succ, List.filterMap_append]
        simp [pairEntry, hlow]
      · have hsame : ∀ c, c < k → (survives B f (k + 1) c ↔ survives B f k c) := by
          intro c hc
          unfold survives
          constructor
          · rintro ⟨h1, h2, h3⟩
            exact ⟨h1, h2, fun j hj hcj => h3 j (by omega) hcj⟩
          · rintro ⟨h1, h2, h3⟩
            refine ⟨h1, h2, fun j hj hcj => ?_⟩
            rcases Nat.lt_succ_iff_lt_or_eq.mp hj with h | h
            · exact h3 j h hcj
            · subst h; rw [hlow]; simp
        have hfilt : List.filter (fun c => decide (survives B f (k + 1) c)) (List.range k) =
            List.filter (fun c => decide (survives B f k c)) (List.range k) := by
          apply List.filter_congr
          intro c hc
          rw [List.mem_range] at hc
          simp [hsame c hc]
        have hnotin : k ∉ List.filter (fun c => decide (survives B f k c)) (List.range k) := by
          simp
        rw [List.range_succ, List.filter_append, hfilt, if_neg hnotin]
        have hk_surv : survives B f (k + 1) k ↔
            keepsCreator B.isDualized (B.dimensions.getD k 0) B.topDimension f = true := by
          unfold survives
          constructor
          · rintro ⟨_, h2, _⟩; exact h2
          · intro h2
            exact ⟨hlow, h2, fun j hj hcj => by omega⟩
        rw [List.filter_cons, List.filter_nil]
        by_cases hkeep : keepsCreator B.isDualized (B.dimensions.getD k 0) B.topDimension f = true
        · rw [if_pos hkeep, if_pos (decide_eq_true (hk_surv.mpr hkeep))]
        · rw [if_neg hkeep, if_neg (by simpa using fun h => hkeep (hk_surv.mp h)), List.append_nil]
    | some i =>
      simp only [LoopState.mk.injEq, Option.some.injEq]
      refine ⟨?_, ?_⟩
      · rw [List.range_succ, List.filterMap_append]
        rfl
      · rw [List.Nodup.erase_eq_filter hnd, List.filter_filter, List.range_succ, List.filter_append]
        have hk_surv : ¬ survives B f (k + 1) k := by
          unfold survives
          rintro ⟨h1, _⟩
          rw [hlow] at h1
          exact Option.noConfusion h1
        have hlast : List.filter (fun c => decide (survives B f (k + 1) c)) [k] = [] := by
          rw [List.filter_cons, List.filter_nil, if_neg (by simpa using hk_surv)]
        rw [hlast, List.append_nil]
        apply List.filter_congr
        intro c hc
        rw [List.mem_range] at hc
        have : survives B f (k + 1) c ↔ (c ≠ i ∧ survives B f k c) := by
          unfold survives
          constructor
          · rintro ⟨h1, h2, h3⟩
            refine ⟨?_, h1, h2, fun j hj hcj => h3 j (by omega) hcj⟩
            intro hci
            apply h3 k (by omega) hc
            rw [hlow, hci]
          · rintro ⟨hne, h1, h2, h3⟩
            refine ⟨h1, h2, fun j hj hcj => ?_⟩
            rcases Nat.lt_succ_iff_lt_or_eq.mp hj with h | h
            · exact h3 j h hcj
            · subst h; rw [hlow]; intro heq; exact hne (Option.some.inj heq).symm
        have e : decide (survives B f (k + 1) c) =
            (decide (c ≠ i) && decide (survives B f k c)) := by
          rw [decide_eq_decide.mpr this]; exact Bool.decide_and _ _
        rw [e]
        by_cases hci : c = i <;> simp [hci]

theorem pairingLoop_none_of_gt (B : BoundaryMatrix) (f : Bool) (max N : Nat) :
    ∀ k, B.columns.length < k → pairingLoop B f max N k = none := by
  intro k
  induction k with
  | zero => intro h; omega
  | succ k ih =>
    intro hk
    rw [pairingLoop]
    cases hloop : pairingLoop B f max N k with
    | none => rfl
    | some st =>
      simp only
      have hkn : k = B.columns.length := by
        by_contra hne
        rw [ih (by omega)] at hloop
        exact Option.noConfusion hloop
      have hnone : B.columns[k]? = none := by
        rw [hkn]; exact List.getElem?_eq_none (le_refl _)
      unfold columnStep BoundaryMatrix.getMaximumIndex
      rw [hnone]

theorem mem_finishPairing {dualized : Bool} {N : Nat} {pairing : List Entry} {order : List Nat}
    {e : Entry} :
    e ∈ finishPairing dualized N pairing order ↔
      e ∈ pairing ∨ ∃ c ∈ order, e = (essentialOf dualized N c, none) := by
  unfold finishPairing
  rw [(List.perm_insertionSort entryLE _).mem_iff, List.mem_append, List.mem_map]
  constructor
  · rintro (h | ⟨c, hc, rfl⟩)
    · exact Or.inl h
    · exact Or.inr ⟨c, hc, rfl⟩
  · rintro (h | ⟨c, hc, rfl⟩)
    · exact Or.inl h
    · exact Or.inr ⟨c, hc, rfl⟩

theorem calculatePersistencePairing_eq_some (red : BoundaryMatrix → BoundaryMatrix)
    (M : BoundaryMatrix) (f : Bool) (max : Nat)
    (hd : (red M).dimensions.length = (red M).columns.length)
    (hmax : max ≤ (red M).columns.length) :
    calculatePersistencePairing red M f max = some
      (finishPairing (red M).isDualized (loopBound (red M) max)
        ((List.range (loopBound (red M) max)).filterMap
          (pairEntry (red M) max (loopBound (red M) max)))
        ((List.range (loopBound (red M) max)).filter
          (fun c => decide (survives (red M) f (loopBound (red M) max) c)))) := by
  have hN : loopBound (red M) max ≤ (red M).columns.length := by
    unfold loopBound BoundaryMatrix.getNumColumns
    split <;> omega
  unfold calculatePersistencePairing
  simp only
  rw [pairingLoop_closed (red M) f max _ hd _ hN]

theorem loopBound_le_of_some (red : BoundaryMatrix → BoundaryMatrix)
    (M : BoundaryMatrix) (f : Bool) (max : Nat) (p : List Entry)
    (h : calculatePersistencePairing red M f max = some p) :
    loopBound (red M) max ≤ (red M).columns.length := by
  by_contra hlt
  unfold calculatePersistencePairing at h
  simp only at h
  rw [pairingLoop_none_of_gt (red M) f max _ _ (by omega)] at h
  exact Option.noConfusion h

theorem indexSub_reverse_lt {N x : Nat} (hx : x < N) :
    indexSub (indexSub N 1) x < N := by
  by_cases hN : N < indexModulus
  · rw [indexSub_eq_sub hN (by omega), indexSub_eq_sub (by omega) (by omega)]
    omega
  · exact lt_of_lt_of_le (indexSub_lt_modulus _ _) (by omega)

theorem indexSub_reverse_eq {N x : Nat} (hN : N < indexModulus) (hx : x < N) :
    indexSub (indexSub N 1) x = N - 1 - x := by
  rw [indexSub_eq_sub hN (by omega), indexSub_eq_sub (by omega) (by omega)]

/-! ## The standard reduction keeps shape and invariant -/

theorem mem_addColumns {a b : List Nat} {x : Nat} :
    x ∈ addColumns a b ↔ (x ∈ a ∧ x ∉ b) ∨ (x ∈ b ∧ x ∉ a) := by
  unfold addColumns
  rw [(List.perm_insertionSort _ _).mem_iff, List.mem_append, List.mem_filter, List.mem_filter]
  simp

theorem reduceColumn_subset (earlier : List (List Nat)) :
    ∀ (fuel : Nat) (c : List Nat) (x : Nat), x ∈ reduceColumn earlier fuel c →
      x ∈ c ∨ ∃ d ∈ earlier, x ∈ d := by
  intro fuel
  induction fuel with
  | zero => intro c x hx; exact Or.inl hx
  | succ fuel ih =>
    intro c x hx
    rw [reduceColumn] at hx
    cases hlow : maxIndex c with
    | none => rw [hlow] at hx; exact Or.inl hx
    | some i =>
      rw [hlow] at hx
      simp only at hx
      cases hfind : List.find? (fun d => decide (maxIndex d = some i)) earlier with
      | none => rw [hfind] at hx; exact Or.inl hx
      | some d =>
        rw [hfind] at hx
        simp only at hx
        have hd : d ∈ earlier := List.mem_of_find?_eq_some hfind
        rcases ih _ x hx with h | h
        · rcases mem_addColumns.mp h with ⟨h1, _⟩ | ⟨h1, _⟩
          · exact Or.inl h1
          · exact Or.inr ⟨d, hd, h1⟩
        · exact Or.inr h

theorem reduceColumns_length :
    ∀ (todo done : List (List Nat)), (reduceColumns done todo).length = done.length + todo.length := by
  intro todo
  induction todo with
  | nil => intro done; simp [reduceColumns]
  | cons c rest ih =>
    intro done
    rw [reduceColumns, ih]
    simp
    omega

theorem reduceColumns_triangular :
    ∀ (todo done : List (List Nat)),
      (∀ (j : Nat) (c : List Nat), done[j]? = some c → ∀ r ∈ c, r < j) →
      (∀ (t : Nat) (c : List Nat), todo[t]? = some c → ∀ r ∈ c, r < done.length + t) →
      ∀ (j : Nat) (c : List Nat), (reduceColumns done todo)[j]? = some c → ∀ r ∈ c, r < j := by
  intro todo
  induction todo with
  | nil => intro done hdone _; simpa [reduceColumns] using hdone
  | cons c0 rest ih =>
    intro done hdone htodo
    rw [reduceColumns]
    apply ih
    · intro j c hj r hr
      by_cases hjl : j < done.length
      · rw [List.getElem?_append_left hjl] at hj
        exact hdone j c hj r hr
      · have hjle : done.length ≤ j := by omega
        rw [List.getElem?_append_right hjle] at hj
        have hj0 : j - done.length = 0 := by
          by_contra hne
          have : ([reduceColumn done (reduceFuel c0) c0] : List (List Nat))[j - done.length]? = none := by
            apply List.getElem?_eq_none
            simp only [List.length_singleton]
            omega
          rw [this] at hj
          exact Option.noConfusion hj
        rw [hj0] at hj
        simp only [List.getElem?_cons_zero, Option.some.injEq] at hj
        subst hj
        have hjeq : j = done.length := by omega
        rcases reduceColumn_subset done _ c0 r hr with h | ⟨d, hd, h⟩
        · have := htodo 0 c0 (by simp) r h
          omega
        · obtain ⟨k, hk⟩ := List.getElem?_of_mem hd
          have hklt : k < done.length := by
            by_contra hge
            rw [List.getElem?_eq_none (by omega)] at hk
            exact Option.noConfusion hk
          have := hdone k d hk r h
          omega
    · intro t c ht r hr
      have := htodo (t + 1) c (by simpa using ht) r hr
      simp only [List.length_append, List.length_singleton]
      omega

theorem triangular_iff (M : BoundaryMatrix) :
    M.Triangular ↔ ∀ (j : Nat) (c : List Nat), M.columns[j]? = some c → ∀ r ∈ c, r < j := by
  unfold BoundaryMatrix.Triangular
  constructor
  · intro h j c hj r hr
    have hjl : j < M.columns.length := by
      by_contra hge
      rw [List.getElem?_eq_none (by omega)] at hj
      exact Option.noConfusion hj
    apply h j hjl r
    simpa [List.getD, hj] using hr
  · intro h j hj r hr
    apply h j (M.columns.getD j []) _ r hr
    simp [List.getD, List.getElem?_eq_getElem hj]

theorem standardReduction_keepsShape : KeepsShape standardReduction := by
  intro X
  refine ⟨?_, rfl, rfl⟩
  simp [standardReduction, reduceColumns_length]

theorem standardReduction_keepsTriangular : KeepsTriangular standardReduction := by
  intro X hX
  rw [triangular_iff] at hX ⊢
  apply reduceColumns_triangular X.columns []
  · intro j c hj; simp at hj
  · intro t c ht r hr
    have := hX t c ht r hr
    simpa using this

/-! ## Claims on the creator filter and the index arithmetic -/

theorem keepsCreator_iff (dualized : Bool) (d top : Nat) (f : Bool) :
    keepsCreator dualized d top f = true ↔
      ((dualized = false ∧ d ≠ top) ∨ (dualized = true ∧ d ≠ 0) ∨ f = true) := by
  unfold keepsCreator
  cases dualized <;> cases f <;> simp

theorem lowOf_eq_none_of_getMaximumIndex {B : BoundaryMatrix} {j x : Nat}
    (h : B.getMaximumIndex j = some (x, false)) : B.lowOf j = none := by
  unfold BoundaryMatrix.getMaximumIndex at h
  unfold BoundaryMatrix.lowOf
  cases hc : B.columns[j]? with
  | none => rw [hc] at h; exact Option.noConfusion h
  | some c =>
    rw [hc] at h
    simp only at h
    have hget : B.columns.getD j [] = c := by simp [List.getD, hc]
    rw [hget]
    cases hm : maxIndex c with
    | none => rfl
    | some i =>
      rw [hm] at h
      simp at h

/-- C1 (amended): for every matrix and every empty column `j` of it, the loop
of `calculatePersistencePairing` reaches the end of iteration `j`, and `j` is
in `creators` there if and only if the matrix is not dualized and the dimension
of `j` is not the top dimension, or the matrix is dualized and the dimension of
`j` is not 0, or `includeAllUnpairedCreators` is set. -/
theorem creator_recorded_iff (B : BoundaryMatrix) (f : Bool) (max N j : Nat)
    (hd : B.dimensions.length = B.columns.length) (hj : j < B.columns.length)
    (hempty : B.getMaximumIndex j = some (0, false)) :
    ∃ st d, pairingLoop B f max N (j + 1) = some st ∧ B.getDimension j = some d ∧
      (j ∈ st.creators ↔
        ((B.isDualized = false ∧ d ≠ B.topDimension) ∨ (B.isDualized = true ∧ d ≠ 0) ∨
          f = true)) := by
  refine ⟨_, B.dimensions.getD j 0, pairingLoop_closed B f max N hd (j + 1) (by omega), ?_, ?_⟩
  · unfold BoundaryMatrix.getDimension
    have hj' : j < B.dimensions.length := by omega
    simp [List.getD, List.getElem?_eq_getElem hj']
  · simp only [List.mem_filter, List.mem_range, decide_eq_true_eq]
    rw [← keepsCreator_iff]
    unfold survives
    constructor
    · rintro ⟨_, _, h, _⟩; exact h
    · intro h
      exact ⟨by omega, lowOf_eq_none_of_getMaximumIndex hempty, h, fun k hk hjk => by omega⟩

/-- Witness of C1: the dualized one-column matrix whose only column is empty and has dimension 1. -/
theorem creator_recorded_iff_witness :
    ∃ st d, pairingLoop { columns := [[]], dimensions := [1], dualized := true } false 0 1 1
        = some st ∧
      BoundaryMatrix.getDimension { columns := [[]], dimensions := [1], dualized := true } 0
        = some d ∧
      (0 ∈ st.creators ↔
        ((BoundaryMatrix.isDualized { columns := [[]], dimensions := [1], dualized := true } = false ∧
            d ≠ BoundaryMatrix.topDimension { columns := [[]], dimensions := [1], dualized := true }) ∨
          (BoundaryMatrix.isDualized { columns := [[]], dimensions := [1], dualized := true } = true ∧
            d ≠ 0) ∨
          false = true)) :=
  creator_recorded_iff { columns := [[]], dimensions := [1], dualized := true } false 0 1 0
    (by decide) (by decide) (by decide)

/-- Counterexample to C1 as stated: in the dualized one-column matrix whose
only column is empty and has dimension 0, with the flag unset, the filter in
the words of the specification records column 0, and the loop does not. -/
theorem creator_filter_counterexample :
    ¬ (∀ st, pairingLoop { columns := [[]], dimensions := [0], dualized := true } false 0 1 1
          = some st →
        (0 ∈ st.creators ↔ specKeepsCreator true 0 0 false = true)) := by
  intro h
  have h1 := h { pairing := [], creators := [] } (by decide)
  revert h1
  decide

/-- C2 (evaluation at the failing input): on the dualized three-column matrix
with columns `[], [0], [0]` and `max = 2`, column `j = 1` with maximal index
`i = 0` is recorded as the pair `(0, 1)`, that is `(max-1-j, max-1-i)`, and not
as `(n-1-j, n-1-i) = (1, 2)`. -/
theorem dualized_pair_uses_max :
    calculatePersistencePairing standardReduction
        { columns := [[], [0], [0]], dimensions := [0, 1, 1], dualized := true } false 2
      = some [(0, some 1)] ∧
    (BoundaryMatrix.getNumColumns
        { columns := [[], [0], [0]], dimensions := [0, 1, 1], dualized := true } - 1 - 1,
      BoundaryMatrix.getNumColumns
        { columns := [[], [0], [0]], dimensions := [0, 1, 1], dualized := true } - 1 - 0)
      = (1, 2) := by
  decide

/-- C3 (evaluation at the failing input): on the one-column matrix with an
empty column, `max = 2` makes the loop ask for column 1, which the matrix does
not have, and the call fails, while `max = 1` returns a pairing. -/
theorem max_beyond_columns_fails :
    calculatePersistencePairing standardReduction
        { columns := [[]], dimensions := [0], dualized := false } true 2 = none ∧
    BoundaryMatrix.getMaximumIndex
        (standardReduction { columns := [[]], dimensions := [0], dualized := false }) 1 = none ∧
    calculatePersistencePairing standardReduction
        { columns := [[]], dimensions := [0], dualized := false } true 1 = some [(0, none)] := by
  decide

theorem columnStep_bound (B : BoundaryMatrix) (f : Bool) (max : Nat) (hmax : max ≠ 0)
    (j : Nat) (st st' : LoopState)
    (hP : (∀ e ∈ st.pairing, e.1 < max ∧ ∀ d, e.2 = some d → d < max) ∧
      ∀ c ∈ st.creators, c < j)
    (hj : j < max) (hstep : columnStep B f max max st j = some st') :
    (∀ e ∈ st'.pairing, e.1 < max ∧ ∀ d, e.2 = some d → d < max) ∧
      ∀ c ∈ st'.creators, c < j + 1 := by
  obtain ⟨hpair, hcre⟩ := hP
  unfold columnStep at hstep
  cases hmi : B.getMaximumIndex j with
  | none => rw [hmi] at hstep; exact Option.noConfusion hstep
  | some iv =>
    obtain ⟨i, valid⟩ := iv
    rw [hmi] at hstep
    cases valid with
    | true =>
      simp only at hstep
      have hcre' : ∀ c ∈ st.creators.erase i, c < j + 1 := fun c hc =>
        Nat.lt_succ_of_lt (hcre c (List.mem_of_mem_erase hc))
      by_cases hg : max = 0 ∨ i < max
      · rw [if_pos hg] at hstep
        have hi : i < max := by
          rcases hg with h | h
          · exact absurd h hmax
          · exact h
        simp only [Option.some.injEq] at hstep
        subst hstep
        refine ⟨?_, hcre'⟩
        intro e he
        rcases List.mem_append.mp he with h | h
        · exact hpair e h
        · simp only [List.mem_singleton] at h
          subst h
          unfold pairOf
          cases B.isDualized with
          | false =>
            simp only [Bool.false_eq_true, if_false]
            refine ⟨hi, fun d hd => ?_⟩
            simp only [Option.some.injEq] at hd
            omega
          | true =>
            simp only [if_true]
            refine ⟨indexSub_reverse_lt hj, fun d hd => ?_⟩
            simp only [Option.some.injEq] at hd
            rw [← hd]
            exact indexSub_reverse_lt hi
      · rw [if_neg hg] at hstep
        simp only [Option.some.injEq] at hstep
        subst hstep
        exact ⟨hpair, hcre'⟩
    | false =>
      simp only at hstep
      cases hdim : B.getDimension j with
      | none => rw [hdim] at hstep; exact Option.noConfusion hstep
      | some d =>
        rw [hdim] at hstep
        simp only at hstep
        split at hstep
        · simp only [Option.some.injEq] at hstep
          subst hstep
          refine ⟨hpair, ?_⟩
          intro c hc
          simp only at hc
          split at hc
          · exact Nat.lt_succ_of_lt (hcre c hc)
          · rcases List.mem_append.mp hc with h | h
            · exact Nat.lt_succ_of_lt (hcre c h)
            · simp only [List.mem_singleton] at h
              omega
        · simp only [Option.some.injEq] at hstep
          subst hstep
          exact ⟨hpair, fun c hc => Nat.lt_succ_of_lt (hcre c hc)⟩

theorem pairingLoop_bound (B : BoundaryMatrix) (f : Bool) (max : Nat) (hmax : max ≠ 0) :
    ∀ k, k ≤ max → ∀ st, pairingLoop B f max max k = some st →
      (∀ e ∈ st.pairing, e.1 < max ∧ ∀ d, e.2 = some d → d < max) ∧
        ∀ c ∈ st.creators, c < k := by
  intro k
  induction k with
  | zero =>
    intro _ st h
    simp only [pairingLoop, Option.some.injEq] at h
    subst h
    simp
  | succ k ih =>
    intro hk st h
    rw [pairingLoop] at h
    cases hloop : pairingLoop B f max max k with
    | none => rw [hloop] at h; exact Option.noConfusion h
    | some st0 =>
      rw [hloop] at h
      exact columnStep_bound B f max hmax k st0 st (ih (by omega) st0 hloop) (by omega) h

theorem isSome_of_eq_some {α : Type} {o : Option α} {a : α} (h : o = some a) :
    o.isSome = true := by
  rw [h]; rfl

/-- C9: for every non-zero `max`, every reduction strategy and every matrix,
dualized or not, every index that occurs in the pairing returned by
`calculatePersistencePairing` (creator or destroyer of a pair, or essential
entry) is smaller than `max`; and the call does return a pairing whenever `max`
does not exceed the number of columns of a well-formed reduced matrix. -/
theorem pairing_indices_lt_max (red : BoundaryMatrix → BoundaryMatrix) (M : BoundaryMatrix)
    (f : Bool) (max : Nat) (hmax : max ≠ 0) :
    ((red M).dimensions.length = (red M).columns.length → max ≤ (red M).columns.length →
      (calculatePersistencePairing red M f max).isSome = true) ∧
    ∀ p, calculatePersistencePairing red M f max = some p →
      ∀ e ∈ p, e.1 < max ∧ ∀ d, e.2 = some d → d < max := by
  refine ⟨fun hd hle => isSome_of_eq_some (calculatePersistencePairing_eq_some red M f max hd hle),
    ?_⟩
  intro p hp e he
  unfold calculatePersistencePairing at hp
  have hN : loopBound (red M) max = max := by
    unfold loopBound; rw [if_pos hmax]
  simp only [hN] at hp
  cases hloop : pairingLoop (red M) f max max max with
  | none => rw [hloop] at hp; exact Option.noConfusion hp
  | some st =>
    rw [hloop] at hp
    simp only [Option.some.injEq] at hp
    subst hp
    obtain ⟨hpair, hcre⟩ := pairingLoop_bound (red M) f max hmax max (le_refl _) st hloop
    rcases mem_finishPairing.mp he with h | ⟨c, hc, rfl⟩
    · exact hpair e h
    · refine ⟨?_, fun d hd => Option.noConfusion hd⟩
      have hcl := hcre c hc
      unfold essentialOf
      split
      · exact indexSub_reverse_lt hcl
      · exact hcl

/-- Witness of C9: the dualized boundary matrix of an edge with its two
vertices, `max = 2`. -/
theorem pairing_indices_lt_max_witness :
    (2 : Nat) ≠ 0 ∧
    (((standardReduction { columns := [[], [0], [0]], dimensions := [0, 1, 1], dualized := true }
          ).dimensions.length =
        (standardReduction { columns := [[], [0], [0]], dimensions := [0, 1, 1], dualized := true }
          ).columns.length →
      2 ≤ (standardReduction { columns := [[], [0], [0]], dimensions := [0, 1, 1], dualized := true }
          ).columns.length →
      (calculatePersistencePairing standardReduction
        { columns := [[], [0], [0]], dimensions := [0, 1, 1], dualized := true } true 2).isSome
        = true) ∧
    ∀ p, calculatePersistencePairing standardReduction
        { columns := [[], [0], [0]], dimensions := [0, 1, 1], dualized := true } true 2 = some p →
      ∀ e ∈ p, e.1 < 2 ∧ ∀ d, e.2 = some d → d < 2) :=
  ⟨by decide, pairing_indices_lt_max standardReduction
    { columns := [[], [0], [0]], dimensions := [0, 1, 1], dualized := true } true 2 (by decide)⟩

theorem lowOf_lt_of_triangular {B : BoundaryMatrix} (htri : B.Triangular) {i j : Nat}
    (hj : j < B.columns.length) (hlow : B.lowOf j = some i) : i < j := by
  unfold BoundaryMatrix.lowOf at hlow
  exact htri j hj i (maxIndex_eq_some.mp hlow).1

theorem mem_filterMap_pairEntry {B : BoundaryMatrix} {max N k : Nat} {e : Entry} :
    e ∈ (List.range k).filterMap (pairEntry B max N) ↔
      ∃ j i, j < k ∧ B.lowOf j = some i ∧ (max = 0 ∨ i < max) ∧
        e = ((pairOf B.isDualized N i j).1, some (pairOf B.isDualized N i j).2) := by
  rw [List.mem_filterMap]
  constructor
  · rintro ⟨j, hj, he⟩
    rw [List.mem_range] at hj
    unfold pairEntry at he
    cases hlow : B.lowOf j with
    | none => rw [hlow] at he; exact Option.noConfusion he
    | some i =>
      rw [hlow] at he
      simp only at he
      by_cases hg : max = 0 ∨ i < max
      · rw [if_pos hg] at he
        exact ⟨j, i, hj, hlow, hg, (Option.some.inj he).symm⟩
      · rw [if_neg hg] at he
        exact Option.noConfusion he
  · rintro ⟨j, i, hj, hlow, hg, rfl⟩
    refine ⟨j, List.mem_range.mpr hj, ?_⟩
    unfold pairEntry
    rw [hlow]
    simp only
    rw [if_pos hg]

/-- C7: for every matrix that satisfies the invariant "row indices in a column
are smaller than the column index", dualized or not, and every reduction
strategy that keeps the shape and the invariant, every pair
`(creator, destroyer)` of the pairing returned by `calculatePersistencePairing`
satisfies `creator < destroyer`.  Under dualization the pair is
`(N-1-j, N-1-i)` for a column `j < N` with maximal index `i < j`, where `N` is
the loop bound, and both subtractions are exact, they do not wrap.  The call
returns a pairing whenever `max` does not exceed the number of columns. -/
theorem pair_creator_lt_destroyer (red : BoundaryMatrix → BoundaryMatrix)
    (hshape : KeepsShape red) (htri : KeepsTriangular red) (M : BoundaryMatrix)
    (hwf : M.WellFormed) (hM : M.Triangular) (f : Bool) (max : Nat) :
    (max ≤ M.getNumColumns → (calculatePersistencePairing red M f max).isSome = true) ∧
    ∀ p, calculatePersistencePairing red M f max = some p →
      ∀ c d, (c, some d) ∈ p →
        c < d ∧
        (M.isDualized = true → ∃ i j, i < j ∧ j < loopBound (red M) max ∧
          c + j + 1 = loopBound (red M) max ∧ d + i + 1 = loopBound (red M) max) := by
  obtain ⟨hlen, hdim, hdual⟩ := hshape M
  have hd : (red M).dimensions.length = (red M).columns.length := by
    rw [hdim, hlen]; exact hwf.1
  have hB := htri M hM
  refine ⟨fun hle => isSome_of_eq_some
    (calculatePersistencePairing_eq_some red M f max hd (by rw [hlen]; exact hle)), ?_⟩
  intro p hp c d hcd
  have hN := loopBound_le_of_some red M f max p hp
  have hNm : loopBound (red M) max < indexModulus := by
    have := hwf.2
    omega
  have hmax : max ≤ (red M).columns.length := by
    unfold loopBound at hN
    split at hN
    · exact hN
    · omega
  rw [calculatePersistencePairing_eq_some red M f max hd hmax] at hp
  simp only [Option.some.injEq] at hp
  subst hp
  rcases mem_finishPairing.mp hcd with h | ⟨c', _, h⟩
  · obtain ⟨j, i, hj, hlow, _, he⟩ := mem_filterMap_pairEntry.mp h
    have hij : i < j := lowOf_lt_of_triangular hB (by omega) hlow
    have hdual' : (red M).isDualized = M.isDualized := hdual
    rw [hdual'] at he
    unfold pairOf at he
    cases hdz : M.isDualized with
    | false =>
      rw [hdz] at he
      simp only [Bool.false_eq_true, if_false, Prod.mk.injEq, Option.some.injEq] at he
      refine ⟨by omega, fun h => Bool.noConfusion h⟩
    | true =>
      rw [hdz] at he
      simp only [if_true, Prod.mk.injEq, Option.some.injEq] at he
      rw [indexSub_reverse_eq hNm hj, indexSub_reverse_eq hNm (by omega)] at he
      refine ⟨by omega, fun _ => ⟨i, j, hij, hj, by omega, by omega⟩⟩
  · simp only [Prod.mk.injEq] at h
    exact Option.noConfusion h.2

/-- Witness of C7: the dualized boundary matrix of an edge with its two vertices. -/
theorem pair_creator_lt_destroyer_witness :
    (3 ≤ BoundaryMatrix.getNumColumns
        { columns := [[], [0], [0]], dimensions := [0, 1, 1], dualized := true } →
      (calculatePersistencePairing standardReduction
        { columns := [[], [0], [0]], dimensions := [0, 1, 1], dualized := true } false 3).isSome
        = true) ∧
    ∀ p, calculatePersistencePairing standardReduction
        { columns := [[], [0], [0]], dimensions := [0, 1, 1], dualized := true } false 3 = some p →
      ∀ c d, (c, some d) ∈ p →
        c < d ∧
        (BoundaryMatrix.isDualized
            { columns := [[], [0], [0]], dimensions := [0, 1, 1], dualized := true } = true →
          ∃ i j, i < j ∧
            j < loopBound (standardReduction
              { columns := [[], [0], [0]], dimensions := [0, 1, 1], dualized := true }) 3 ∧
            c + j + 1 = loopBound (standardReduction
              { columns := [[], [0], [0]], dimensions := [0, 1, 1], dualized := true }) 3 ∧
            d + i + 1 = loopBound (standardReduction
              { columns := [[], [0], [0]], dimensions := [0, 1, 1], dualized := true }) 3) :=
  pair_creator_lt_destroyer standardReduction standardReduction_keepsShape
    standardReduction_keepsTriangular
    { columns := [[], [0], [0]], dimensions := [0, 1, 1], dualized := true }
    (by decide) (by decide) false 3

/-! ## Conversion of a simplicial complex into its boundary matrix -/

theorem index_eq_some {D : Type} {K : SimplicialComplex D} {face : List Nat} {p : Nat}
    (h : K.index face = some p) : ∃ s, K[p]? = some s ∧ s.vertices = face := by
  unfold SimplicialComplex.index at h
  simp only at h
  split at h
  · rename_i hlt
    simp only [Option.some.injEq] at h
    subst h
    refine ⟨K[List.findIdx (fun s => decide (s.vertices = face)) K], ?_, ?_⟩
    · exact List.getElem?_eq_getElem hlt
    · have := List.findIdx_getElem (p := fun (s : Simplex D) => decide (s.vertices = face)) (w := hlt)
      simpa using this
  · exact Option.noConfusion h

theorem index_lt_length {D : Type} {K : SimplicialComplex D} {face : List Nat} {p : Nat}
    (h : K.index face = some p) : p < K.length := by
  obtain ⟨s, hs, _⟩ := index_eq_some h
  by_contra hge
  rw [List.getElem?_eq_none (by omega)] at hs
  exact Option.noConfusion hs

theorem lookupFaces_eq_some {D : Type} (K : SimplicialComplex D) :
    ∀ faces : List (List Nat), (∀ face ∈ faces, (K.index face).isSome = true) →
      ∃ col, lookupFaces K faces = some col ∧ col.length = faces.length ∧
        List.Forall₂ (fun face x => ∃ p, K.index face = some p ∧ x = toIndex p) faces col := by
  intro faces
  induction faces with
  | nil => intro _; exact ⟨[], rfl, rfl, List.Forall₂.nil⟩
  | cons face rest ih =>
    intro h
    obtain ⟨col, hcol, hlen, hall⟩ := ih (fun g hg => h g (List.mem_cons_of_mem _ hg))
    have hface := h face (List.mem_cons_self _ _)
    obtain ⟨p, hp⟩ := Option.isSome_iff_exists.mp hface
    refine ⟨toIndex p :: col, ?_, ?_, ?_⟩
    · rw [lookupFaces, hp, hcol]
    · simp [hlen]
    · exact List.Forall₂.cons ⟨p, hp, rfl⟩ hall

theorem setColumn_eq_some (M : BoundaryMatrix) (j : Nat) (col : List Nat)
    (hj : j < M.columns.length) :
    M.setColumn j col = some
      { M with
        columns := M.columns.set j (col.insertionSort (· ≤ ·))
        dimensions := M.dimensions.set j (col.length - 1) } := by
  unfold BoundaryMatrix.setColumn
  rw [if_pos hj]

theorem convertLoop_spec {D : Type} (K : SimplicialComplex D) (max : Nat)
    (hK : K.length < indexModulus) (hclosed : K.Closed) :
    ∀ (rest : List (Simplex D)) (j : Nat) (M : BoundaryMatrix),
      rest = K.drop j → j ≤ K.length → M.columns.length = K.length → (max = 0 ∨ j < max) →
      ∃ M', convertLoop K max rest j M = some M' ∧ M'.columns.length = K.length ∧
        (∀ p, p < K.length → (p < j ∨ ¬ (max = 0 ∨ p < max)) → M'.columns[p]? = M.columns[p]?) ∧
        (∀ p, j ≤ p → p < K.length → (max = 0 ∨ p < max) →
          ∃ s col, K[p]? = some s ∧ boundaryColumn K s = some col ∧
            M'.columns[p]? = some (col.insertionSort (· ≤ ·))) := by
  intro rest
  induction rest with
  | nil =>
    intro j M hrest hj hlen _
    have hjl : K.length ≤ j := by
      have := congrArg List.length hrest
      simp at this
      omega
    exact ⟨M, rfl, hlen, fun p _ _ => rfl, fun p hjp hp _ => by omega⟩
  | cons s rest ih =>
    intro j M hrest hj hlen hmax
    have hjl : j < K.length := by
      have := congrArg List.length hrest
      simp at this
      omega
    have hdrop : K.drop j = K[j] :: K.drop (j + 1) := List.drop_eq_getElem_cons hjl
    rw [hdrop] at hrest
    simp only [List.cons.injEq] at hrest
    obtain ⟨hs, hrest'⟩ := hrest
    have hsK : s ∈ K := by rw [hs]; exact List.getElem_mem _
    obtain ⟨col, hcol, _, _⟩ := lookupFaces_eq_some K s.boundary (hclosed s hsK)
    have hidx : toIndex (j + 1) = j + 1 := Nat.mod_eq_of_lt (by omega)
    rw [convertLoop]
    unfold boundaryColumn
    rw [hcol]
    simp only
    rw [setColumn_eq_some M j col (by omega)]
    simp only [hidx]
    have hset_other : ∀ p, p ≠ j →
        (M.columns.set j (col.insertionSort (· ≤ ·)))[p]? = M.columns[p]? := by
      intro p hp
      rw [List.getElem?_set_ne (Ne.symm hp)]
    have hset_self : (M.columns.set j (col.insertionSort (· ≤ ·)))[j]? =
        some (col.insertionSort (· ≤ ·)) := by
      rw [List.getElem?_set_self (by omega)]
    have hKj : K[j]? = some s := by rw [hs]; exact List.getElem?_eq_getElem hjl
    by_cases hbreak : max ≠ 0 ∧ j + 1 ≥ max
    · rw [if_pos hbreak]
      refine ⟨_, rfl, by simp [hlen], ?_, ?_⟩
      · intro p hp hcase
        apply hset_other
        rcases hcase with h | h
        · omega
        · intro hpj; subst hpj; exact h hmax
      · intro p hjp hp hpm
        have hpj : p = j := by
          rcases hpm with h | h
          · exact absurd h hbreak.1
          · omega
        subst hpj
        exact ⟨s, col, hKj, hcol, hset_self⟩
    · rw [if_neg hbreak]
      have hmax' : max = 0 ∨ j + 1 < max := by
        by_cases h0 : max = 0
        · exact Or.inl h0
        · right
          by_contra hge
          exact hbreak ⟨h0, by omega⟩
      obtain ⟨M', hM', hlen', hkeep, hconv⟩ :=
        ih (j + 1) { M with
          columns := M.columns.set j (col.insertionSort (· ≤ ·))
          dimensions := M.dimensions.set j (col.length - 1) } hrest' (by omega)
          (by simp [hlen]) hmax'
      refine ⟨M', hM', hlen', ?_, ?_⟩
      · intro p hp hcase
        rw [hkeep p hp (by rcases hcase with h | h; exact Or.inl (by omega); exact Or.inr h)]
        apply hset_other
        rcases hcase with h | h
        · omega
        · intro hpj; subst hpj; exact h hmax
      · intro p hjp hp hpm
        by_cases hpj : p = j
        · subst hpj
          refine ⟨s, col, hKj, hcol, ?_⟩
          rw [hkeep p hp (Or.inl (by omega))]
          exact hset_self
        · exact hconv p (by omega) hp hpm

theorem convertLoop_length {D : Type} (K : SimplicialComplex D) (max : Nat) :
    ∀ (rest : List (Simplex D)) (j : Nat) (M M' : BoundaryMatrix),
      convertLoop K max rest j M = some M' → M'.columns.length = M.columns.length := by
  intro rest
  induction rest with
  | nil =>
    intro j M M' h
    simp only [convertLoop, Option.some.injEq] at h
    rw [h]
  | cons s rest ih =>
    intro j M M' h
    rw [convertLoop] at h
    cases hcol : boundaryColumn K s with
    | none => rw [hcol] at h; exact Option.noConfusion h
    | some col =>
      rw [hcol] at h
      simp only at h
      by_cases hj : j < M.columns.length
      · rw [setColumn_eq_some M j col hj] at h
        simp only at h
        split at h
        · simp only [Option.some.injEq] at h
          rw [← h]
          simp
        · rw [ih _ _ _ h]
          simp
      · unfold BoundaryMatrix.setColumn at h
        rw [if_neg hj] at h
        exact Option.noConfusion h

theorem makeBoundaryMatrix_spec {D : Type} (K : SimplicialComplex D) (max : Nat)
    (hK : K.length < indexModulus) (hclosed : K.Closed) :
    ∃ M, makeBoundaryMatrix K max = some M ∧ M.columns.length = K.length ∧
      (∀ p, p < K.length → ¬ (max = 0 ∨ p < max) → M.columns[p]? = some []) ∧
      (∀ p, p < K.length → (max = 0 ∨ p < max) →
        ∃ s col, K[p]? = some s ∧ boundaryColumn K s = some col ∧
          M.columns[p]? = some (col.insertionSort (· ≤ ·))) := by
  have hidx : toIndex K.length = K.length := Nat.mod_eq_of_lt hK
  have hmax0 : max = 0 ∨ 0 < max := by omega
  obtain ⟨M, hM, hlen, hkeep, hconv⟩ := convertLoop_spec K max hK hclosed K 0
    (BoundaryMatrix.withNumColumns (toIndex K.length)) (by simp) (by omega)
    (by simp [BoundaryMatrix.withNumColumns, hidx]) hmax0
  refine ⟨M, hM, hlen, ?_, fun p hp hpm => hconv p (by omega) hp hpm⟩
  intro p hp hpm
  rw [hkeep p hp (Or.inr hpm)]
  simp [BoundaryMatrix.withNumColumns, hidx, hp]

/-- C4 (amended): for every simplicial complex `K` whose size fits into
`Index` and every `max`, zero or not, the matrix returned by
`makeBoundaryMatrix(K, max)` has `numColumns = |K|`; the conversion returns a
matrix whenever `K` is closed under the boundary relation. -/
theorem makeBoundaryMatrix_numColumns {D : Type} (K : SimplicialComplex D) (max : Nat)
    (hK : K.length < indexModulus) :
    (K.Closed → (makeBoundaryMatrix K max).isSome = true) ∧
    ∀ M, makeBoundaryMatrix K max = some M → M.getNumColumns = K.length := by
  constructor
  · intro hclosed
    obtain ⟨M, hM, _⟩ := makeBoundaryMatrix_spec K max hK hclosed
    exact isSome_of_eq_some hM
  · intro M hM
    unfold makeBoundaryMatrix at hM
    unfold BoundaryMatrix.getNumColumns
    rw [convertLoop_length K max K 0 _ M hM]
    simp [BoundaryMatrix.withNumColumns, toIndex, Nat.mod_eq_of_lt hK]

/-- Witness of C4: two vertices and the edge between them, `max = 1`. -/
theorem makeBoundaryMatrix_numColumns_witness :
    (SimplicialComplex.Closed
        [({ vertices := [0], data := () } : Simplex Unit), { vertices := [1], data := () },
          { vertices := [0, 1], data := () }] →
      (makeBoundaryMatrix
        [({ vertices := [0], data := () } : Simplex Unit), { vertices := [1], data := () },
          { vertices := [0, 1], data := () }] 1).isSome = true) ∧
    ∀ M, makeBoundaryMatrix
        [({ vertices := [0], data := () } : Simplex Unit), { vertices := [1], data := () },
          { vertices := [0, 1], data := () }] 1 = some M →
      M.getNumColumns = List.length
        [({ vertices := [0], data := () } : Simplex Unit), { vertices := [1], data := () },
          { vertices := [0, 1], data := () }] :=
  makeBoundaryMatrix_numColumns
    [({ vertices := [0], data := () } : Simplex Unit), { vertices := [1], data := () },
      { vertices := [0, 1], data := () }] 1 (by decide)

/-- Counterexample to C4 as stated: for two vertices and the edge between
them and `max = 1`, the matrix returned has 3 columns, not `min(3, 1) = 1`. -/
theorem makeBoundaryMatrix_numColumns_counterexample :
    ¬ (∀ M, makeBoundaryMatrix
        [({ vertices := [0], data := () } : Simplex Unit), { vertices := [1], data := () },
          { vertices := [0, 1], data := () }] 1 = some M →
      M.getNumColumns = min 3 1) := by
  intro h
  have h1 := h { columns := [[], [], []], dimensions := [0, 0, 0], dualized := false } (by decide)
  revert h1
  decide

theorem eraseIdx_injective_of_nodup {l : List Nat} (hl : l.Nodup) {p q : Nat}
    (hp : p < l.length) (h : l.eraseIdx p = l.eraseIdx q) : p = q := by
  by_contra hne
  have hmem : l[p] ∈ l.eraseIdx q :=
    List.mem_eraseIdx_iff_getElem.mpr ⟨p, hp, hne, rfl⟩
  rw [← h] at hmem
  obtain ⟨i, hi, hip, heq⟩ := List.mem_eraseIdx_iff_getElem.mp hmem
  exact hip ((List.Nodup.getElem_inj_iff hl).mp heq)

theorem boundary_nodup {D : Type} (s : Simplex D) (hs : s.vertices.Nodup) :
    s.boundary.Nodup := by
  unfold Simplex.boundary
  split
  · exact List.nodup_nil
  · apply List.Nodup.map_on _ (List.nodup_range _)
    intro p hp q hq h
    rw [List.mem_range] at hp hq
    exact eraseIdx_injective_of_nodup hs hp h

theorem forall₂_mem_right {α β : Type} {R : α → β → Prop} {l₁ : List α} {l₂ : List β}
    (h : List.Forall₂ R l₁ l₂) : ∀ b ∈ l₂, ∃ a ∈ l₁, R a b := by
  induction h with
  | nil => intro b hb; simp at hb
  | cons hab _ ih =>
    intro b hb
    rcases List.mem_cons.mp hb with rfl | hb
    · exact ⟨_, List.mem_cons_self _ _, hab⟩
    · obtain ⟨a, ha, hr⟩ := ih b hb
      exact ⟨a, List.mem_cons_of_mem _ ha, hr⟩

theorem forall₂_mem_left {α β : Type} {R : α → β → Prop} {l₁ : List α} {l₂ : List β}
    (h : List.Forall₂ R l₁ l₂) : ∀ a ∈ l₁, ∃ b ∈ l₂, R a b := by
  induction h with
  | nil => intro a ha; simp at ha
  | cons hab _ ih =>
    intro a ha
    rcases List.mem_cons.mp ha with rfl | ha
    · exact ⟨_, List.mem_cons_self _ _, hab⟩
    · obtain ⟨b, hb, hr⟩ := ih a ha
      exact ⟨b, List.mem_cons_of_mem _ hb, hr⟩

theorem forall₂_nodup {α β : Type} {R : α → β → Prop} {l₁ : List α} {l₂ : List β}
    (h : List.Forall₂ R l₁ l₂) (hinj : ∀ a a' b, R a b → R a' b → a = a') (hnd : l₁.Nodup) :
    l₂.Nodup := by
  induction h with
  | nil => exact List.nodup_nil
  | cons hab hrest ih =>
    rw [List.nodup_cons] at hnd ⊢
    refine ⟨?_, ih hnd.2⟩
    intro hb
    obtain ⟨a', ha', hr⟩ := forall₂_mem_right hrest _ hb
    have := hinj _ _ _ hab hr
    rw [this] at hnd
    exact hnd.1 ha'

/-- C5: for every simplicial complex `K` (its simplices with deduplicated
vertices, its size fitting into `Index`) closed under the boundary relation,
every `max` and every converted position `j` (`j < |K|`, and `j < max` when
`max` is non-zero), `makeBoundaryMatrix(K, max)` returns a matrix whose column
`j` is strictly ascending and holds exactly the indices `K.index(f)` of the
boundary faces `f` of the simplex at position `j`, one entry per face. -/
theorem makeBoundaryMatrix_column {D : Type} (K : SimplicialComplex D) (max : Nat)
    (hK : K.length < indexModulus) (hclosed : K.Closed) (hdedup : K.Deduplicated)
    (j : Nat) (hj : j < K.length) (hmax : max = 0 ∨ j < max) :
    ∃ M s col, makeBoundaryMatrix K max = some M ∧ K[j]? = some s ∧
      M.columns[j]? = some col ∧ col.Sorted (· < ·) ∧
      (∀ x, x ∈ col ↔ ∃ face ∈ s.boundary, K.index face = some x) ∧
      col.length = s.boundary.length := by
  obtain ⟨M, hM, _, _, hconv⟩ := makeBoundaryMatrix_spec K max hK hclosed
  obtain ⟨s, col0, hs, hcol0, hMj⟩ := hconv j hj hmax
  have hsK : s ∈ K := List.mem_iff_getElem?.mpr ⟨j, hs⟩
  obtain ⟨col1, hcol1, hlen, hall⟩ := lookupFaces_eq_some K s.boundary (hclosed s hsK)
  unfold boundaryColumn at hcol0
  rw [hcol1] at hcol0
  simp only [Option.some.injEq] at hcol0
  subst hcol0
  have hrel : ∀ face x, (∃ p, K.index face = some p ∧ x = toIndex p) ↔ K.index face = some x := by
    intro face x
    constructor
    · rintro ⟨p, hp, rfl⟩
      have := index_lt_length hp
      rw [hp, toIndex, Nat.mod_eq_of_lt (by omega)]
    · intro h
      have := index_lt_length h
      exact ⟨x, h, by rw [toIndex, Nat.mod_eq_of_lt (by omega)]⟩
  have hnd : col1.Nodup := by
    apply forall₂_nodup hall _ (boundary_nodup s (hdedup s hsK))
    intro a a' b ha ha'
    rw [hrel] at ha ha'
    obtain ⟨t, ht, hta⟩ := index_eq_some ha
    obtain ⟨t', ht', hta'⟩ := index_eq_some ha'
    rw [ht] at ht'
    simp only [Option.some.injEq] at ht'
    subst ht'
    rw [← hta, ← hta']
  refine ⟨M, s, _, hM, hs, hMj, ?_, ?_, ?_⟩
  · exact (List.sorted_insertionSort (· ≤ ·) col1).lt_of_le
      ((List.perm_insertionSort (· ≤ ·) col1).nodup_iff.mpr hnd)
  · intro x
    rw [(List.perm_insertionSort (· ≤ ·) col1).mem_iff]
    constructor
    · intro hx
      obtain ⟨face, hface, hr⟩ := forall₂_mem_right hall x hx
      exact ⟨face, hface, (hrel face x).mp hr⟩
    · rintro ⟨face, hface, hx⟩
      obtain ⟨b, hb, hr⟩ := forall₂_mem_left hall face hface
      have := (hrel face b).mp hr
      rw [hx] at this
      simp only [Option.some.injEq] at this
      rw [this]; exact hb
  · rw [List.length_insertionSort, hlen]

/-- Witness of C5: the triangle of a filled triangle complex, position 6. -/
theorem makeBoundaryMatrix_column_witness :
    ∃ M s col, makeBoundaryMatrix
        [({ vertices := [0], data := () } : Simplex Unit), { vertices := [1], data := () },
          { vertices := [2], data := () }, { vertices := [0, 1], data := () },
          { vertices := [0, 2], data := () }, { vertices := [1, 2], data := () },
          { vertices := [0, 1, 2], data := () }] 0 = some M ∧
      [({ vertices := [0], data := () } : Simplex Unit), { vertices := [1], data := () },
          { vertices := [2], data := () }, { vertices := [0, 1], data := () },
          { vertices := [0, 2], data := () }, { vertices := [1, 2], data := () },
          { vertices := [0, 1, 2], data := () }][6]? = some s ∧
      M.columns[6]? = some col ∧ col.Sorted (· < ·) ∧
      (∀ x, x ∈ col ↔ ∃ face ∈ s.boundary, SimplicialComplex.index
        [({ vertices := [0], data := () } : Simplex Unit), { vertices := [1], data := () },
          { vertices := [2], data := () }, { vertices := [0, 1], data := () },
          { vertices := [0, 2], data := () }, { vertices := [1, 2], data := () },
          { vertices := [0, 1, 2], data := () }] face = some x) ∧
      col.length = s.boundary.length :=
  makeBoundaryMatrix_column
    [({ vertices := [0], data := () } : Simplex Unit), { vertices := [1], data := () },
      { vertices := [2], data := () }, { vertices := [0, 1], data := () },
      { vertices := [0, 2], data := () }, { vertices := [1, 2], data := () },
      { vertices := [0, 1, 2], data := () }] 0
    (by decide) (by decide) (by decide) 6 (by decide) (by decide)

/-! ## Elementary operations: commutation and preserved pivots -/

theorem rowop_colop_comm (a b k j : Nat) (X : Mat) :
    rowop a b (colop k j X) = colop k j (rowop a b X) := by
  funext r c
  unfold rowop colop
  by_cases hr : r = b <;> by_cases hc : c = j <;> simp only [hr, hc, if_true, if_false]
  cases X b j <;> cases X b k <;> cases X a j <;> cases X a k <;> rfl

theorem colops_cons (op : Nat × Nat) (ops : List (Nat × Nat)) (X : Mat) :
    colops (op :: ops) X = colops ops (colop op.1 op.2 X) := rfl

theorem rowops_cons (op : Nat × Nat) (ops : List (Nat × Nat)) (X : Mat) :
    rowops (op :: ops) X = rowops ops (rowop op.1 op.2 X) := rfl

theorem colops_append (ops₁ ops₂ : List (Nat × Nat)) (X : Mat) :
    colops (ops₁ ++ ops₂) X = colops ops₂ (colops ops₁ X) := by
  unfold colops; rw [List.foldl_append]

theorem rowop_colops_comm (a b : Nat) (cs : List (Nat × Nat)) :
    ∀ X : Mat, rowop a b (colops cs X) = colops cs (rowop a b X) := by
  induction cs with
  | nil => intro X; rfl
  | cons op cs ih =>
    intro X
    rw [colops_cons, colops_cons, ih, rowop_colop_comm]

theorem rowops_colops_comm (rs cs : List (Nat × Nat)) :
    ∀ X : Mat, rowops rs (colops cs X) = colops cs (rowops rs X) := by
  induction rs with
  | nil => intro X; rfl
  | cons op rs ih =>
    intro X
    rw [rowops_cons, rowops_cons, rowop_colops_comm, ih]

theorem rowop_rowop (a b : Nat) (hab : a ≠ b) (X : Mat) : rowop a b (rowop a b X) = X := by
  funext r c
  unfold rowop
  by_cases hr : r = b
  · subst hr
    simp only [if_true, if_neg hab]
    cases X r c <;> cases X a c <;> rfl
  · simp only [if_neg hr]

theorem colop_colop (k j : Nat) (hkj : k ≠ j) (X : Mat) : colop k j (colop k j X) = X := by
  funext r c
  unfold colop
  by_cases hc : c = j
  · subst hc
    simp only [if_true, if_neg hkj]
    cases X r c <;> cases X r k <;> rfl
  · simp only [if_neg hc]

theorem isLow_rowop_of_isLow {a b : Nat} (hab : b < a) {X : Mat} {i j : Nat}
    (h : IsLow X i j) : IsLow (rowop a b X) i j := by
  obtain ⟨h1, h2⟩ := h
  unfold IsLow rowop
  constructor
  · by_cases hi : i = b
    · subst hi
      simp only [if_true, h1, h2 a hab]
      rfl
    · simp only [if_neg hi, h1]
  · intro r hr
    by_cases hrb : r = b
    · subst hrb
      simp only [if_true, h2 r hr, h2 a (by omega)]
      rfl
    · simp only [if_neg hrb, h2 r hr]

theorem isLow_rowop {a b : Nat} (hab : b < a) {X : Mat} {i j : Nat} :
    IsLow (rowop a b X) i j ↔ IsLow X i j := by
  constructor
  · intro h
    have := isLow_rowop_of_isLow hab h
    rwa [rowop_rowop a b (by omega)] at this
  · exact isLow_rowop_of_isLow hab

theorem isLow_rowops {n : Nat} (rs : List (Nat × Nat)) (hrs : UpwardOps n rs) :
    ∀ (X : Mat) (i j : Nat), IsLow (rowops rs X) i j ↔ IsLow X i j := by
  induction rs with
  | nil => intro X i j; rfl
  | cons op rs ih =>
    intro X i j
    rw [rowops_cons, ih (fun o ho => hrs o (List.mem_cons_of_mem _ ho)),
      isLow_rowop (hrs op (List.mem_cons_self _ _)).1]

theorem isLeft_colop_of_isLeft {k j' : Nat} (hkj : k < j') {X : Mat} {i j : Nat}
    (h : IsLeft X i j) : IsLeft (colop k j' X) i j := by
  obtain ⟨h1, h2⟩ := h
  unfold IsLeft colop
  constructor
  · by_cases hj : j = j'
    · subst hj
      simp only [if_true, h1, h2 k hkj]
      rfl
    · simp only [if_neg hj, h1]
  · intro c hc
    by_cases hcj : c = j'
    · subst hcj
      simp only [if_true, h2 c hc, h2 k (by omega)]
      rfl
    · simp only [if_neg hcj, h2 c hc]

theorem isLeft_colop {k j' : Nat} (hkj : k < j') {X : Mat} {i j : Nat} :
    IsLeft (colop k j' X) i j ↔ IsLeft X i j := by
  constructor
  · intro h
    have := isLeft_colop_of_isLeft hkj h
    rwa [colop_colop k j' (by omega)] at this
  · exact isLeft_colop_of_isLeft hkj

theorem isLeft_colops {n : Nat} (cs : List (Nat × Nat)) (hcs : ForwardOps n cs) :
    ∀ (X : Mat) (i j : Nat), IsLeft (colops cs X) i j ↔ IsLeft X i j := by
  induction cs with
  | nil => intro X i j; rfl
  | cons op cs ih =>
    intro X i j
    rw [colops_cons, ih (fun o ho => hcs o (List.mem_cons_of_mem _ ho)),
      isLeft_colop (hcs op (List.mem_cons_self _ _)).1]

theorem rowBounded_rowops {n : Nat} (rs : List (Nat × Nat)) (hrs : UpwardOps n rs) :
    ∀ X : Mat, RowBounded n X → RowBounded n (rowops rs X) := by
  induction rs with
  | nil => intro X h; exact h
  | cons op rs ih =>
    intro X h
    rw [rowops_cons]
    apply ih (fun o ho => hrs o (List.mem_cons_of_mem _ ho))
    intro r c hrc
    unfold rowop at hrc
    have hop := hrs op (List.mem_cons_self _ _)
    by_cases hr : r = op.2
    · omega
    · rw [if_neg hr] at hrc
      exact h r c hrc

/-! ## Pivots of a matrix with injective lows and injective lefts -/

theorem rowBounded_colops {n : Nat} (cs : List (Nat × Nat)) :
    ∀ X : Mat, RowBounded n X → RowBounded n (colops cs X) := by
  induction cs with
  | nil => intro X h; exact h
  | cons op cs ih =>
    intro X h
    rw [colops_cons]
    apply ih
    intro r c hrc
    unfold colop at hrc
    by_cases hc : c = op.2
    · rw [if_pos hc] at hrc
      cases h1 : X r op.2 with
      | true => exact h r _ h1
      | false =>
        cases h2 : X r op.1 with
        | true => exact h r _ h2
        | false => rw [h1, h2] at hrc; exact Bool.noConfusion hrc
    · rw [if_neg hc] at hrc
      exact h r c hrc

theorem exists_isLow {n : Nat} {X : Mat} (hb : RowBounded n X) :
    ∀ (m r c : Nat), n - r ≤ m → X r c = true → ∃ i, r ≤ i ∧ IsLow X i c := by
  intro m
  induction m with
  | zero =>
    intro r c hm h
    have := hb r c h
    omega
  | succ m ih =>
    intro r c hm h
    by_cases hex : ∃ r', r < r' ∧ X r' c = true
    · obtain ⟨r', hr', hX⟩ := hex
      have := hb r' c hX
      obtain ⟨i, hi, hlow⟩ := ih r' c (by omega) hX
      exact ⟨i, by omega, hlow⟩
    · refine ⟨r, le_refl _, h, ?_⟩
      intro r' hr'
      cases hX : X r' c with
      | false => rfl
      | true => exact absurd ⟨r', hr', hX⟩ hex

theorem exists_isLeft {X : Mat} :
    ∀ (c r : Nat), X r c = true → ∃ j, j ≤ c ∧ IsLeft X r j := by
  intro c
  induction c using Nat.strong_induction_on with
  | _ c ih =>
    intro r h
    by_cases hex : ∃ c', c' < c ∧ X r c' = true
    · obtain ⟨c', hc', hX⟩ := hex
      obtain ⟨j, hj, hleft⟩ := ih c' hc' r hX
      exact ⟨j, by omega, hleft⟩
    · refine ⟨c, le_refl _, h, ?_⟩
      intro c' hc'
      cases hX : X r c' with
      | false => rfl
      | true => exact absurd ⟨c', hc', hX⟩ hex

theorem isLeft_of_isLow {n : Nat} {X : Mat} (hb : RowBounded n X) (hlow : LowInjective X)
    (hleft : LeftInjective X) :
    ∀ (m i j : Nat), n - i ≤ m → IsLow X i j → IsLeft X i j := by
  intro m
  induction m with
  | zero =>
    intro i j hm h
    have := hb i j h.1
    omega
  | succ m ih =>
    intro i j hm h
    obtain ⟨c, hcj, hc⟩ := exists_isLeft j i h.1
    by_cases hceq : c = j
    · rw [← hceq]; exact hc
    · exfalso
      obtain ⟨i', hii', hi'⟩ := exists_isLow hb (n - i) i c (le_refl _) hc.1
      by_cases hieq : i' = i
      · rw [hieq] at hi'
        exact hceq (hlow i c j hi' h)
      · have hi'n := hb i' c hi'.1
        have := ih i' c (by omega) hi'
        exact hieq (hleft i' i c this hc)

theorem isLow_of_isLeft {n : Nat} {X : Mat} (hb : RowBounded n X) (hlow : LowInjective X)
    (hleft : LeftInjective X) :
    ∀ (j i : Nat), IsLeft X i j → IsLow X i j := by
  intro j
  induction j using Nat.strong_induction_on with
  | _ j ih =>
    intro i h
    obtain ⟨i', hii', hi'⟩ := exists_isLow hb (n - i) i j (le_refl _) h.1
    by_cases hieq : i' = i
    · rw [← hieq]; exact hi'
    · exfalso
      obtain ⟨c, hcj, hc⟩ := exists_isLeft j i' hi'.1
      by_cases hceq : c = j
      · rw [hceq] at hc
        exact hieq (hleft i' i j hc h)
      · have := ih c (by omega) i' hc
        exact hceq (hlow i' c j this hi')

theorem pivots_agree (n : Nat) (D : Mat) (cs rs : List (Nat × Nat))
    (hcs : ForwardOps n cs) (hrs : UpwardOps n rs) (hD : RowBounded n D)
    (hR : LowInjective (colops cs D)) (hS : LeftInjective (rowops rs D)) (i j : Nat) :
    IsLow (colops cs D) i j ↔ IsLeft (rowops rs D) i j := by
  have hcomm := rowops_colops_comm rs cs D
  have hXlow : ∀ a b, IsLow (rowops rs (colops cs D)) a b ↔ IsLow (colops cs D) a b :=
    fun a b => isLow_rowops rs hrs _ a b
  have hXleft : ∀ a b, IsLeft (rowops rs (colops cs D)) a b ↔ IsLeft (rowops rs D) a b := by
    intro a b
    rw [hcomm]
    exact isLeft_colops cs hcs _ a b
  have hXb : RowBounded n (rowops rs (colops cs D)) :=
    rowBounded_rowops rs hrs _ (rowBounded_colops cs D hD)
  have hXlowinj : LowInjective (rowops rs (colops cs D)) := by
    intro a b b' h1 h2
    exact hR a b b' ((hXlow a b).mp h1) ((hXlow a b').mp h2)
  have hXleftinj : LeftInjective (rowops rs (colops cs D)) := by
    intro a a' b h1 h2
    exact hS a a' b ((hXleft a b).mp h1) ((hXleft a' b).mp h2)
  rw [← hXlow, ← hXleft]
  constructor
  · exact isLeft_of_isLow hXb hXlowinj hXleftinj (n - i) i j (le_refl _)
  · exact isLow_of_isLeft hXb hXlowinj hXleftinj j i

/-! ## The anti-transpose -/

theorem antiT_colop {n k j : Nat} (hkj : k < j) (hj : j < n) (Y : Mat) :
    antiT n (colop k j Y) = rowop (n - 1 - k) (n - 1 - j) (antiT n Y) := by
  funext r c
  unfold antiT colop rowop
  by_cases hr : r < n
  · by_cases hrj : r = n - 1 - j
    · have h1 : n - 1 - r = j := by omega
      have h2 : n - 1 - (n - 1 - k) = k := by omega
      have h3 : n - 1 - k < n := by omega
      subst hrj
      simp only [h1, h2, h3, hr, if_true, decide_True, Bool.true_and]
      cases decide (c < n) <;> simp
    · have h1 : n - 1 - r ≠ j := by omega
      simp only [if_neg h1, if_neg hrj]
  · have hrj : r ≠ n - 1 - j := by omega
    simp only [if_neg hrj, hr, decide_False, Bool.false_and]

theorem antiT_colops {n : Nat} (cs : List (Nat × Nat)) (hcs : ForwardOps n cs) :
    ∀ Y : Mat, antiT n (colops cs Y) =
      rowops (cs.map (fun op => (n - 1 - op.1, n - 1 - op.2))) (antiT n Y) := by
  induction cs with
  | nil => intro Y; rfl
  | cons op cs ih =>
    intro Y
    have hop := hcs op (List.mem_cons_self _ _)
    rw [colops_cons, ih (fun o ho => hcs o (List.mem_cons_of_mem _ ho)), antiT_colop hop.1 hop.2]
    rfl

theorem upwardOps_map {n : Nat} (cs : List (Nat × Nat)) (hcs : ForwardOps n cs) :
    UpwardOps n (cs.map (fun op => (n - 1 - op.1, n - 1 - op.2))) := by
  intro op hop
  obtain ⟨o, ho, rfl⟩ := List.mem_map.mp hop
  have := hcs o ho
  simp only
  omega

theorem antiT_antiT {n : Nat} {D : Mat} (hr : RowBounded n D) (hc : ColBounded n D) :
    antiT n (antiT n D) = D := by
  funext r c
  unfold antiT
  cases hD : D r c with
  | true =>
    have h1 := hr r c hD
    have h2 := hc r c hD
    have h3 : n - 1 - c < n := by omega
    have h4 : n - 1 - r < n := by omega
    have h5 : n - 1 - (n - 1 - c) = c := by omega
    have h6 : n - 1 - (n - 1 - r) = r := by omega
    simp [h1, h2, h3, h4, h5, h6, hD]
  | false =>
    by_cases h1 : r < n
    · by_cases h2 : c < n
      · have h5 : n - 1 - (n - 1 - c) = c := by omega
        have h6 : n - 1 - (n - 1 - r) = r := by omega
        simp [h5, h6, hD]
      · simp [h2]
    · simp [h1]

theorem rowBounded_antiT (n : Nat) (X : Mat) : RowBounded n (antiT n X) := by
  intro r c h
  unfold antiT at h
  by_contra hr
  simp [hr] at h

theorem isLeft_antiT {n : Nat} {X : Mat} (hb : RowBounded n X) {i j : Nat}
    (hi : i < n) (hj : j < n) :
    IsLeft (antiT n X) (n - 1 - j) (n - 1 - i) ↔ IsLow X i j := by
  have h1 : n - 1 - j < n := by omega
  have h2 : n - 1 - i < n := by omega
  have h3 : n - 1 - (n - 1 - i) = i := by omega
  have h4 : n - 1 - (n - 1 - j) = j := by omega
  unfold IsLeft IsLow antiT
  simp only [h1, h2, h3, h4, decide_True, Bool.true_and]
  constructor
  · rintro ⟨hX, hall⟩
    refine ⟨hX, fun r hr => ?_⟩
    cases hXr : X r j with
    | false => rfl
    | true =>
      have hrn := hb r j hXr
      have := hall (n - 1 - r) (by omega)
      have h5 : n - 1 - (n - 1 - r) = r := by omega
      have h6 : n - 1 - r < n := by omega
      simp [h5, h6, hXr] at this
  · rintro ⟨hX, hall⟩
    refine ⟨hX, fun c hc => ?_⟩
    have := hall (n - 1 - c) (by omega)
    simp [this]

theorem dual_lows (n : Nat) (D : Mat) (cs cs' : List (Nat × Nat))
    (hcs : ForwardOps n cs) (hcs' : ForwardOps n cs')
    (hDr : RowBounded n D) (hDc : ColBounded n D)
    (hR : LowInjective (colops cs D)) (hR' : LowInjective (colops cs' (antiT n D)))
    (i j : Nat) (hi : i < n) (hj : j < n) :
    IsLow (colops cs' (antiT n D)) i j ↔ IsLow (colops cs D) (n - 1 - j) (n - 1 - i) := by
  have hb' : RowBounded n (colops cs' (antiT n D)) :=
    rowBounded_colops cs' _ (rowBounded_antiT n D)
  have hS : antiT n (colops cs' (antiT n D)) =
      rowops (cs'.map (fun op => (n - 1 - op.1, n - 1 - op.2))) D := by
    rw [antiT_colops cs' hcs', antiT_antiT hDr hDc]
  have hSinj : LeftInjective (rowops (cs'.map (fun op => (n - 1 - op.1, n - 1 - op.2))) D) := by
    rw [← hS]
    intro a a' b h1 h2
    have ha : a < n := rowBounded_antiT n _ a b h1.1
    have ha' : a' < n := rowBounded_antiT n _ a' b h2.1
    have hbn : b < n := by
      have := h1.1
      unfold antiT at this
      by_contra hbn
      simp [hbn] at this
    have e1 : IsLeft (antiT n (colops cs' (antiT n D))) (n - 1 - (n - 1 - a))
        (n - 1 - (n - 1 - b)) := by
      rw [show n - 1 - (n - 1 - a) = a by omega, show n - 1 - (n - 1 - b) = b by omega]
      exact h1
    have e2 : IsLeft (antiT n (colops cs' (antiT n D))) (n - 1 - (n - 1 - a'))
        (n - 1 - (n - 1 - b)) := by
      rw [show n - 1 - (n - 1 - a') = a' by omega, show n - 1 - (n - 1 - b) = b by omega]
      exact h2
    rw [isLeft_antiT hb' (by omega) (by omega)] at e1 e2
    have := hR' (n - 1 - b) (n - 1 - a) (n - 1 - a') e1 e2
    omega
  rw [← isLeft_antiT hb' hi hj, hS]
  exact (pivots_agree n D cs _ hcs (upwardOps_map cs' hcs') hDr hR hSinj _ _).symm

/-! ## The standard reduction as a sequence of column additions -/

theorem isLow_entry {cols : List (List Nat)} {i j : Nat} :
    IsLow (entry cols) i j ↔ maxIndex (cols.getD j []) = some i := by
  rw [maxIndex_eq_some]
  unfold IsLow entry
  simp only [decide_eq_true_eq, decide_eq_false_iff_not]
  constructor
  · rintro ⟨h1, h2⟩
    refine ⟨h1, fun x hx => ?_⟩
    by_contra hlt
    exact h2 x (by omega) hx
  · rintro ⟨h1, h2⟩
    refine ⟨h1, fun r hr hmem => ?_⟩
    have := h2 r hmem
    omega

theorem getD_append_cons_self (earlier rest : List (List Nat)) (c : List Nat) :
    (earlier ++ c :: rest).getD earlier.length [] = c := by
  rw [List.getD_eq_getElem?_getD, List.getElem?_append_right (le_refl _)]
  simp

theorem getD_append_cons_ne (earlier rest : List (List Nat)) (c c0 : List Nat) {col : Nat}
    (h : col ≠ earlier.length) :
    (earlier ++ c :: rest).getD col [] = (earlier ++ c0 :: rest).getD col [] := by
  rw [List.getD_eq_getElem?_getD, List.getD_eq_getElem?_getD]
  by_cases hlt : col < earlier.length
  · rw [List.getElem?_append_left hlt, List.getElem?_append_left hlt]
  · have hle : earlier.length ≤ col := by omega
    rw [List.getElem?_append_right hle, List.getElem?_append_right hle]
    have : col - earlier.length = (col - earlier.length - 1) + 1 := by omega
    rw [this, List.getElem?_cons_succ, List.getElem?_cons_succ]

theorem entry_addColumns (earlier rest : List (List Nat)) (c d : List Nat) (k : Nat)
    (hk : earlier[k]? = some d) :
    entry (earlier ++ addColumns c d :: rest) =
      colop k earlier.length (entry (earlier ++ c :: rest)) := by
  have hklt : k < earlier.length := by
    by_contra hge
    rw [List.getElem?_eq_none (by omega)] at hk
    exact Option.noConfusion hk
  have hkd : (earlier ++ c :: rest).getD k [] = d := by
    rw [List.getD_eq_getElem?_getD, List.getElem?_append_left hklt, hk]
    rfl
  funext r col
  unfold colop entry
  by_cases hcol : col = earlier.length
  · subst hcol
    rw [if_pos rfl, getD_append_cons_self, getD_append_cons_self, hkd]
    by_cases h1 : r ∈ c <;> by_cases h2 : r ∈ d <;> simp [mem_addColumns, h1, h2]
  · rw [if_neg hcol, getD_append_cons_ne earlier rest _ c hcol]

theorem reduceColumn_colops (earlier rest : List (List Nat)) :
    ∀ (fuel : Nat) (c : List Nat), ∃ ops : List (Nat × Nat),
      (∀ op ∈ ops, op.1 < op.2 ∧ op.2 = earlier.length) ∧
      entry (earlier ++ reduceColumn earlier fuel c :: rest) =
        colops ops (entry (earlier ++ c :: rest)) := by
  intro fuel
  induction fuel with
  | zero => intro c; exact ⟨[], by simp, rfl⟩
  | succ fuel ih =>
    intro c
    rw [reduceColumn]
    cases hlow : maxIndex c with
    | none => exact ⟨[], by simp, rfl⟩
    | some i =>
      simp only
      cases hfind : List.find? (fun d => decide (maxIndex d = some i)) earlier with
      | none => exact ⟨[], by simp, rfl⟩
      | some d =>
        simp only
        obtain ⟨k, hk⟩ := List.mem_iff_getElem?.mp (List.mem_of_find?_eq_some hfind)
        have hklt : k < earlier.length := by
          by_contra hge
          rw [List.getElem?_eq_none (by omega)] at hk
          exact Option.noConfusion hk
        obtain ⟨ops, hops, hentry⟩ := ih (addColumns c d)
        refine ⟨(k, earlier.length) :: ops, ?_, ?_⟩
        · intro op hop
          rcases List.mem_cons.mp hop with rfl | hop
          · exact ⟨hklt, rfl⟩
          · exact hops op hop
        · rw [hentry, colops_cons, entry_addColumns earlier rest c d k hk]

theorem reduceColumns_colops :
    ∀ (todo done : List (List Nat)), ∃ ops : List (Nat × Nat),
      ForwardOps (done.length + todo.length) ops ∧
      entry (reduceColumns done todo) = colops ops (entry (done ++ todo)) := by
  intro todo
  induction todo with
  | nil =>
    intro done
    refine ⟨[], ?_, ?_⟩
    · intro op hop; simp at hop
    · simp [reduceColumns, colops]
  | cons c rest ih =>
    intro done
    obtain ⟨ops1, hops1, h1⟩ := reduceColumn_colops done rest (reduceFuel c) c
    obtain ⟨ops2, hops2, h2⟩ := ih (done ++ [reduceColumn done (reduceFuel c) c])
    refine ⟨ops1 ++ ops2, ?_, ?_⟩
    · intro op hop
      rcases List.mem_append.mp hop with h | h
      · have := hops1 op h
        simp only [List.length_cons]
        omega
      · have := hops2 op h
        simp only [List.length_append, List.length_cons, List.length_nil] at this ⊢
        omega
    · rw [reduceColumns, h2, colops_append, ← h1]
      simp

theorem standardReduction_colops (M : BoundaryMatrix) :
    ∃ ops : List (Nat × Nat), ForwardOps M.columns.length ops ∧
      entry (standardReduction M).columns = colops ops (entry M.columns) := by
  obtain ⟨ops, hops, h⟩ := reduceColumns_colops M.columns []
  refine ⟨ops, ?_, ?_⟩
  · simpa using hops
  · simpa [standardReduction] using h

/-! ## The standard reduction makes the lows injective -/

theorem addColumns_lt {c d : List Nat} {i : Nat} (hc : maxIndex c = some i)
    (hd : maxIndex d = some i) : ∀ x ∈ addColumns c d, x < i := by
  intro x hx
  obtain ⟨hic, hcle⟩ := maxIndex_eq_some.mp hc
  obtain ⟨hid, hdle⟩ := maxIndex_eq_some.mp hd
  rcases mem_addColumns.mp hx with ⟨h1, h2⟩ | ⟨h1, h2⟩
  · have := hcle x h1
    have hne : x ≠ i := fun h => h2 (h ▸ hid)
    omega
  · have := hdle x h1
    have hne : x ≠ i := fun h => h2 (h ▸ hic)
    omega

theorem reduceFuel_addColumns {c d : List Nat} {i : Nat} (hc : maxIndex c = some i)
    (hd : maxIndex d = some i) : reduceFuel (addColumns c d) ≤ i := by
  unfold reduceFuel
  cases h : maxIndex (addColumns c d) with
  | none => exact Nat.zero_le _
  | some i' =>
    have := addColumns_lt hc hd i' (maxIndex_eq_some.mp h).1
    simp only
    omega

theorem reduceColumn_post (earlier : List (List Nat)) :
    ∀ (fuel : Nat) (c : List Nat), reduceFuel c ≤ fuel →
      ∀ i, maxIndex (reduceColumn earlier fuel c) = some i →
        ∀ d ∈ earlier, maxIndex d ≠ some i := by
  intro fuel
  induction fuel with
  | zero =>
    intro c hfuel i hi
    unfold reduceFuel at hfuel
    rw [reduceColumn] at hi
    rw [hi] at hfuel
    simp at hfuel
  | succ fuel ih =>
    intro c hfuel i hi
    rw [reduceColumn] at hi
    cases hlow : maxIndex c with
    | none =>
      rw [hlow] at hi
      simp only at hi
      rw [hlow] at hi
      exact Option.noConfusion hi
    | some i0 =>
      rw [hlow] at hi
      simp only at hi
      cases hfind : List.find? (fun d => decide (maxIndex d = some i0)) earlier with
      | none =>
        rw [hfind] at hi
        simp only at hi
        rw [hlow] at hi
        simp only [Option.some.injEq] at hi
        subst hi
        intro d hd
        have := List.find?_eq_none.mp hfind d hd
        simpa using this
      | some d =>
        rw [hfind] at hi
        simp only at hi
        have hd : maxIndex d = some i0 := by
          have := List.find?_some hfind
          simpa using this
        have hf : reduceFuel c = i0 + 1 := by
          unfold reduceFuel; rw [hlow]
        exact ih _ (le_trans (reduceFuel_addColumns hlow hd) (by omega)) i hi

theorem reduceColumns_lowInjective :
    ∀ (todo done : List (List Nat)),
      (∀ (j j' : Nat) (c c' : List Nat) (i : Nat), done[j]? = some c → done[j']? = some c' →
        maxIndex c = some i → maxIndex c' = some i → j = j') →
      ∀ (j j' : Nat) (c c' : List Nat) (i : Nat), (reduceColumns done todo)[j]? = some c →
        (reduceColumns done todo)[j']? = some c' →
        maxIndex c = some i → maxIndex c' = some i → j = j' := by
  intro todo
  induction todo with
  | nil => intro done h; simpa [reduceColumns] using h
  | cons c0 rest ih =>
    intro done hdone
    rw [reduceColumns]
    apply ih
    have hlast : ∀ (j : Nat) (c : List Nat),
        (done ++ [reduceColumn done (reduceFuel c0) c0])[j]? = some c →
        (j < done.length ∧ done[j]? = some c) ∨
          (j = done.length ∧ c = reduceColumn done (reduceFuel c0) c0) := by
      intro j c hj
      by_cases hlt : j < done.length
      · rw [List.getElem?_append_left hlt] at hj
        exact Or.inl ⟨hlt, hj⟩
      · have hle : done.length ≤ j := by omega
        rw [List.getElem?_append_right hle] at hj
        by_cases h0 : j - done.length = 0
        · rw [h0] at hj
          simp only [List.getElem?_cons_zero, Option.some.injEq] at hj
          exact Or.inr ⟨by omega, hj.symm⟩
        · have : ([reduceColumn done (reduceFuel c0) c0] : List (List Nat))[j - done.length]?
              = none := by
            apply List.getElem?_eq_none
            simp only [List.length_singleton]
            omega
          rw [this] at hj
          exact Option.noConfusion hj
    intro j j' c c' i hj hj' hc hc'
    rcases hlast j c hj with ⟨_, h1⟩ | ⟨h1, h1c⟩ <;> rcases hlast j' c' hj' with ⟨_, h2⟩ | ⟨h2, h2c⟩
    · exact hdone j j' c c' i h1 h2 hc hc'
    · exfalso
      subst h2c
      exact reduceColumn_post done _ c0 (le_refl _) i hc' c (List.getElem?_mem h1) hc
    · exfalso
      subst h1c
      exact reduceColumn_post done _ c0 (le_refl _) i hc c' (List.getElem?_mem h2) hc'
    · omega

theorem standardReduction_lowInjective (M : BoundaryMatrix) :
    LowInjective (entry (standardReduction M).columns) := by
  intro i j j' h1 h2
  rw [isLow_entry] at h1 h2
  have key := reduceColumns_lowInjective M.columns [] (by intro j j' c c' i hj; simp at hj)
  have hget : ∀ (j : Nat), maxIndex ((standardReduction M).columns.getD j []) = some i →
      (reduceColumns [] M.columns)[j]? = some ((standardReduction M).columns.getD j []) := by
    intro j hj
    rw [List.getD_eq_getElem?_getD] at hj ⊢
    have hcols : (standardReduction M).columns = reduceColumns [] M.columns := rfl
    rw [hcols] at hj ⊢
    cases hc : (reduceColumns [] M.columns)[j]? with
    | none => rw [hc] at hj; simp [maxIndex] at hj
    | some c => rfl
  exact key j j' _ _ i (hget j h1) (hget j' h2) h1 h2

/-! ## The matrix of the dual, and bounds -/

theorem entry_dualize (M : BoundaryMatrix) :
    entry M.dualize.columns = antiT M.columns.length (entry M.columns) := by
  funext r c
  unfold entry antiT BoundaryMatrix.dualize
  simp only
  rw [List.getD_eq_getElem?_getD]
  by_cases hc : c < M.columns.length
  · rw [List.getElem?_map, List.getElem?_range hc]
    simp only [Option.map_some', Option.getD_some, List.mem_filter, List.mem_range,
      decide_eq_true_eq, hc, decide_True, Bool.and_true]
    by_cases hr : r < M.columns.length <;> simp [hr]
  · rw [List.getElem?_eq_none (by simp; omega)]
    simp [hc]

theorem dualize_length (M : BoundaryMatrix) : M.dualize.columns.length = M.columns.length := by
  simp [BoundaryMatrix.dualize]

theorem dualize_wellFormed (M : BoundaryMatrix) (h : M.WellFormed) : M.dualize.WellFormed := by
  unfold BoundaryMatrix.WellFormed at h ⊢
  refine ⟨?_, ?_⟩
  · simp [BoundaryMatrix.dualize]
  · rw [dualize_length]; exact h.2

theorem entry_triangular {M : BoundaryMatrix} (h : M.Triangular) {r c : Nat}
    (hrc : entry M.columns r c = true) : r < c ∧ c < M.columns.length := by
  unfold entry at hrc
  simp only [decide_eq_true_eq] at hrc
  have hc : c < M.columns.length := by
    by_contra hge
    rw [List.getD_eq_getElem?_getD, List.getElem?_eq_none (by omega)] at hrc
    simp at hrc
  exact ⟨h c hc r hrc, hc⟩

theorem triangular_of_entry {M : BoundaryMatrix}
    (h : ∀ r c, entry M.columns r c = true → r < c) : M.Triangular := by
  intro j _ r hr
  apply h r j
  unfold entry
  simpa using hr

theorem dualize_triangular (M : BoundaryMatrix) (h : M.Triangular) : M.dualize.Triangular := by
  apply triangular_of_entry
  intro r c hrc
  rw [entry_dualize] at hrc
  unfold antiT at hrc
  simp only [Bool.and_eq_true, decide_eq_true_eq] at hrc
  obtain ⟨⟨hr, hc⟩, hX⟩ := hrc
  have := (entry_triangular h hX).1
  omega

theorem rowBounded_entry {M : BoundaryMatrix} (h : M.Triangular) :
    RowBounded M.columns.length (entry M.columns) := by
  intro r c hrc
  have := entry_triangular h hrc
  omega

theorem colBounded_entry {M : BoundaryMatrix} (h : M.Triangular) :
    ColBounded M.columns.length (entry M.columns) := by
  intro r c hrc
  exact (entry_triangular h hrc).2

theorem isLow_lowOf {B : BoundaryMatrix} {i j : Nat} :
    IsLow (entry B.columns) i j ↔ B.lowOf j = some i := isLow_entry

theorem isLow_bounds {B : BoundaryMatrix} (h : B.Triangular) {i j : Nat}
    (hlow : IsLow (entry B.columns) i j) : i < j ∧ j < B.columns.length :=
  entry_triangular h hlow.1

theorem standardReduction_isColumnReduction : IsColumnReduction standardReduction :=
  ⟨standardReduction_keepsShape, standardReduction_keepsTriangular,
    fun X => ⟨standardReduction_lowInjective X, standardReduction_colops X⟩⟩

/-- Lows of the reduced dual matrix are the reversed lows of the reduced matrix. -/
theorem reduction_dual_lows (red : BoundaryMatrix → BoundaryMatrix) (hred : IsColumnReduction red)
    (M : BoundaryMatrix) (htri : M.Triangular) (i j : Nat)
    (hi : i < M.columns.length) (hj : j < M.columns.length) :
    IsLow (entry (red M.dualize).columns) i j ↔
      IsLow (entry (red M).columns) (M.columns.length - 1 - j)
        (M.columns.length - 1 - i) := by
  obtain ⟨hinj, cs, hcs, hR⟩ := hred.2.2 M
  obtain ⟨hinj', cs', hcs', hR'⟩ := hred.2.2 M.dualize
  rw [dualize_length] at hcs'
  rw [entry_dualize] at hR'
  rw [hR] at hinj
  rw [hR'] at hinj'
  rw [hR, hR']
  exact dual_lows M.columns.length (entry M.columns) cs cs' hcs hcs' (rowBounded_entry htri)
    (colBounded_entry htri) hinj hinj' i j hi hj

/-! ## The pairing of a reduced matrix, all unpaired creators included -/

theorem lowOf_eq_none_iff {B : BoundaryMatrix} {c : Nat} :
    B.lowOf c = none ↔ ∀ i, ¬ IsLow (entry B.columns) i c := by
  constructor
  · intro h i hi
    rw [isLow_lowOf, h] at hi
    exact Option.noConfusion hi
  · intro h
    cases hlow : B.lowOf c with
    | none => rfl
    | some i => exact absurd (isLow_lowOf.mpr hlow) (h i)

theorem survives_iff_isEssential {B : BoundaryMatrix} (htri : B.Triangular) (c : Nat) :
    survives B true B.columns.length c ↔ IsEssential (entry B.columns) c := by
  unfold survives IsEssential
  rw [lowOf_eq_none_iff]
  constructor
  · rintro ⟨h1, _, h3⟩
    refine ⟨h1, fun j hj => ?_⟩
    have hb := isLow_bounds htri hj
    exact h3 j hb.2 hb.1 (isLow_lowOf.mp hj)
  · rintro ⟨h1, h2⟩
    refine ⟨h1, by simp [keepsCreator], fun j _ _ hj => h2 j (isLow_lowOf.mpr hj)⟩

theorem loopBound_zero (B : BoundaryMatrix) : loopBound B 0 = B.columns.length := by
  simp [loopBound, BoundaryMatrix.getNumColumns]

theorem mem_pairing_iff (red : BoundaryMatrix → BoundaryMatrix) (M : BoundaryMatrix)
    (hd : (red M).dimensions.length = (red M).columns.length) (htri : (red M).Triangular)
    (hn : (red M).columns.length < indexModulus) :
    ∃ p, calculatePersistencePairing red M true 0 = some p ∧
      ∀ e, e ∈ p ↔
        InPairing (red M).isDualized (red M).columns.length (entry (red M).columns) e := by
  refine ⟨_, calculatePersistencePairing_eq_some red M true 0 hd (Nat.zero_le _), ?_⟩
  intro e
  rw [mem_finishPairing, mem_filterMap_pairEntry, loopBound_zero]
  unfold InPairing
  have hpair : ∀ i j, i < j → j < (red M).columns.length →
      pairOf (red M).isDualized (red M).columns.length i j =
        (if (red M).isDualized = true then (red M).columns.length - 1 - j else i,
          if (red M).isDualized = true then (red M).columns.length - 1 - i else j) := by
    intro i j hij hj
    unfold pairOf
    cases (red M).isDualized with
    | false => simp
    | true =>
      simp only [if_true]
      rw [indexSub_reverse_eq hn hj, indexSub_reverse_eq hn (by omega)]
  have hess : ∀ c, c < (red M).columns.length →
      essentialOf (red M).isDualized (red M).columns.length c =
        reverseIndex (red M).isDualized (red M).columns.length c := by
    intro c hc
    unfold essentialOf reverseIndex
    cases (red M).isDualized with
    | false => simp
    | true =>
      simp only [if_true]
      rw [indexSub_reverse_eq hn hc]
  constructor
  · rintro (⟨j, i, hj, hlow, _, he⟩ | ⟨c, hc, he⟩)
    · left
      have hij := lowOf_lt_of_triangular htri hj hlow
      refine ⟨i, j, isLow_lowOf.mpr hlow, ?_⟩
      rw [he, hpair i j hij hj]
    · right
      rw [List.mem_filter, List.mem_range, decide_eq_true_eq] at hc
      refine ⟨c, hc.1, (survives_iff_isEssential htri c).mp hc.2, ?_⟩
      rw [he, hess c hc.1]
  · rintro (⟨i, j, hlow, he⟩ | ⟨c, hc, hessc, he⟩)
    · left
      have hb := isLow_bounds htri hlow
      refine ⟨j, i, hb.2, isLow_lowOf.mp hlow, Or.inl rfl, ?_⟩
      rw [he, hpair i j hb.1 hb.2]
    · right
      refine ⟨c, ?_, ?_⟩
      · rw [List.mem_filter, List.mem_range, decide_eq_true_eq]
        exact ⟨hc, (survives_iff_isEssential htri c).mpr hessc⟩
      · rw [he, hess c hc]

theorem isEssential_dual {n : Nat} {E E' : Mat} (hE : RowBounded n E) (hEc : ColBounded n E)
    (hE' : RowBounded n E') (hEc' : ColBounded n E')
    (hkey : ∀ i j, i < n → j < n → (IsLow E' i j ↔ IsLow E (n - 1 - j) (n - 1 - i)))
    {c : Nat} (hc : c < n) :
    IsEssential E' c ↔ IsEssential E (n - 1 - c) := by
  unfold IsEssential
  constructor
  · rintro ⟨h1, h2⟩
    constructor
    · intro i hi
      have hin := hE i _ hi.1
      apply h2 (n - 1 - i)
      rw [hkey c (n - 1 - i) hc (by omega)]
      rw [show n - 1 - (n - 1 - i) = i by omega]
      exact hi
    · intro j hj
      have hjn := hEc _ j hj.1
      apply h1 (n - 1 - j)
      rw [hkey (n - 1 - j) c (by omega) hc]
      rw [show n - 1 - (n - 1 - j) = j by omega]
      exact hj
  · rintro ⟨h1, h2⟩
    constructor
    · intro i hi
      have hin := hE' i _ hi.1
      exact h2 (n - 1 - i) ((hkey i c hin hc).mp hi)
    · intro j hj
      have hjn := hEc' _ j hj.1
      exact h1 (n - 1 - j) ((hkey c j hc hjn).mp hj)

theorem inPairing_dual {n : Nat} {E E' : Mat} (hE : RowBounded n E) (hEc : ColBounded n E)
    (hE' : RowBounded n E') (hEc' : ColBounded n E')
    (hkey : ∀ i j, i < n → j < n → (IsLow E' i j ↔ IsLow E (n - 1 - j) (n - 1 - i)))
    (b : Bool) (e : Entry) :
    InPairing (!b) n E' e ↔ InPairing b n E e := by
  unfold InPairing reverseIndex
  constructor
  · rintro (⟨i, j, hlow, he⟩ | ⟨c, hc, hess, he⟩)
    · left
      have hi := hE' i j hlow.1
      have hj := hEc' i j hlow.1
      refine ⟨n - 1 - j, n - 1 - i, (hkey i j hi hj).mp hlow, ?_⟩
      rw [he]
      cases b
      · simp
      · simp only [Bool.not_true, Bool.false_eq_true, if_false, if_true, Prod.mk.injEq,
          Option.some.injEq]
        omega
    · right
      refine ⟨n - 1 - c, by omega, (isEssential_dual hE hEc hE' hEc' hkey hc).mp hess, ?_⟩
      rw [he]
      cases b
      · simp
      · simp only [Bool.not_true, Bool.false_eq_true, if_false, if_true, Prod.mk.injEq,
          and_true]
        omega
  · rintro (⟨i, j, hlow, he⟩ | ⟨c, hc, hess, he⟩)
    · left
      have hi := hE i j hlow.1
      have hj := hEc i j hlow.1
      refine ⟨n - 1 - j, n - 1 - i, ?_, ?_⟩
      · rw [hkey _ _ (by omega) (by omega), show n - 1 - (n - 1 - i) = i by omega,
          show n - 1 - (n - 1 - j) = j by omega]
        exact hlow
      · rw [he]
        cases b
        · simp only [Bool.not_false, Bool.false_eq_true, if_false, if_true, Prod.mk.injEq,
            Option.some.injEq]
          omega
        · simp
    · right
      refine ⟨n - 1 - c, by omega, ?_, ?_⟩
      · rw [isEssential_dual hE hEc hE' hEc' hkey (by omega),
          show n - 1 - (n - 1 - c) = c by omega]
        exact hess
      · rw [he]
        cases b
        · simp only [Bool.not_false, Bool.false_eq_true, if_false, if_true, Prod.mk.injEq,
            and_true]
          omega
        · simp

/-- C8: for every well-formed matrix `M` that satisfies the invariant of a
boundary matrix (row indices smaller than the column index), every reduction
strategy that fulfils the contract of a column reduction, and all unpaired
creators included, `calculatePersistencePairing` returns a pairing on `M` and
on `M.dualize()`, and the two pairings have the same pairs and the same
essential entries. -/
theorem dualization_round_trip (red : BoundaryMatrix → BoundaryMatrix)
    (hred : IsColumnReduction red) (M : BoundaryMatrix) (hwf : M.WellFormed)
    (htri : M.Triangular) :
    ∃ p p', calculatePersistencePairing red M true 0 = some p ∧
      calculatePersistencePairing red M.dualize true 0 = some p' ∧
      ∀ e, e ∈ p ↔ e ∈ p' := by
  obtain ⟨hlen, hdim, hdual⟩ := hred.1 M
  obtain ⟨hlen', hdim', hdual'⟩ := hred.1 M.dualize
  have hR := hred.2.1 M htri
  have hR' := hred.2.1 M.dualize (dualize_triangular M htri)
  have hwf' := dualize_wellFormed M hwf
  obtain ⟨p, hp, hmem⟩ := mem_pairing_iff red M
    (by rw [hdim, hlen]; exact hwf.1) hR (by rw [hlen]; exact hwf.2)
  obtain ⟨p', hp', hmem'⟩ := mem_pairing_iff red M.dualize
    (by rw [hdim', hlen']; exact hwf'.1) hR' (by rw [hlen']; exact hwf'.2)
  refine ⟨p, p', hp, hp', fun e => ?_⟩
  rw [hmem, hmem']
  have hd1 : (red M).isDualized = M.dualized := hdual
  have hd2 : (red M.dualize).isDualized = !M.dualized := by
    have : (red M.dualize).isDualized = M.dualize.dualized := hdual'
    rw [this]; rfl
  rw [hd1, hd2, hlen, hlen', dualize_length]
  have hb1 := rowBounded_entry hR
  have hb2 := colBounded_entry hR
  have hb3 := rowBounded_entry hR'
  have hb4 := colBounded_entry hR'
  rw [hlen] at hb1 hb2
  rw [hlen', dualize_length] at hb3 hb4
  exact (inPairing_dual hb1 hb2 hb3 hb4 (reduction_dual_lows red hred M htri) M.dualized e).symm

/-- Witness of C8: the boundary matrix of a filled triangle and the standard
reduction. -/
theorem dualization_round_trip_witness :
    ∃ p p', calculatePersistencePairing standardReduction
        { columns := [[], [], [], [0, 1], [0, 2], [1, 2], [3, 4, 5]],
          dimensions := [0, 0, 0, 1, 1, 1, 2], dualized := false } true 0 = some p ∧
      calculatePersistencePairing standardReduction
        (BoundaryMatrix.dualize
          { columns := [[], [], [], [0, 1], [0, 2], [1, 2], [3, 4, 5]],
            dimensions := [0, 0, 0, 1, 1, 1, 2], dualized := false }) true 0 = some p' ∧
      ∀ e, e ∈ p ↔ e ∈ p' :=
  dualization_round_trip standardReduction standardReduction_isColumnReduction
    { columns := [[], [], [], [0, 1], [0, 2], [1, 2], [3, 4, 5]],
      dimensions := [0, 0, 0, 1, 1, 1, 2], dualized := false } (by decide) (by decide)

/-! ## Sums over the field with two elements -/

theorem parity_congr {n : Nat} {w w' : Nat → Bool} (h : ∀ i, i < n → w i = w' i) :
    parity n w = parity n w' := by
  induction n with
  | zero => rfl
  | succ n ih =>
    rw [parity, parity, ih (fun i hi => h i (by omega)), h n (by omega)]

theorem parity_xor (n : Nat) (w w' : Nat → Bool) :
    parity n (fun i => xor (w i) (w' i)) = xor (parity n w) (parity n w') := by
  induction n with
  | zero => rfl
  | succ n ih =>
    simp only [parity, ih]
    cases parity n w <;> cases parity n w' <;> cases w n <;> cases w' n <;> rfl

theorem parity_false (n : Nat) : parity n (fun _ => false) = false := by
  induction n with
  | zero => rfl
  | succ n ih => simp [parity, ih]

theorem parity_delta (n a : Nat) (c : Bool) :
    parity n (fun i => decide (i = a) && c) = (decide (a < n) && c) := by
  induction n with
  | zero => simp [parity]
  | succ n ih =>
    rw [parity, ih]
    by_cases h1 : a < n
    · have h2 : n ≠ a := by omega
      have h3 : a < n + 1 := by omega
      simp [h1, h2, h3]
    · by_cases h2 : n = a
      · subst h2
        simp
      · have h3 : ¬ a < n + 1 := by omega
        simp [h1, h2, h3]

theorem parity_eq_true_of_unique {n : Nat} {w : Nat → Bool} {a : Nat} (ha : a < n)
    (hwa : w a = true) (hother : ∀ i, i < n → i ≠ a → w i = false) : parity n w = true := by
  have : parity n w = parity n (fun i => decide (i = a) && true) := by
    apply parity_congr
    intro i hi
    by_cases hia : i = a
    · subst hia; simp [hwa]
    · simp [hia, hother i hi hia]
  rw [this, parity_delta]
  simp [ha]

theorem parity_eq_filter_length (n : Nat) (w : Nat → Bool) :
    parity n w = decide (((List.range n).filter w).length % 2 = 1) := by
  induction n with
  | zero => rfl
  | succ n ih =>
    rw [parity, ih, List.range_succ, List.filter_append, List.length_append]
    cases hw : w n
    · simp [List.filter_cons, hw]
    · simp only [List.filter_cons, hw, if_true, List.filter_nil, List.length_singleton,
        Bool.xor_true]
      by_cases h : (List.filter w (List.range n)).length % 2 = 1
      · have : ((List.filter w (List.range n)).length + 1) % 2 ≠ 1 := by omega
        simp [h, this]
      · have : ((List.filter w (List.range n)).length + 1) % 2 = 1 := by omega
        simp [h, this]

/-! ## Consequences of "the boundary of a boundary is zero" -/

/-- The product `D * z` of a matrix and a vector vanishes. -/
theorem annihilates_colop {n : Nat} {D X : Mat} {k j : Nat}
    (h : ∀ r c, parity n (fun i => D r i && X i c) = false) :
    ∀ r c, parity n (fun i => D r i && colop k j X i c) = false := by
  intro r c
  unfold colop
  by_cases hc : c = j
  · subst hc
    simp only [if_true]
    have : (fun i => D r i && xor (X i c) (X i k)) =
        (fun i => xor (D r i && X i c) (D r i && X i k)) := by
      funext i
      cases D r i <;> cases X i c <;> cases X i k <;> rfl
    rw [this, parity_xor, h r c, h r k]
    rfl
  · simp only [if_neg hc]
    exact h r c

theorem annihilates_colops {n : Nat} {D : Mat} (cs : List (Nat × Nat)) :
    ∀ X : Mat, (∀ r c, parity n (fun i => D r i && X i c) = false) →
      ∀ r c, parity n (fun i => D r i && colops cs X i c) = false := by
  induction cs with
  | nil => intro X h; exact h
  | cons op cs ih =>
    intro X h
    rw [colops_cons]
    exact ih _ (annihilates_colop h)

theorem kernel_colop {n : Nat} {X : Mat} {a b : Nat} (hab : a < b) (hb : b < n)
    {y : Nat → Bool} {k : Nat}
    (hy : ∀ r, parity n (fun i => X r i && y i) = false) (hk : y k = true)
    (htop : ∀ i, k < i → y i = false) :
    ∃ y' : Nat → Bool, (∀ r, parity n (fun i => colop a b X r i && y' i) = false) ∧
      y' k = true ∧ ∀ i, k < i → y' i = false := by
  refine ⟨fun i => if i = a then xor (y a) (y b) else y i, ?_, ?_, ?_⟩
  · intro r
    rw [← hy r]
    have hsplit : (fun i => colop a b X r i && (if i = a then xor (y a) (y b) else y i)) =
        (fun i => xor (X r i && y i)
          (xor (decide (i = a) && (X r a && y b)) (decide (i = b) && (X r a && y b)))) := by
      funext i
      unfold colop
      by_cases hia : i = a
      · have hib : i ≠ b := by omega
        subst hia
        simp only [if_neg hib, if_true, decide_True, Bool.true_and, decide_eq_false hib,
          Bool.false_and, Bool.xor_false]
        cases X r i <;> cases y i <;> cases y b <;> rfl
      · by_cases hib : i = b
        · subst hib
          simp only [if_true, if_neg hia, decide_eq_false hia, Bool.false_and, decide_True,
            Bool.true_and, Bool.false_xor]
          cases X r i <;> cases X r a <;> cases y i <;> rfl
        · simp only [if_neg hia, if_neg hib, decide_eq_false hia, decide_eq_false hib,
            Bool.false_and, Bool.xor_false]
    rw [hsplit, parity_xor, parity_xor, parity_delta, parity_delta]
    have ha : a < n := by omega
    simp only [ha, hb, decide_True, Bool.true_and]
    cases parity n (fun i => X r i && y i) <;> cases (X r a && y b) <;> rfl
  · by_cases hka : k = a
    · subst hka
      simp only [if_true, hk, htop b hab]
      rfl
    · simp only [if_neg hka, hk]
  · intro i hi
    by_cases hia : i = a
    · subst hia
      simp only [if_true, htop i hi, htop b (by omega)]
      rfl
    · simp only [if_neg hia, htop i hi]

theorem kernel_colops {n : Nat} (cs : List (Nat × Nat)) (hcs : ForwardOps n cs) {k : Nat} :
    ∀ (X : Mat) (y : Nat → Bool), (∀ r, parity n (fun i => X r i && y i) = false) →
      y k = true → (∀ i, k < i → y i = false) →
      ∃ y' : Nat → Bool, (∀ r, parity n (fun i => colops cs X r i && y' i) = false) ∧
        y' k = true ∧ ∀ i, k < i → y' i = false := by
  induction cs with
  | nil => intro X y hy hk htop; exact ⟨y, hy, hk, htop⟩
  | cons op cs ih =>
    intro X y hy hk htop
    have hop := hcs op (List.mem_cons_self _ _)
    obtain ⟨y1, hy1, hk1, htop1⟩ := kernel_colop hop.1 hop.2 hy hk htop
    rw [colops_cons]
    exact ih (fun o ho => hcs o (List.mem_cons_of_mem _ ho)) _ y1 hy1 hk1 htop1

theorem kernel_of_lowInjective {n : Nat} {R : Mat} (hb : RowBounded n R)
    (hinj : LowInjective R) {y : Nat → Bool}
    (hy : ∀ r, parity n (fun i => R r i && y i) = false) :
    ∀ (m r : Nat), n - r ≤ m → ∀ i, i < n → y i = true → R r i = false := by
  intro m
  induction m with
  | zero =>
    intro r hm i _ _
    cases hR : R r i with
    | false => rfl
    | true => have := hb r i hR; omega
  | succ m ih =>
    intro r hm i hi hyi
    cases hR : R r i with
    | false => rfl
    | true =>
      exfalso
      have hrn := hb r i hR
      have hlow : ∀ c, c < n → y c = true → R r c = true → IsLow R r c :=
        fun c hc hyc hRc => ⟨hRc, fun r' hr' => ih r' (by omega) c hc hyc⟩
      have := parity_eq_true_of_unique (w := fun c => R r c && y c) hi (by simp [hR, hyi])
        (by
          intro c hc hci
          cases hRc : R r c with
          | false => simp [hRc]
          | true =>
            cases hyc : y c with
            | false => simp [hyc]
            | true => exact absurd (hinj r c i (hlow c hc hyc hRc) (hlow i hi hyi hR)) hci)
      rw [hy r] at this
      exact Bool.noConfusion this

/-- In a reduced matrix obtained from a matrix `D` with `D * D = 0` by adding
earlier columns to later ones, the low of a column is an empty column. -/
theorem low_column_empty {n : Nat} {D : Mat} (cs : List (Nat × Nat)) (hcs : ForwardOps n cs)
    (hD : RowBounded n D)
    (hsq : ∀ r c, parity n (fun i => D r i && D i c) = false)
    (hinj : LowInjective (colops cs D)) {k j : Nat} (hlow : IsLow (colops cs D) k j) :
    ∀ r, colops cs D r k = false := by
  have hRb : RowBounded n (colops cs D) := rowBounded_colops cs D hD
  have hk : k < n := hRb k j hlow.1
  have hz := annihilates_colops (D := D) cs D hsq
  obtain ⟨y, hy, hyk, _⟩ := kernel_colops cs hcs D (fun i => colops cs D i j)
    (fun r => hz r j) hlow.1 hlow.2
  intro r
  exact kernel_of_lowInjective hRb hinj hy (n - r) r (le_refl _) k hk hyk

theorem boundarySquaredZero_parity {M : BoundaryMatrix} (htri : M.Triangular)
    (hsq : M.BoundarySquaredZero) (r c : Nat) :
    parity M.columns.length (fun i => entry M.columns r i && entry M.columns i c) = false := by
  by_cases hr : r < M.columns.length
  · by_cases hc : c < M.columns.length
    · rw [parity_eq_filter_length]
      have := hsq c hc r hr
      unfold entry
      rw [this]
      rfl
    · have : (fun i => entry M.columns r i && entry M.columns i c) = fun _ => false := by
        funext i
        cases h : entry M.columns i c with
        | false => simp
        | true => exact absurd (entry_triangular htri h).2 hc
      rw [this, parity_false]
  · have : (fun i => entry M.columns r i && entry M.columns i c) = fun _ => false := by
      funext i
      cases h : entry M.columns r i with
      | false => simp
      | true =>
        have := entry_triangular htri h
        omega
    rw [this, parity_false]

/-- In the reduction of a boundary matrix, the low of a column is an empty
column: a destroyer is never a creator. -/
theorem reduction_low_column_empty (red : BoundaryMatrix → BoundaryMatrix)
    (hred : IsColumnReduction red) (M : BoundaryMatrix) (htri : M.Triangular)
    (hsq : M.BoundarySquaredZero) {k j : Nat}
    (hlow : IsLow (entry (red M).columns) k j) :
    ∀ i, ¬ IsLow (entry (red M).columns) i k := by
  obtain ⟨hinj, cs, hcs, hR⟩ := hred.2.2 M
  rw [hR] at hinj hlow ⊢
  intro i hi
  have := low_column_empty cs hcs (rowBounded_entry htri)
    (boundarySquaredZero_parity htri hsq) hinj hlow i
  rw [hi.1] at this
  exact Bool.noConfusion this

/-! ## Counting the occurrences of an index -/

theorem countP_range_single {q : Nat → Bool} {n j0 : Nat} (hj0 : j0 < n)
    (h : ∀ j, j < n → (q j = true ↔ j = j0)) : List.countP q (List.range n) = 1 := by
  have : List.countP q (List.range n) = List.count j0 (List.range n) := by
    unfold List.count
    apply List.countP_congr
    intro j hj
    rw [List.mem_range] at hj
    rw [h j hj]
    simp
  rw [this]
  exact List.count_eq_one_of_mem (List.nodup_range n) (List.mem_range.mpr hj0)

theorem countP_range_none {q : Nat → Bool} {n : Nat} (h : ∀ j, j < n → q j = false) :
    List.countP q (List.range n) = 0 := by
  rw [List.countP_eq_zero]
  intro j hj
  rw [List.mem_range] at hj
  rw [h j hj]
  exact Bool.false_ne_true

theorem pairEntry_eq {B : BoundaryMatrix} (htri : B.Triangular)
    (hn : B.columns.length < indexModulus) {j : Nat} (hj : j < B.columns.length) :
    pairEntry B 0 B.columns.length j =
      (B.lowOf j).map (fun i =>
        (if B.isDualized = true then B.columns.length - 1 - j else i,
          some (if B.isDualized = true then B.columns.length - 1 - i else j))) := by
  unfold pairEntry
  cases hlow : B.lowOf j with
  | none => rfl
  | some i =>
    have hij := lowOf_lt_of_triangular htri hj hlow
    simp only [true_or, if_true, Option.map_some']
    unfold pairOf
    cases B.isDualized with
    | false => simp
    | true =>
      simp only [if_true]
      rw [indexSub_reverse_eq hn hj, indexSub_reverse_eq hn (by omega)]

theorem essentialOf_eq {b : Bool} {n c : Nat} (hn : n < indexModulus) (hc : c < n) :
    essentialOf b n c = reverseIndex b n c := by
  unfold essentialOf reverseIndex
  cases b with
  | false => simp
  | true =>
    simp only [if_true]
    rw [indexSub_reverse_eq hn hc]

theorem occurrences_perm {k : Nat} {p q : List Entry} (h : p.Perm q) :
    occurrences k p = occurrences k q := by
  unfold occurrences
  rw [h.countP_eq, h.countP_eq]

theorem occurrences_append (k : Nat) (p q : List Entry) :
    occurrences k (p ++ q) = occurrences k p + occurrences k q := by
  unfold occurrences
  rw [List.countP_append, List.countP_append]
  omega

theorem reverseIndex_lt {b : Bool} {n k : Nat} (hk : k < n) : reverseIndex b n k < n := by
  unfold reverseIndex
  split <;> omega

theorem reverseIndex_eq_iff {b : Bool} {n k c : Nat} (hk : k < n) (hc : c < n) :
    reverseIndex b n c = k ↔ c = reverseIndex b n k := by
  unfold reverseIndex
  split <;> omega

theorem occurrences_pairs {B : BoundaryMatrix} (htri : B.Triangular)
    (hn : B.columns.length < indexModulus) {k : Nat} (hk : k < B.columns.length) :
    occurrences k ((List.range B.columns.length).filterMap (pairEntry B 0 B.columns.length)) =
      List.countP
          (fun j => decide (B.lowOf j = some (reverseIndex B.isDualized B.columns.length k)))
          (List.range B.columns.length) +
        List.countP
          (fun j => (B.lowOf j).isSome &&
            decide (j = reverseIndex B.isDualized B.columns.length k))
          (List.range B.columns.length) := by
  unfold occurrences
  rw [List.countP_filterMap, List.countP_filterMap]
  have hcre : ∀ j, j < B.columns.length →
      (((pairEntry B 0 B.columns.length j).map (fun e => decide (e.1 = k))).getD false =
        if B.isDualized = true then
          ((B.lowOf j).isSome && decide (j = reverseIndex B.isDualized B.columns.length k))
        else decide (B.lowOf j = some (reverseIndex B.isDualized B.columns.length k))) := by
    intro j hj
    rw [pairEntry_eq htri hn hj]
    unfold reverseIndex
    cases hlow : B.lowOf j with
    | none => cases B.isDualized <;> simp
    | some i =>
      cases B.isDualized with
      | false => simp
      | true =>
        simp only [Option.map_some', if_true, Option.getD_some, Option.isSome_some,
          Bool.true_and]
        by_cases h : B.columns.length - 1 - j = k
        · have : j = B.columns.length - 1 - k := by omega
          rw [decide_eq_true h, decide_eq_true this]
        · have : ¬ j = B.columns.length - 1 - k := by omega
          rw [decide_eq_false h, decide_eq_false this]
  have hdes : ∀ j, j < B.columns.length →
      (((pairEntry B 0 B.columns.length j).map (fun e => decide (e.2 = some k))).getD false =
        if B.isDualized = true then
          decide (B.lowOf j = some (reverseIndex B.isDualized B.columns.length k))
        else ((B.lowOf j).isSome && decide (j = reverseIndex B.isDualized B.columns.length k))) := by
    intro j hj
    rw [pairEntry_eq htri hn hj]
    unfold reverseIndex
    cases hlow : B.lowOf j with
    | none => cases B.isDualized <;> simp
    | some i =>
      have hij := lowOf_lt_of_triangular htri hj hlow
      cases B.isDualized with
      | false => simp
      | true =>
        simp only [Option.map_some', if_true, Option.getD_some, Option.some.injEq]
        by_cases h : B.columns.length - 1 - i = k
        · have : i = B.columns.length - 1 - k := by omega
          rw [decide_eq_true h, decide_eq_true this]
        · have : ¬ i = B.columns.length - 1 - k := by omega
          rw [decide_eq_false h, decide_eq_false this]
  have e1 := List.countP_congr (l := List.range B.columns.length)
    (p := fun j => ((pairEntry B 0 B.columns.length j).map (fun e => decide (e.1 = k))).getD false)
    (q := fun j => if B.isDualized = true then
          ((B.lowOf j).isSome && decide (j = reverseIndex B.isDualized B.columns.length k))
        else decide (B.lowOf j = some (reverseIndex B.isDualized B.columns.length k)))
    (fun j hj => by simp only [hcre j (List.mem_range.mp hj)])
  have e2 := List.countP_congr (l := List.range B.columns.length)
    (p := fun j =>
      ((pairEntry B 0 B.columns.length j).map (fun e => decide (e.2 = some k))).getD false)
    (q := fun j => if B.isDualized = true then
          decide (B.lowOf j = some (reverseIndex B.isDualized B.columns.length k))
        else ((B.lowOf j).isSome && decide (j = reverseIndex B.isDualized B.columns.length k)))
    (fun j hj => by simp only [hdes j (List.mem_range.mp hj)])
  rw [e1, e2]
  cases B.isDualized with
  | false => simp
  | true => simp only [if_true]; omega

theorem occurrences_essentials {b : Bool} {n : Nat} (hn : n < indexModulus) (s : Nat → Bool)
    {k : Nat} (hk : k < n) :
    occurrences k (((List.range n).filter s).map (fun c => (essentialOf b n c, none))) =
      List.countP (fun c => decide (c = reverseIndex b n k) && s c) (List.range n) := by
  unfold occurrences
  rw [List.countP_map, List.countP_map, List.countP_filter, List.countP_filter]
  have h2 : List.countP
      (fun a => ((fun (e : Entry) => decide (e.2 = some k)) ∘
        fun c => (essentialOf b n c, none)) a && s a) (List.range n) = 0 := by
    apply countP_range_none
    intro j _
    simp
  rw [h2, Nat.add_zero]
  apply List.countP_congr
  intro c hc
  rw [List.mem_range] at hc
  simp only [Function.comp, essentialOf_eq hn hc, Bool.and_eq_true, decide_eq_true_eq]
  rw [reverseIndex_eq_iff hk hc]

theorem occurrences_eq_one {B : BoundaryMatrix} (htri : B.Triangular)
    (hn : B.columns.length < indexModulus) (hinj : LowInjective (entry B.columns))
    (hcyc : ∀ k j, IsLow (entry B.columns) k j → ∀ i, ¬ IsLow (entry B.columns) i k)
    {k : Nat} (hk : k < B.columns.length) :
    occurrences k
      (finishPairing B.isDualized B.columns.length
        ((List.range B.columns.length).filterMap (pairEntry B 0 B.columns.length))
        ((List.range B.columns.length).filter
          (fun c => decide (survives B true B.columns.length c)))) = 1 := by
  unfold finishPairing
  rw [occurrences_perm (List.perm_insertionSort entryLE _), occurrences_append,
    occurrences_pairs htri hn hk, occurrences_essentials hn _ hk]
  have hk' := reverseIndex_lt (b := B.isDualized) hk
  generalize reverseIndex B.isDualized B.columns.length k = k' at hk'
  cases hlow : B.lowOf k' with
  | some i =>
    have hcol : List.countP (fun j => (B.lowOf j).isSome && decide (j = k'))
        (List.range B.columns.length) = 1 := by
      apply countP_range_single hk'
      intro j _
      constructor
      · intro h
        simp only [Bool.and_eq_true, decide_eq_true_eq] at h
        exact h.2
      · intro h
        subst h
        simp [hlow]
    have hlo : List.countP (fun j => decide (B.lowOf j = some k'))
        (List.range B.columns.length) = 0 := by
      apply countP_range_none
      intro j _
      rw [decide_eq_false_iff_not]
      intro h
      exact hcyc k' j (isLow_lowOf.mpr h) i (isLow_lowOf.mpr hlow)
    have hes : List.countP (fun c => decide (c = k') && decide (survives B true B.columns.length c))
        (List.range B.columns.length) = 0 := by
      apply countP_range_none
      intro c _
      by_cases hc : c = k'
      · subst hc
        have : ¬ survives B true B.columns.length c := by
          rintro ⟨h1, _⟩
          rw [hlow] at h1
          exact Option.noConfusion h1
        simp [this]
      · simp [hc]
    rw [hcol, hlo, hes]
  | none =>
    have hcol : List.countP (fun j => (B.lowOf j).isSome && decide (j = k'))
        (List.range B.columns.length) = 0 := by
      apply countP_range_none
      intro j _
      by_cases hj : j = k'
      · subst hj
        simp [hlow]
      · simp [hj]
    by_cases hex : ∃ j, B.lowOf j = some k'
    · obtain ⟨j1, hj1⟩ := hex
      have hb := isLow_bounds htri (isLow_lowOf.mpr hj1)
      have hlo : List.countP (fun j => decide (B.lowOf j = some k'))
          (List.range B.columns.length) = 1 := by
        apply countP_range_single hb.2
        intro j _
        rw [decide_eq_true_eq]
        constructor
        · intro h
          exact hinj k' j j1 (isLow_lowOf.mpr h) (isLow_lowOf.mpr hj1)
        · intro h
          rw [h]; exact hj1
      have hes : List.countP
          (fun c => decide (c = k') && decide (survives B true B.columns.length c))
          (List.range B.columns.length) = 0 := by
        apply countP_range_none
        intro c _
        by_cases hc : c = k'
        · subst hc
          have : ¬ survives B true B.columns.length c := by
            rintro ⟨_, _, h3⟩
            exact h3 j1 hb.2 hb.1 hj1
          simp [this]
        · simp [hc]
      rw [hcol, hlo, hes]
    · have hlo : List.countP (fun j => decide (B.lowOf j = some k'))
          (List.range B.columns.length) = 0 := by
        apply countP_range_none
        intro j _
        rw [decide_eq_false_iff_not]
        intro h
        exact hex ⟨j, h⟩
      have hes : List.countP
          (fun c => decide (c = k') && decide (survives B true B.columns.length c))
          (List.range B.columns.length) = 1 := by
        apply countP_range_single hk'
        intro c _
        constructor
        · intro h
          simp only [Bool.and_eq_true, decide_eq_true_eq] at h
          exact h.1
        · intro h
          subst h
          have : survives B true B.columns.length c :=
            ⟨hlow, by simp [keepsCreator], fun j _ _ hj => hex ⟨j, hj⟩⟩
          simp [this]
      rw [hcol, hlo, hes]

/-- C6 (amended): for every well-formed matrix with `n` columns that is a
boundary matrix (row indices smaller than the column index, and the boundary
of a boundary zero), dualized or not, every reduction strategy that fulfils
the contract of a column reduction, `max` unset and
`includeAllUnpairedCreators` set, `calculatePersistencePairing` returns a
pairing in which every index in `0..n-1` occurs exactly once, as the creator of
a pair, as the destroyer of a pair, or as an essential entry. -/
theorem pairing_complete (red : BoundaryMatrix → BoundaryMatrix)
    (hred : IsColumnReduction red) (M : BoundaryMatrix) (hwf : M.WellFormed)
    (htri : M.Triangular) (hsq : M.BoundarySquaredZero) :
    ∃ p, calculatePersistencePairing red M true 0 = some p ∧
      ∀ k, k < M.getNumColumns → occurrences k p = 1 := by
  obtain ⟨hlen, hdim, _⟩ := hred.1 M
  have hR := hred.2.1 M htri
  have hd : (red M).dimensions.length = (red M).columns.length := by
    rw [hdim, hlen]; exact hwf.1
  have hn : (red M).columns.length < indexModulus := by rw [hlen]; exact hwf.2
  refine ⟨_, calculatePersistencePairing_eq_some red M true 0 hd (Nat.zero_le _), ?_⟩
  intro k hk
  rw [loopBound_zero]
  exact occurrences_eq_one hR hn (hred.2.2 M).1
    (fun k j hlow => reduction_low_column_empty red hred M htri hsq hlow)
    (by rw [hlen]; exact hk)

/-- Witness of C6: the boundary matrix of a hollow triangle, whose last edge
is an essential creator of the top dimension, and the standard reduction. -/
theorem pairing_complete_witness :
    ∃ p, calculatePersistencePairing standardReduction
        { columns := [[], [], [], [0, 1], [0, 2], [1, 2]],
          dimensions := [0, 0, 0, 1, 1, 1], dualized := false } true 0 = some p ∧
      ∀ k, k < BoundaryMatrix.getNumColumns
          { columns := [[], [], [], [0, 1], [0, 2], [1, 2]],
            dimensions := [0, 0, 0, 1, 1, 1], dualized := false } →
        occurrences k p = 1 :=
  pairing_complete standardReduction standardReduction_isColumnReduction
    { columns := [[], [], [], [0, 1], [0, 2], [1, 2]],
      dimensions := [0, 0, 0, 1, 1, 1], dualized := false }
    (by decide) (by decide) (by decide)

/-- Counterexample to C6 as stated: for the boundary matrix of a single
vertex, with `max` unset and `includeAllUnpairedCreators` unset, the pairing
returned is empty: index 0 occurs in it zero times, not once. -/
theorem pairing_complete_counterexample :
    ¬ (∀ p, calculatePersistencePairing standardReduction
          { columns := [[]], dimensions := [0], dualized := false } false 0 = some p →
        ∀ k, k < BoundaryMatrix.getNumColumns
            { columns := [[]], dimensions := [0], dualized := false } →
          occurrences k p = 1) := by
  intro h
  have h1 := h [] (by decide) 0 (by decide)
  revert h1
  decide

/-! ## Maximal clique enumeration: the backtracking search -/

theorem cliqueInv_extend {adj : Nat → Nat → Bool} {V R P X : List Nat}
    (hsym : ∀ u v, adj u v = adj v u) (hirr : ∀ u, adj u u = false)
    (hinv : CliqueInv adj V R P X) {v : Nat} (hv : v ∈ P) :
    CliqueInv adj V (v :: R) (P.filter (adj v)) (X.filter (adj v)) := by
  obtain ⟨hRnd, hRV, hRc, hPnd, hPX, hPXiff⟩ := hinv
  obtain ⟨hvV, hvR, hvadj⟩ := (hPXiff v).mp (Or.inl hv)
  refine ⟨List.nodup_cons.mpr ⟨hvR, hRnd⟩, ?_, ?_, hPnd.filter _, ?_, ?_⟩
  · intro w hw
    rcases List.mem_cons.mp hw with rfl | hw
    · exact hvV
    · exact hRV w hw
  · intro a ha b hb hab
    rcases List.mem_cons.mp ha with h1 | h1 <;> rcases List.mem_cons.mp hb with h2 | h2
    · exact absurd (h1.trans h2.symm) hab
    · rw [h1]; exact hvadj b h2
    · rw [h2, hsym]; exact hvadj a h1
    · exact hRc a h1 b h2 hab
  · intro w hw hwX
    exact hPX w (List.mem_filter.mp hw).1 (List.mem_filter.mp hwX).1
  · intro w
    simp only [List.mem_filter, List.mem_cons]
    constructor
    · rintro (⟨hw, hadj⟩ | ⟨hw, hadj⟩)
      · obtain ⟨h1, h2, h3⟩ := (hPXiff w).mp (Or.inl hw)
        refine ⟨h1, ?_, ?_⟩
        · rintro (rfl | h)
          · rw [hirr] at hadj; exact Bool.noConfusion hadj
          · exact h2 h
        · rintro u (rfl | hu)
          · rw [hsym]; exact hadj
          · exact h3 u hu
      · obtain ⟨h1, h2, h3⟩ := (hPXiff w).mp (Or.inr hw)
        refine ⟨h1, ?_, ?_⟩
        · rintro (rfl | h)
          · rw [hirr] at hadj; exact Bool.noConfusion hadj
          · exact h2 h
        · rintro u (rfl | hu)
          · rw [hsym]; exact hadj
          · exact h3 u hu
    · rintro ⟨h1, h2, h3⟩
      have hwv : adj v w = true := by rw [hsym]; exact h3 v (Or.inl rfl)
      have := (hPXiff w).mpr ⟨h1, fun h => h2 (Or.inr h), fun u hu => h3 u (Or.inr hu)⟩
      rcases this with h | h
      · exact Or.inl ⟨h, hwv⟩
      · exact Or.inr ⟨h, hwv⟩

theorem cliqueInv_move {adj : Nat → Nat → Bool} {V R P X : List Nat}
    (hinv : CliqueInv adj V R P X) {v : Nat} (hv : v ∈ P) :
    CliqueInv adj V R (P.erase v) (v :: X) := by
  obtain ⟨hRnd, hRV, hRc, hPnd, hPX, hPXiff⟩ := hinv
  refine ⟨hRnd, hRV, hRc, hPnd.erase v, ?_, ?_⟩
  · intro w hw hwX
    rw [hPnd.mem_erase_iff] at hw
    rcases List.mem_cons.mp hwX with h | h
    · exact hw.1 h
    · exact hPX w hw.2 h
  · intro w
    rw [← hPXiff w, hPnd.mem_erase_iff, List.mem_cons]
    constructor
    · rintro (⟨_, h⟩ | rfl | h)
      · exact Or.inl h
      · exact Or.inl hv
      · exact Or.inr h
    · rintro (h | h)
      · by_cases hwv : w = v
        · exact Or.inr (Or.inl hwv)
        · exact Or.inl ⟨hwv, h⟩
      · exact Or.inr (Or.inr h)

theorem enumerateLoop_spec {adj : Nat → Nat → Bool} {V : List Nat}
    (hsym : ∀ u v, adj u v = adj v u) (hirr : ∀ u, adj u u = false)
    {recurse : List Nat → List Nat → List Nat → List (List Nat)} {bound : Nat}
    (hrec : RecSpec adj V recurse bound) (R : List Nat) :
    ∀ (cands P X : List Nat), CliqueInv adj V R P X → P.length ≤ bound → cands.Nodup →
      (∀ v ∈ cands, v ∈ P) →
      (enumerateLoop adj recurse R cands P X).Nodup ∧
        ∀ c, c ∈ enumerateLoop adj recurse R cands P X ↔
          (InScope adj V R P c ∧ ∃ v ∈ cands, v ∈ c) := by
  intro cands
  induction cands with
  | nil =>
    intro P X _ _ _ _
    simp [enumerateLoop]
  | cons v rest ih =>
    intro P X hinv hlen hnd hsub
    have hvP : v ∈ P := hsub v (List.mem_cons_self _ _)
    have hvR : v ∉ R := ((hinv.2.2.2.2.2 v).mp (Or.inl hvP)).2.1
    have hPnd := hinv.2.2.2.1
    have hlt : (P.filter (adj v)).length < bound := by
      have : (P.filter (adj v)).length < P.length := by
        rw [List.length_filter_lt_length_iff_exists]
        exact ⟨v, hvP, by simp [hirr]⟩
      omega
    obtain ⟨hAnd, hA⟩ := hrec (v :: R) (P.filter (adj v)) (X.filter (adj v))
      (cliqueInv_extend hsym hirr hinv hvP) hlt
    have hnd' := List.nodup_cons.mp hnd
    obtain ⟨hBnd, hB⟩ := ih (P.erase v) (v :: X) (cliqueInv_move hinv hvP)
      (le_trans (List.length_erase_le v P) hlen) hnd'.2
      (fun w hw => by
        rw [hPnd.mem_erase_iff]
        exact ⟨fun h => hnd'.1 (h ▸ hw), hsub w (List.mem_cons_of_mem _ hw)⟩)
    rw [enumerateLoop]
    constructor
    · rw [List.nodup_append]
      refine ⟨hAnd, hBnd, ?_⟩
      intro c hcA hcB
      have hvc : v ∈ c := ((hA c).mp hcA).2.2.1 v (List.mem_cons_self _ _)
      rcases ((hB c).mp hcB).1.2.2.2 v hvc with h | h
      · exact hvR h
      · rw [hPnd.mem_erase_iff] at h
        exact h.1 rfl
    · intro c
      rw [List.mem_append, hA, hB]
      constructor
      · rintro (⟨hs, hm, hR, hc⟩ | ⟨⟨hs, hm, hR, hc⟩, w, hw, hwc⟩)
        · refine ⟨⟨hs, hm, fun x hx => hR x (List.mem_cons_of_mem _ hx), ?_⟩, v,
            List.mem_cons_self _ _, hR v (List.mem_cons_self _ _)⟩
          intro x hx
          rcases hc x hx with h | h
          · rcases List.mem_cons.mp h with rfl | h
            · exact Or.inr hvP
            · exact Or.inl h
          · exact Or.inr (List.mem_filter.mp h).1
        · refine ⟨⟨hs, hm, hR, ?_⟩, w, List.mem_cons_of_mem _ hw, hwc⟩
          intro x hx
          rcases hc x hx with h | h
          · exact Or.inl h
          · exact Or.inr (List.mem_of_mem_erase h)
      · rintro ⟨⟨hs, hm, hR, hc⟩, w, hw, hwc⟩
        by_cases hvc : v ∈ c
        · left
          refine ⟨hs, hm, ?_, ?_⟩
          · intro x hx
            rcases List.mem_cons.mp hx with rfl | hx
            · exact hvc
            · exact hR x hx
          · intro x hx
            rcases hc x hx with h | h
            · exact Or.inl (List.mem_cons_of_mem _ h)
            · by_cases hxv : x = v
              · exact Or.inl (hxv ▸ List.mem_cons_self _ _)
              · right
                rw [List.mem_filter]
                exact ⟨h, hm.2.1 v hvc x hx (fun e => hxv e.symm)⟩
        · right
          refine ⟨⟨hs, hm, hR, ?_⟩, w, ?_, hwc⟩
          · intro x hx
            rcases hc x hx with h | h
            · exact Or.inl h
            · right
              rw [hPnd.mem_erase_iff]
              exact ⟨fun e => hvc (e ▸ hx), h⟩
          · rcases List.mem_cons.mp hw with rfl | hw
            · exact absurd hwc hvc
            · exact hw

theorem sorted_lt_ext {c c' : List Nat} (hc : c.Sorted (· < ·)) (hc' : c'.Sorted (· < ·))
    (h : ∀ v, v ∈ c ↔ v ∈ c') : c = c' :=
  List.eq_of_perm_of_sorted ((List.perm_ext_iff_of_nodup hc.nodup hc'.nodup).mpr h) hc hc'

theorem sorted_insertionSort_of_nodup {R : List Nat} (h : R.Nodup) :
    (R.insertionSort (· ≤ ·)).Sorted (· < ·) :=
  (List.sorted_insertionSort (· ≤ ·) R).lt_of_le
    ((List.perm_insertionSort (· ≤ ·) R).nodup_iff.mpr h)

theorem mem_insertionSort {R : List Nat} {v : Nat} : v ∈ R.insertionSort (· ≤ ·) ↔ v ∈ R :=
  (List.perm_insertionSort (· ≤ ·) R).mem_iff

/-- With no candidate and no excluded vertex left, the clique `R` itself is
the one clique in scope. -/
theorem inScope_leaf {adj : Nat → Nat → Bool} {V R : List Nat}
    (hinv : CliqueInv adj V R [] []) (c : List Nat) :
    c ∈ [R.insertionSort (· ≤ ·)] ↔ InScope adj V R [] c := by
  obtain ⟨hRnd, hRV, hRc, _, _, hPXiff⟩ := hinv
  have hin : InScope adj V R [] (R.insertionSort (· ≤ ·)) := by
    refine ⟨sorted_insertionSort_of_nodup hRnd, ⟨?_, ?_, ?_⟩, ?_, ?_⟩
    · intro v hv; exact hRV v (mem_insertionSort.mp hv)
    · intro u hu v hv huv
      exact hRc u (mem_insertionSort.mp hu) v (mem_insertionSort.mp hv) huv
    · intro w hwV hw
      by_contra hno
      have hall : ∀ u ∈ R, adj w u = true := by
        intro u hu
        cases h : adj w u with
        | true => rfl
        | false => exact absurd ⟨u, mem_insertionSort.mpr hu, h⟩ hno
      have := (hPXiff w).mpr ⟨hwV, fun h => hw (mem_insertionSort.mpr h), hall⟩
      simp at this
    · intro v hv; exact mem_insertionSort.mpr hv
    · intro v hv; exact Or.inl (mem_insertionSort.mp hv)
  rw [List.mem_singleton]
  constructor
  · rintro rfl; exact hin
  · rintro ⟨hs, _, hR, hc⟩
    apply sorted_lt_ext hs hin.1
    intro v
    rw [mem_insertionSort]
    constructor
    · intro hv
      rcases hc v hv with h | h
      · exact h
      · simp at h
    · exact hR v

/-- Koch's recursion tries every candidate: a clique in scope contains one,
unless `P` and `X` are both empty. -/
theorem covering_all {adj : Nat → Nat → Bool} {V R P X : List Nat}
    (hinv : CliqueInv adj V R P X) (hne : ¬ (P = [] ∧ X = [])) {c : List Nat}
    (hc : InScope adj V R P c) : ∃ v ∈ P, v ∈ c := by
  by_contra hno
  obtain ⟨_, ⟨_, _, hmax⟩, hRc, hcP⟩ := hc
  have hcR : ∀ v ∈ c, v ∈ R := by
    intro v hv
    rcases hcP v hv with h | h
    · exact h
    · exact absurd ⟨v, h, hv⟩ hno
  have hex : ∃ w, w ∈ P ∨ w ∈ X := by
    cases hP : P with
    | cons w _ => exact ⟨w, Or.inl (List.mem_cons_self _ _)⟩
    | nil =>
      cases hX : X with
      | cons w _ => exact ⟨w, Or.inr (List.mem_cons_self _ _)⟩
      | nil => exact absurd ⟨hP, hX⟩ hne
  obtain ⟨w, hw⟩ := hex
  obtain ⟨hwV, hwR, hwadj⟩ := (hinv.2.2.2.2.2 w).mp hw
  obtain ⟨u, hu, hadj⟩ := hmax w hwV (fun h => hwR (hcR w h))
  rw [hwadj u (hcR u hu)] at hadj
  exact Bool.noConfusion hadj

/-- The pivot rule: a clique in scope contains a candidate that is not a
neighbour of the pivot. -/
theorem covering_pivot {adj : Nat → Nat → Bool} {V R P X : List Nat}
    (hirr : ∀ u, adj u u = false)
    (hinv : CliqueInv adj V R P X) {u : Nat} (hu : u ∈ P ∨ u ∈ X) {c : List Nat}
    (hc : InScope adj V R P c) : ∃ v ∈ P.filter (fun v => !adj u v), v ∈ c := by
  by_contra hno
  obtain ⟨_, ⟨_, _, hmax⟩, hRc, hcP⟩ := hc
  obtain ⟨huV, huR, huadj⟩ := (hinv.2.2.2.2.2 u).mp hu
  have hall : ∀ v ∈ c, v ∈ R ∨ adj u v = true := by
    intro v hv
    rcases hcP v hv with h | h
    · exact Or.inl h
    · right
      cases hadj : adj u v with
      | true => rfl
      | false =>
        exact absurd ⟨v, List.mem_filter.mpr ⟨h, by simp [hadj]⟩, hv⟩ hno
  have huc : u ∉ c := by
    intro h
    rcases hall u h with h' | h'
    · exact huR h'
    · rw [hirr] at h'; exact Bool.noConfusion h'
  obtain ⟨x, hx, hadj⟩ := hmax u huV huc
  rcases hall x hx with h | h
  · rw [huadj x h] at hadj; exact Bool.noConfusion hadj
  · rw [h] at hadj; exact Bool.noConfusion hadj

theorem choosePivot_mem {adj : Nat → Nat → Bool} {P X : List Nat} {u : Nat}
    (h : choosePivot adj P X = some u) : u ∈ P ∨ u ∈ X := by
  unfold choosePivot at h
  have key : ∀ (us : List Nat) (b : Nat),
      us.foldl (fun best w =>
        if (P.filter (adj best)).length < (P.filter (adj w)).length then w else best) b = b ∨
      us.foldl (fun best w =>
        if (P.filter (adj best)).length < (P.filter (adj w)).length then w else best) b ∈ us := by
    intro us
    induction us with
    | nil => intro b; exact Or.inl rfl
    | cons a as ih =>
      intro b
      simp only [List.foldl_cons]
      split
      · rcases ih a with h | h
        · right; rw [h]; exact List.mem_cons_self _ _
        · right; exact List.mem_cons_of_mem _ h
      · rcases ih b with h | h
        · left; exact h
        · right; exact List.mem_cons_of_mem _ h
  cases hPX : P ++ X with
  | nil => rw [hPX] at h; exact Option.noConfusion h
  | cons a as =>
    rw [hPX] at h
    simp only [Option.some.injEq] at h
    have hmem : u ∈ P ++ X := by
      rw [hPX, ← h]
      rcases key as a with h' | h'
      · rw [h']; exact List.mem_cons_self _ _
      · exact List.mem_cons_of_mem _ h'
    exact List.mem_append.mp hmem

theorem choosePivot_ne_none {adj : Nat → Nat → Bool} {P X : List Nat}
    (hne : ¬ (P = [] ∧ X = [])) : choosePivot adj P X ≠ none := by
  unfold choosePivot
  cases hPX : P ++ X with
  | nil =>
    exfalso
    exact hne (List.append_eq_nil.mp hPX)
  | cons a as => simp

theorem isEmpty_and_iff {P X : List Nat} :
    (P.isEmpty && X.isEmpty) = true ↔ (P = [] ∧ X = []) := by
  cases P <;> cases X <;> simp

theorem bronKerbosch_spec {adj : Nat → Nat → Bool} {V : List Nat}
    (hsym : ∀ u v, adj u v = adj v u) (hirr : ∀ u, adj u u = false) :
    ∀ fuel, RecSpec adj V (bronKerbosch adj fuel) fuel := by
  intro fuel
  induction fuel with
  | zero => intro R P X _ h; omega
  | succ fuel ih =>
    intro R P X hinv hlen
    rw [bronKerbosch]
    by_cases hempty : (P.isEmpty && X.isEmpty) = true
    · rw [if_pos hempty]
      obtain ⟨hP, hX⟩ := isEmpty_and_iff.mp hempty
      subst hP; subst hX
      exact ⟨List.nodup_singleton _, inScope_leaf hinv⟩
    · rw [if_neg hempty]
      have hne : ¬ (P = [] ∧ X = []) := fun h => hempty (isEmpty_and_iff.mpr h)
      cases hpiv : choosePivot adj P X with
      | none => exact absurd hpiv (choosePivot_ne_none hne)
      | some u =>
        simp only
        obtain ⟨hnd, hmem⟩ := enumerateLoop_spec hsym hirr ih R
          (P.filter (fun v => !adj u v)) P X hinv (by omega) (hinv.2.2.2.1.filter _)
          (fun v hv => (List.mem_filter.mp hv).1)
        refine ⟨hnd, fun c => ?_⟩
        rw [hmem]
        constructor
        · exact fun h => h.1
        · exact fun h => ⟨h, covering_pivot hirr hinv (choosePivot_mem hpiv) h⟩

theorem koch_spec {adj : Nat → Nat → Bool} {V : List Nat}
    (hsym : ∀ u v, adj u v = adj v u) (hirr : ∀ u, adj u u = false) :
    ∀ fuel, RecSpec adj V (koch adj fuel) fuel := by
  intro fuel
  induction fuel with
  | zero => intro R P X _ h; omega
  | succ fuel ih =>
    intro R P X hinv hlen
    rw [koch]
    by_cases hempty : (P.isEmpty && X.isEmpty) = true
    · rw [if_pos hempty]
      obtain ⟨hP, hX⟩ := isEmpty_and_iff.mp hempty
      subst hP; subst hX
      exact ⟨List.nodup_singleton _, inScope_leaf hinv⟩
    · rw [if_neg hempty]
      have hne : ¬ (P = [] ∧ X = []) := fun h => hempty (isEmpty_and_iff.mpr h)
      obtain ⟨hnd, hmem⟩ := enumerateLoop_spec hsym hirr ih R P P X hinv (by omega)
        hinv.2.2.2.1 (fun v hv => hv)
      refine ⟨hnd, fun c => ?_⟩
      rw [hmem]
      constructor
      · exact fun h => h.1
      · exact fun h => ⟨h, covering_all hinv hne h⟩

/-! ## Maximal clique enumeration: the two algorithms agree -/

theorem adjacent_symm {D : Type} (K : SimplicialComplex D) (u v : Nat) :
    K.adjacent u v = K.adjacent v u := by
  unfold SimplicialComplex.adjacent
  have h1 : (u != v) = (v != u) := by
    by_cases h : u = v
    · subst h; rfl
    · have h' : ¬ v = u := fun e => h e.symm
      rw [bne_iff_ne.mpr h, bne_iff_ne.mpr h']
  have h2 : (fun (s : Simplex D) => s.vertices.length == 2 && s.vertices.contains u &&
      s.vertices.contains v) =
      (fun (s : Simplex D) => s.vertices.length == 2 && s.vertices.contains v &&
        s.vertices.contains u) := by
    funext s
    cases (s.vertices.length == 2) <;> cases s.vertices.contains u <;>
      cases s.vertices.contains v <;> rfl
  rw [h1, h2]

theorem adjacent_irrefl {D : Type} (K : SimplicialComplex D) (u : Nat) :
    K.adjacent u u = false := by
  unfold SimplicialComplex.adjacent
  simp

theorem vertexList_nodup {D : Type} (K : SimplicialComplex D) : K.vertexList.Nodup := by
  unfold SimplicialComplex.vertexList
  exact (List.perm_insertionSort _ _).nodup_iff.mpr (List.nodup_dedup _)

theorem minDegreeVertex_mem (adj : Nat → Nat → Bool) (remaining : List Nat) :
    ∀ (rest : List Nat) (best : Nat),
      minDegreeVertex adj remaining best rest = best ∨
        minDegreeVertex adj remaining best rest ∈ rest := by
  intro rest
  induction rest with
  | nil => intro best; exact Or.inl rfl
  | cons a as ih =>
    intro best
    unfold minDegreeVertex
    simp only [List.foldl_cons]
    split
    · rcases ih a with h | h
      · right
        unfold minDegreeVertex at h
        rw [h]; exact List.mem_cons_self _ _
      · right; exact List.mem_cons_of_mem _ h
    · rcases ih best with h | h
      · left; exact h
      · right; exact List.mem_cons_of_mem _ h

theorem degeneracyOrder_perm (adj : Nat → Nat → Bool) :
    ∀ (fuel : Nat) (remaining : List Nat), remaining.length ≤ fuel →
      (degeneracyOrder adj fuel remaining).Perm remaining := by
  intro fuel
  induction fuel with
  | zero =>
    intro remaining h
    have : remaining = [] := List.length_eq_zero.mp (by omega)
    subst this
    exact List.Perm.refl _
  | succ fuel ih =>
    intro remaining h
    cases remaining with
    | nil => exact List.Perm.refl _
    | cons u us =>
      rw [degeneracyOrder]
      have hmem : minDegreeVertex adj (u :: us) u us ∈ u :: us := by
        rcases minDegreeVertex_mem adj (u :: us) us u with h' | h'
        · rw [h']; exact List.mem_cons_self _ _
        · exact List.mem_cons_of_mem _ h'
      have hlen : ((u :: us).erase (minDegreeVertex adj (u :: us) u us)).length ≤ fuel := by
        rw [List.length_erase_of_mem hmem]
        simp only [List.length_cons] at h ⊢
        omega
      exact ((ih _ hlen).cons _).trans (List.perm_cons_erase hmem).symm

theorem cliqueInv_top {adj : Nat → Nat → Bool} {V P : List Nat} (hV : V.Nodup)
    (hP : P.Perm V) : CliqueInv adj V [] P [] := by
  refine ⟨List.nodup_nil, ?_, ?_, hP.nodup_iff.mpr hV, ?_, ?_⟩
  · intro v hv; simp at hv
  · intro u hu; simp at hu
  · intro v _ h; simp at h
  · intro v
    simp [hP.mem_iff]

theorem inScope_top {adj : Nat → Nat → Bool} {V P : List Nat} (hP : P.Perm V) (c : List Nat) :
    InScope adj V [] P c ↔ (c.Sorted (· < ·) ∧ IsMaximalClique adj V c) := by
  unfold InScope
  constructor
  · rintro ⟨h1, h2, _, _⟩; exact ⟨h1, h2⟩
  · rintro ⟨h1, h2⟩
    exact ⟨h1, h2, fun v hv => by simp at hv, fun v hv => Or.inr (hP.mem_iff.mpr (h2.1 v hv))⟩

theorem maximalCliquesBronKerbosch_spec {D : Type} (K : SimplicialComplex D) :
    (maximalCliquesBronKerbosch K).Nodup ∧
      ∀ c, c ∈ maximalCliquesBronKerbosch K ↔
        (c.Sorted (· < ·) ∧ IsMaximalClique K.adjacent K.vertexList c) := by
  obtain ⟨hnd, hmem⟩ := bronKerbosch_spec (V := K.vertexList) (adjacent_symm K)
    (adjacent_irrefl K) (K.vertexList.length + 1) [] K.vertexList []
    (cliqueInv_top (vertexList_nodup K) (List.Perm.refl _)) (by omega)
  refine ⟨hnd, fun c => ?_⟩
  unfold maximalCliquesBronKerbosch
  rw [hmem, inScope_top (List.Perm.refl _)]

theorem maximalCliquesKoch_spec {D : Type} (K : SimplicialComplex D) :
    (maximalCliquesKoch K).Nodup ∧
      ∀ c, c ∈ maximalCliquesKoch K ↔
        (c.Sorted (· < ·) ∧ IsMaximalClique K.adjacent K.vertexList c) := by
  have hperm := degeneracyOrder_perm K.adjacent K.vertexList.length K.vertexList (le_refl _)
  obtain ⟨hnd, hmem⟩ := koch_spec (V := K.vertexList) (adjacent_symm K)
    (adjacent_irrefl K) (K.vertexList.length + 1) []
    (degeneracyOrder K.adjacent K.vertexList.length K.vertexList) []
    (cliqueInv_top (vertexList_nodup K) hperm) (by rw [hperm.length_eq]; omega)
  refine ⟨hnd, fun c => ?_⟩
  unfold maximalCliquesKoch
  rw [hmem, inScope_top hperm]

/-- C10: for every simplicial complex `K`, whatever its vertex labels,
`maximalCliquesBronKerbosch(K)` and `maximalCliquesKoch(K)` return the same
collection of vertex sets up to order, each set once, and these sets are
exactly the inclusion-maximal cliques of the graph of `K`.  On the connected
4-vertex complex both return `{0,1,2}` and `{0,1,3}`, on the 6-vertex complex
`{0,1,2}`, `{0,3}`, `{3,4,5}`, on the shifted complex `{1,2,3}` and `{1,2,4}`. -/
theorem maximalCliques_agree :
    (∀ (D : Type) (K : SimplicialComplex D),
      (maximalCliquesBronKerbosch K).Perm (maximalCliquesKoch K) ∧
      (maximalCliquesBronKerbosch K).Nodup ∧
      ∀ c, c ∈ maximalCliquesBronKerbosch K ↔
        (c.Sorted (· < ·) ∧ IsMaximalClique K.adjacent K.vertexList c)) ∧
    maximalCliquesBronKerbosch
      ([[0], [1], [2], [3], [0, 1], [0, 2], [0, 3], [1, 2], [1, 3], [0, 1, 2], [0, 1, 3]].map
        (fun vs => ({ vertices := vs, data := () } : Simplex Unit))) = [[0, 1, 2], [0, 1, 3]] ∧
    maximalCliquesKoch
      ([[0], [1], [2], [3], [0, 1], [0, 2], [0, 3], [1, 2], [1, 3], [0, 1, 2], [0, 1, 3]].map
        (fun vs => ({ vertices := vs, data := () } : Simplex Unit))) = [[0, 1, 2], [0, 1, 3]] ∧
    maximalCliquesBronKerbosch
      ([[0], [1], [2], [3], [4], [5], [0, 1], [0, 2], [0, 3], [1, 2], [3, 4], [3, 5], [4, 5],
          [0, 1, 2], [3, 4, 5]].map
        (fun vs => ({ vertices := vs, data := () } : Simplex Unit))) =
      [[0, 1, 2], [0, 3], [3, 4, 5]] ∧
    maximalCliquesKoch
      ([[0], [1], [2], [3], [4], [5], [0, 1], [0, 2], [0, 3], [1, 2], [3, 4], [3, 5], [4, 5],
          [0, 1, 2], [3, 4, 5]].map
        (fun vs => ({ vertices := vs, data := () } : Simplex Unit))) =
      [[0, 1, 2], [0, 3], [3, 4, 5]] ∧
    maximalCliquesBronKerbosch
      ([[1], [2], [3], [4], [1, 2], [1, 3], [1, 4], [2, 3], [2, 4], [1, 2, 3], [1, 2, 4]].map
        (fun vs => ({ vertices := vs, data := () } : Simplex Unit))) = [[1, 2, 3], [1, 2, 4]] ∧
    maximalCliquesKoch
      ([[1], [2], [3], [4], [1, 2], [1, 3], [1, 4], [2, 3], [2, 4], [1, 2, 3], [1, 2, 4]].map
        (fun vs => ({ vertices := vs, data := () } : Simplex Unit))) = [[1, 2, 3], [1, 2, 4]] := by
  refine ⟨?_, by decide, by decide, by decide, by decide, by decide, by decide⟩
  intro D K
  obtain ⟨hnd, hmem⟩ := maximalCliquesBronKerbosch_spec K
  obtain ⟨hnd', hmem'⟩ := maximalCliquesKoch_spec K
  refine ⟨?_, hnd, hmem⟩
  rw [List.perm_ext_iff_of_nodup hnd hnd']
  intro c
  rw [hmem, hmem']

/-! ## The boundary matrix of a closed complex in filtration order -/

theorem boundary_eq_facesOf {D : Type} (s : Simplex D) : s.boundary = facesOf s.vertices := rfl

theorem mem_facesOf {vs g : List Nat} (hvs : vs.Nodup) :
    g ∈ facesOf vs ↔ 2 ≤ vs.length ∧ ∃ a ∈ vs, g = vs.erase a := by
  unfold facesOf
  split
  · rename_i h
    simp only [List.not_mem_nil, false_iff]
    rintro ⟨h2, _⟩
    omega
  · rename_i h
    rw [List.mem_map]
    constructor
    · rintro ⟨p, hp, rfl⟩
      rw [List.mem_range] at hp
      exact ⟨by omega, vs[p], List.getElem_mem _, (hvs.erase_getElem p hp).symm⟩
    · rintro ⟨_, a, ha, rfl⟩
      obtain ⟨p, hp, rfl⟩ := List.getElem_of_mem ha
      exact ⟨p, List.mem_range.mpr hp, (hvs.erase_getElem p hp).symm⟩

theorem facesOf_eq_map {vs : List Nat} (hvs : vs.Nodup) (h2 : 2 ≤ vs.length) :
    facesOf vs = vs.map (fun a => vs.erase a) := by
  unfold facesOf
  rw [if_neg (by omega)]
  apply List.ext_getElem
  · simp
  · intro p h1 h2'
    simp only [List.length_map, List.length_range] at h1
    simp only [List.getElem_map, List.getElem_range]
    exact (hvs.erase_getElem p h1).symm

theorem mem_erase_erase {vs : List Nat} (hvs : vs.Nodup) {a b x : Nat} :
    x ∈ (vs.erase a).erase b ↔ x ∈ vs ∧ x ≠ a ∧ x ≠ b := by
  rw [(hvs.erase a).mem_erase_iff, hvs.mem_erase_iff]
  constructor
  · rintro ⟨h1, h2, h3⟩; exact ⟨h3, h2, h1⟩
  · rintro ⟨h1, h2, h3⟩; exact ⟨h3, h2, h1⟩

/-- A face of a face of a simplex lies in exactly two of its faces. -/
theorem faces_of_faces_even {vs : List Nat} (hvs : vs.Nodup) (g : List Nat) :
    ((facesOf vs).filter (fun f => decide (g ∈ facesOf f))).length % 2 = 0 := by
  by_cases h2 : 2 ≤ vs.length
  · rw [facesOf_eq_map hvs h2, List.filter_map, List.length_map]
    by_cases hex : ∃ a ∈ vs, g ∈ facesOf (vs.erase a)
    · obtain ⟨a0, ha0, hg⟩ := hex
      obtain ⟨h3, b0, hb0, hgeq⟩ := (mem_facesOf (hvs.erase a0)).mp hg
      have hb0' := hvs.mem_erase_iff.mp hb0
      have hiff : ∀ a ∈ vs, (g ∈ facesOf (vs.erase a) ↔ (a = a0 ∨ a = b0)) := by
        intro a ha
        constructor
        · intro h
          obtain ⟨_, b, _, hgb⟩ := (mem_facesOf (hvs.erase a)).mp h
          have hna : a ∉ (vs.erase a0).erase b0 := by
            rw [← hgeq, hgb, mem_erase_erase hvs]
            rintro ⟨_, h', _⟩
            exact h' rfl
          rw [mem_erase_erase hvs] at hna
          by_contra hno
          exact hna ⟨ha, fun e => hno (Or.inl e), fun e => hno (Or.inr e)⟩
        · rintro (rfl | rfl)
          · exact hg
          · rw [mem_facesOf (hvs.erase a)]
            have hlen : (vs.erase a).length = (vs.erase a0).length := by
              rw [List.length_erase_of_mem ha, List.length_erase_of_mem ha0]
            refine ⟨by omega, a0, ?_, ?_⟩
            · rw [hvs.mem_erase_iff]
              exact ⟨fun e => hb0'.1 e.symm, ha0⟩
            · rw [hgeq, List.erase_comm]
      have hfilt : vs.filter ((fun f => decide (g ∈ facesOf f)) ∘ fun a => vs.erase a) =
          vs.filter (fun a => decide (a = a0 ∨ a = b0)) := by
        apply List.filter_congr
        intro a ha
        simp only [Function.comp]
        rw [decide_eq_decide]
        exact hiff a ha
      rw [hfilt]
      have hperm : (vs.filter (fun a => decide (a = a0 ∨ a = b0))).Perm [a0, b0] := by
        rw [List.perm_ext_iff_of_nodup (hvs.filter _)
          (by simp only [List.nodup_cons, List.mem_singleton, List.not_mem_nil,
                not_false_eq_true, List.nodup_nil, and_self, and_true]
              exact fun e => hb0'.1 e.symm)]
        intro x
        simp only [List.mem_filter, decide_eq_true_eq, List.mem_cons, List.mem_singleton,
          List.not_mem_nil, or_false]
        constructor
        · rintro ⟨_, h⟩; exact h
        · rintro (rfl | rfl)
          · exact ⟨ha0, Or.inl rfl⟩
          · exact ⟨hb0'.2, Or.inr rfl⟩
      rw [hperm.length_eq]
      simp
    · have : vs.filter ((fun f => decide (g ∈ facesOf f)) ∘ fun a => vs.erase a) = [] := by
        rw [List.filter_eq_nil_iff]
        intro a ha h
        simp only [Function.comp, decide_eq_true_eq] at h
        exact hex ⟨a, ha, h⟩
      rw [this]
      rfl
  · unfold facesOf
    rw [if_pos (by omega)]
    rfl

theorem lookupFaces_forall₂ {D : Type} (K : SimplicialComplex D) :
    ∀ (faces : List (List Nat)) (col : List Nat), lookupFaces K faces = some col →
      List.Forall₂ (fun face x => ∃ p, K.index face = some p ∧ x = toIndex p) faces col := by
  intro faces
  induction faces with
  | nil =>
    intro col h
    simp only [lookupFaces, Option.some.injEq] at h
    rw [← h]
    exact List.Forall₂.nil
  | cons face rest ih =>
    intro col h
    rw [lookupFaces] at h
    cases hidx : K.index face with
    | none => rw [hidx] at h; exact Option.noConfusion h
    | some p =>
      rw [hidx] at h
      simp only at h
      cases hrest : lookupFaces K rest with
      | none => rw [hrest] at h; exact Option.noConfusion h
      | some ps =>
        rw [hrest] at h
        simp only [Option.some.injEq] at h
        rw [← h]
        exact List.Forall₂.cons ⟨p, hidx, rfl⟩ (ih ps hrest)

theorem mem_boundaryColumn {D : Type} {K : SimplicialComplex D} (hK : K.length < indexModulus)
    {s : Simplex D} {col : List Nat} (h : boundaryColumn K s = some col) (r : Nat) :
    r ∈ col ↔ ∃ face ∈ s.boundary, K.index face = some r := by
  have hall := lookupFaces_forall₂ K s.boundary col h
  constructor
  · intro hr
    obtain ⟨face, hface, p, hp, rfl⟩ := forall₂_mem_right hall r hr
    have := index_lt_length hp
    refine ⟨face, hface, ?_⟩
    rw [hp, toIndex, Nat.mod_eq_of_lt (by omega)]
  · rintro ⟨face, hface, hr⟩
    obtain ⟨x, hx, p, hp, rfl⟩ := forall₂_mem_left hall face hface
    rw [hr] at hp
    simp only [Option.some.injEq] at hp
    have := index_lt_length hr
    rw [← hp, toIndex, Nat.mod_eq_of_lt (by omega)] at hx
    exact hx

theorem convertLoop_shape {D : Type} (K : SimplicialComplex D) (max : Nat) :
    ∀ (rest : List (Simplex D)) (j : Nat) (M M' : BoundaryMatrix),
      convertLoop K max rest j M = some M' →
        M'.dimensions.length = M.dimensions.length ∧ M'.dualized = M.dualized := by
  intro rest
  induction rest with
  | nil =>
    intro j M M' h
    simp only [convertLoop, Option.some.injEq] at h
    rw [h]
    exact ⟨rfl, rfl⟩
  | cons s rest ih =>
    intro j M M' h
    rw [convertLoop] at h
    cases hcol : boundaryColumn K s with
    | none => rw [hcol] at h; exact Option.noConfusion h
    | some col =>
      rw [hcol] at h
      simp only at h
      by_cases hj : j < M.columns.length
      · rw [setColumn_eq_some M j col hj] at h
        simp only at h
        split at h
        · simp only [Option.some.injEq] at h
          rw [← h]
          simp
        · obtain ⟨h1, h2⟩ := ih _ _ _ h
          rw [h1, h2]
          simp
      · unfold BoundaryMatrix.setColumn at h
        rw [if_neg hj] at h
        exact Option.noConfusion h

theorem makeBoundaryMatrix_columns {D : Type} (K : SimplicialComplex D) (max : Nat)
    (hK : K.length < indexModulus) (hclosed : K.Closed) :
    ∃ M, makeBoundaryMatrix K max = some M ∧ M.columns.length = K.length ∧
      M.dimensions.length = K.length ∧ M.dualized = false ∧
      ∀ j s, K[j]? = some s → (max = 0 ∨ j < max) →
        ∀ r, r ∈ M.columns.getD j [] ↔ ∃ face ∈ s.boundary, K.index face = some r := by
  obtain ⟨M, hM, hlen, _, hconv⟩ := makeBoundaryMatrix_spec K max hK hclosed
  have hshape := convertLoop_shape K max K 0 _ M hM
  have hidx : toIndex K.length = K.length := Nat.mod_eq_of_lt hK
  refine ⟨M, hM, hlen, ?_, ?_, ?_⟩
  · rw [hshape.1]; simp [BoundaryMatrix.withNumColumns, hidx]
  · rw [hshape.2]; rfl
  · intro j s hs hmax r
    have hj : j < K.length := by
      by_contra hge
      rw [List.getElem?_eq_none (by omega)] at hs
      exact Option.noConfusion hs
    obtain ⟨s', col, hs', hcol, hMj⟩ := hconv j hj hmax
    rw [hs] at hs'
    simp only [Option.some.injEq] at hs'
    subst hs'
    rw [List.getD_eq_getElem?_getD, hMj, Option.getD_some, mem_insertionSort,
      mem_boundaryColumn hK hcol]

/-- The boundary matrix of a closed complex in filtration order is a
well-formed matrix that satisfies the invariant of the data model, and in it
the boundary of a boundary is zero. -/
theorem makeBoundaryMatrix_isBoundaryMatrix {D : Type} (K : SimplicialComplex D)
    (hK : K.length < indexModulus) (hclosed : K.Closed) (hdedup : K.Deduplicated)
    (hfirst : K.FacesFirst) :
    ∃ M, makeBoundaryMatrix K 0 = some M ∧ M.getNumColumns = K.length ∧ M.dualized = false ∧
      M.WellFormed ∧ M.Triangular ∧ M.BoundarySquaredZero := by
  obtain ⟨M, hM, hlen, hdim, hdual, hmem⟩ := makeBoundaryMatrix_columns K 0 hK hclosed
  have hget : ∀ j, j < K.length → ∃ s, K[j]? = some s ∧ s ∈ K := fun j hj =>
    ⟨K[j], List.getElem?_eq_getElem hj, List.getElem_mem _⟩
  refine ⟨M, hM, hlen, hdual, ⟨by rw [hdim, hlen], by rw [hlen]; exact hK⟩, ?_, ?_⟩
  · intro j hj r hr
    rw [hlen] at hj
    obtain ⟨s, hs, _⟩ := hget j hj
    obtain ⟨face, hface, hidx⟩ := (hmem j s hs (Or.inl rfl) r).mp hr
    exact hfirst j hj s hs face hface r hidx
  · intro j hj r hr
    rw [hlen] at hj hr ⊢
    obtain ⟨s, hs, hsK⟩ := hget j hj
    obtain ⟨t, ht, _⟩ := hget r hr
    have hcolj : ∀ i, i ∈ M.columns.getD j [] ↔ ∃ face ∈ facesOf s.vertices, K.index face = some i :=
      fun i => hmem j s hs (Or.inl rfl) i
    have hcoli : ∀ i f, K.index f = some i →
        (r ∈ M.columns.getD i [] ↔ (t.vertices ∈ facesOf f ∧ K.index t.vertices = some r)) := by
      intro i f hif
      obtain ⟨si, hsi, hsif⟩ := index_eq_some hif
      rw [hmem i si hsi (Or.inl rfl) r, boundary_eq_facesOf, hsif]
      constructor
      · rintro ⟨g, hg, hgr⟩
        obtain ⟨t', ht', htg⟩ := index_eq_some hgr
        rw [ht] at ht'
        simp only [Option.some.injEq] at ht'
        subst ht'
        rw [htg]
        exact ⟨hg, hgr⟩
      · rintro ⟨hg, hgr⟩
        exact ⟨t.vertices, hg, hgr⟩
    by_cases hidx : K.index t.vertices = some r
    · have hperm : ((List.range K.length).filter (fun i =>
            decide (r ∈ M.columns.getD i []) && decide (i ∈ M.columns.getD j []))).Perm
          (((facesOf s.vertices).filter (fun f => decide (t.vertices ∈ facesOf f))).map
            (fun f => (K.index f).getD 0)) := by
        rw [List.perm_ext_iff_of_nodup ((List.nodup_range _).filter _)]
        · intro i
          simp only [List.mem_filter, List.mem_range, Bool.and_eq_true, decide_eq_true_eq,
            List.mem_map]
          constructor
          · rintro ⟨_, hri, hij⟩
            obtain ⟨f, hf, hfi⟩ := (hcolj i).mp hij
            exact ⟨f, ⟨hf, ((hcoli i f hfi).mp hri).1⟩, by rw [hfi]; rfl⟩
          · rintro ⟨f, ⟨hf, hg⟩, hfi⟩
            obtain ⟨i', hi'⟩ := Option.isSome_iff_exists.mp (hclosed s hsK f hf)
            rw [hi'] at hfi
            simp only [Option.getD_some] at hfi
            subst hfi
            exact ⟨index_lt_length hi', (hcoli i' f hi').mpr ⟨hg, hidx⟩, (hcolj i').mpr ⟨f, hf, hi'⟩⟩
        · apply List.Nodup.map_on _ ((boundary_nodup s (hdedup s hsK)).filter _)
          intro f hf f' hf' heq
          have hf1 := (List.mem_filter.mp hf).1
          have hf1' := (List.mem_filter.mp hf').1
          obtain ⟨i, hi⟩ := Option.isSome_iff_exists.mp (hclosed s hsK f hf1)
          obtain ⟨i', hi'⟩ := Option.isSome_iff_exists.mp (hclosed s hsK f' hf1')
          rw [hi, hi'] at heq
          simp only [Option.getD_some] at heq
          subst heq
          obtain ⟨u, hu, huf⟩ := index_eq_some hi
          obtain ⟨u', hu', huf'⟩ := index_eq_some hi'
          rw [hu] at hu'
          simp only [Option.some.injEq] at hu'
          subst hu'
          rw [← huf, ← huf']
      rw [hperm.length_eq, List.length_map]
      exact faces_of_faces_even (hdedup s hsK) t.vertices
    · have : (List.range K.length).filter (fun i =>
          decide (r ∈ M.columns.getD i []) && decide (i ∈ M.columns.getD j [])) = [] := by
        rw [List.filter_eq_nil_iff]
        intro i _ h
        simp only [Bool.and_eq_true, decide_eq_true_eq] at h
        obtain ⟨f, _, hfi⟩ := (hcolj i).mp h.2
        exact hidx ((hcoli i f hfi).mp h.1).2
      rw [this]
      rfl

/-! ## Thresholding of the clique-communities tool -/

theorem removeCopyIf_eq_filter {α : Type} (pred : α → Bool) (l : List α) :
    removeCopyIf pred l = l.filter (fun x => !pred x) := by
  induction l with
  | nil => rfl
  | cons x xs ih =>
    rw [removeCopyIf, List.filter_cons, ih]
    cases pred x <;> simp

theorem weight_not_gt_iff {V : Type} [LinearOrder V] (a t : Weight V) :
    Weight.gt a t = false ↔ (Weight.le a t = true ∨ a = Weight.nan ∨ t = Weight.nan) := by
  cases a with
  | nan => simp [Weight.gt]
  | num x =>
    cases t with
    | nan => simp [Weight.gt]
    | num y => simp [Weight.gt, Weight.le]

theorem weight_gt_irrefl {V : Type} [LinearOrder V] (a : Weight V) : Weight.gt a a = false := by
  cases a <;> simp [Weight.gt]

/-- C11 (amended): for every input complex and every threshold, NaN
included, the filtered complex of the clique-communities tool consists of the
input simplices for which `weight > threshold` does not hold, in their
original relative order: these are the simplices with `weight <= threshold`,
the simplices whose weight is a NaN, and every simplex when the threshold is
a NaN.  A simplex with weight equal to the threshold is kept, and every
simplex with a weight larger than the threshold is left out, whatever its
dimension.  When neither the threshold nor a weight is a NaN, the filtered
complex consists of exactly the simplices with `weight <= threshold`. -/
theorem thresholdComplex_spec {V : Type} [LinearOrder V] (K : SimplicialComplex (Weight V))
    (threshold : Weight V) :
    thresholdComplex K threshold = K.filter (fun s => !Weight.gt s.data threshold) ∧
    (thresholdComplex K threshold).Sublist K ∧
    (∀ s, s ∈ thresholdComplex K threshold ↔
      (s ∈ K ∧ (Weight.le s.data threshold = true ∨ s.data = Weight.nan ∨
        threshold = Weight.nan))) ∧
    (∀ s ∈ K, s.data = threshold → s ∈ thresholdComplex K threshold) ∧
    (∀ s ∈ K, Weight.gt s.data threshold = true → s ∉ thresholdComplex K threshold) ∧
    (threshold ≠ Weight.nan → (∀ s ∈ K, s.data ≠ Weight.nan) →
      thresholdComplex K threshold = K.filter (fun s => Weight.le s.data threshold)) := by
  have heq : thresholdComplex K threshold =
      K.filter (fun s => !Weight.gt s.data threshold) := by
    unfold thresholdComplex SimplicialComplex.ofRange
    rw [removeCopyIf_eq_filter]
  have hmem : ∀ s, s ∈ thresholdComplex K threshold ↔
      (s ∈ K ∧ Weight.gt s.data threshold = false) := by
    intro s
    rw [heq, List.mem_filter]
    simp
  refine ⟨heq, ?_, ?_, ?_, ?_, ?_⟩
  · rw [heq]; exact List.filter_sublist K
  · intro s
    rw [hmem, weight_not_gt_iff]
  · intro s hs hst
    rw [hmem, hst]
    exact ⟨hs, weight_gt_irrefl threshold⟩
  · intro s _ hgt hin
    rw [hmem, hgt] at hin
    exact Bool.noConfusion hin.2
  · intro ht hK
    rw [heq]
    apply List.filter_congr
    intro s hs
    cases hle : Weight.le s.data threshold with
    | true =>
      have := (weight_not_gt_iff s.data threshold).mpr (Or.inl hle)
      rw [this]; rfl
    | false =>
      cases hgt : Weight.gt s.data threshold with
      | true => rfl
      | false =>
        exfalso
        rcases (weight_not_gt_iff s.data threshold).mp hgt with h | h | h
        · rw [hle] at h; exact Bool.noConfusion h
        · exact hK s hs h
        · exact ht h

/-- Counterexample to C11 as stated: two vertices of weight 0 and the edge
between them of weight -2, threshold -1.  The edge is kept, and both vertices
of the input are dropped by the filter.  With a NaN as threshold the edge of
weight 5 is kept, although `5 <= NaN` does not hold. -/
theorem thresholdComplex_counterexample :
    thresholdComplex
        [({ vertices := [0], data := Weight.num 0 } : Simplex (Weight Int)),
          { vertices := [1], data := Weight.num 0 },
          { vertices := [0, 1], data := Weight.num (-2) }] (Weight.num (-1)) =
      [{ vertices := [0, 1], data := Weight.num (-2) }] ∧
    ¬ (∀ s ∈ [({ vertices := [0], data := Weight.num 0 } : Simplex (Weight Int)),
          { vertices := [1], data := Weight.num 0 },
          { vertices := [0, 1], data := Weight.num (-2) }],
        s.vertices.length = 1 →
          s ∈ thresholdComplex
            [({ vertices := [0], data := Weight.num 0 } : Simplex (Weight Int)),
              { vertices := [1], data := Weight.num 0 },
              { vertices := [0, 1], data := Weight.num (-2) }] (Weight.num (-1))) ∧
    thresholdComplex
        [({ vertices := [0, 1], data := Weight.num 5 } : Simplex (Weight Int))] Weight.nan =
      [{ vertices := [0, 1], data := Weight.num 5 }] ∧
    Weight.le (Weight.num (5 : Int)) Weight.nan = false := by
  decide

/-! ## The order of the pairing -/

theorem entryLE_total (a b : Entry) : entryLE a b ∨ entryLE b a := by
  obtain ⟨a1, a2⟩ := a
  obtain ⟨b1, b2⟩ := b
  unfold entryLE
  rcases Nat.lt_trichotomy a1 b1 with h | h | h
  · exact Or.inl (Or.inl h)
  · subst h
    cases a2 with
    | none =>
      cases b2 with
      | none => exact Or.inl (Or.inr ⟨rfl, trivial⟩)
      | some y => exact Or.inr (Or.inr ⟨rfl, trivial⟩)
    | some x =>
      cases b2 with
      | none => exact Or.inl (Or.inr ⟨rfl, trivial⟩)
      | some y =>
        rcases Nat.le_total x y with hxy | hxy
        · exact Or.inl (Or.inr ⟨rfl, hxy⟩)
        · exact Or.inr (Or.inr ⟨rfl, hxy⟩)
  · exact Or.inr (Or.inl h)

theorem entryLE_trans {a b c : Entry} (hab : entryLE a b) (hbc : entryLE b c) : entryLE a c := by
  obtain ⟨a1, a2⟩ := a
  obtain ⟨b1, b2⟩ := b
  obtain ⟨c1, c2⟩ := c
  unfold entryLE at hab hbc ⊢
  simp only at hab hbc ⊢
  rcases hab with h1 | ⟨h1, h1'⟩
  · rcases hbc with h2 | ⟨h2, _⟩
    · exact Or.inl (by omega)
    · exact Or.inl (by omega)
  · rcases hbc with h2 | ⟨h2, h2'⟩
    · exact Or.inl (by omega)
    · right
      refine ⟨by omega, ?_⟩
      cases a2 <;> cases b2 <;> cases c2 <;> simp_all
      omega

theorem entryLE_antisymm {a b : Entry} (hab : entryLE a b) (hba : entryLE b a) : a = b := by
  obtain ⟨a1, a2⟩ := a
  obtain ⟨b1, b2⟩ := b
  unfold entryLE at hab hba
  simp only at hab hba
  rcases hab with h1 | ⟨h1, h1'⟩
  · rcases hba with h2 | ⟨h2, _⟩ <;> omega
  · rcases hba with h2 | ⟨_, h2'⟩
    · omega
    · subst h1
      cases a2 <;> cases b2 <;> simp_all
      omega

theorem entryLE_fst {a b : Entry} (h : entryLE a b) : a.1 ≤ b.1 := by
  unfold entryLE at h
  rcases h with h | ⟨h, _⟩ <;> omega

theorem finishPairing_sorted (dualized : Bool) (N : Nat) (pairing : List Entry)
    (order : List Nat) : (finishPairing dualized N pairing order).Sorted entryLE := by
  haveI : IsTotal Entry entryLE := ⟨entryLE_total⟩
  haveI : IsTrans Entry entryLE := ⟨fun _ _ _ => entryLE_trans⟩
  exact List.sorted_insertionSort entryLE _

theorem finishPairing_perm (dualized : Bool) (N : Nat) (pairing : List Entry)
    {order order' : List Nat} (h : order.Perm order') :
    finishPairing dualized N pairing order = finishPairing dualized N pairing order' := by
  haveI : IsAntisymm Entry entryLE := ⟨fun _ _ => entryLE_antisymm⟩
  apply List.eq_of_perm_of_sorted _ (finishPairing_sorted _ _ _ _) (finishPairing_sorted _ _ _ _)
  unfold finishPairing
  exact (List.perm_insertionSort entryLE _).trans
    (((h.map _).append_left pairing).trans (List.perm_insertionSort entryLE _).symm)

/-- C12: for every reduction strategy, matrix and arguments, the pairing
returned by `calculatePersistencePairing` is sorted in ascending order by
(creator, destroyer), an essential entry counting as the last one of its
creator, so that the creators ascend along the pairing; and the returned
sequence is the same for every order in which the unordered set `creators`
hands out its elements.  The call returns a pairing whenever `max` does not
exceed the number of columns of a well-formed reduced matrix. -/
theorem pairing_sorted_deterministic (red : BoundaryMatrix → BoundaryMatrix)
    (M : BoundaryMatrix) (f : Bool) (max : Nat) :
    ((red M).dimensions.length = (red M).columns.length → max ≤ (red M).columns.length →
      (calculatePersistencePairing red M f max).isSome = true) ∧
    ∀ p, calculatePersistencePairing red M f max = some p →
      p.Sorted entryLE ∧ (p.map Prod.fst).Sorted (· ≤ ·) ∧
      ∃ st, pairingLoop (red M) f max (loopBound (red M) max) (loopBound (red M) max) = some st ∧
        ∀ order, order.Perm st.creators →
          finishPairing (red M).isDualized (loopBound (red M) max) st.pairing order = p := by
  refine ⟨fun hd hle => isSome_of_eq_some (calculatePersistencePairing_eq_some red M f max hd hle),
    ?_⟩
  intro p hp
  unfold calculatePersistencePairing at hp
  simp only at hp
  cases hloop : pairingLoop (red M) f max (loopBound (red M) max) (loopBound (red M) max) with
  | none => rw [hloop] at hp; exact Option.noConfusion hp
  | some st =>
    rw [hloop] at hp
    simp only [Option.some.injEq] at hp
    subst hp
    have hs := finishPairing_sorted (red M).isDualized (loopBound (red M) max) st.pairing
      st.creators
    refine ⟨hs, ?_, st, rfl, fun order h => finishPairing_perm _ _ _ h⟩
    rw [List.Sorted, List.pairwise_map]
    exact hs.imp entryLE_fst

/-- Witness of C12: the boundary matrix of a filled triangle, all unpaired
creators included. -/
theorem pairing_sorted_deterministic_witness :
    calculatePersistencePairing standardReduction
        { columns := [[], [], [], [0, 1], [0, 2], [1, 2], [3, 4, 5]],
          dimensions := [0, 0, 0, 1, 1, 1, 2], dualized := false } true 0 =
      some [(0, none), (1, some 3), (2, some 4), (5, some 6)] ∧
    List.Sorted entryLE [((0, none) : Entry), (1, some 3), (2, some 4), (5, some 6)] :=
  ⟨by decide,
    ((pairing_sorted_deterministic standardReduction
      { columns := [[], [], [], [0, 1], [0, 2], [1, 2], [3, 4, 5]],
        dimensions := [0, 0, 0, 1, 1, 1, 2], dualized := false } true 0).2
      [(0, none), (1, some 3), (2, some 4), (5, some 6)] (by decide)).1⟩

/-! ## The truncation guard -/

theorem lowOf_eq_some_of_getMaximumIndex {B : BoundaryMatrix} {j i : Nat}
    (h : B.getMaximumIndex j = some (i, true)) : B.lowOf j = some i := by
  unfold BoundaryMatrix.getMaximumIndex at h
  unfold BoundaryMatrix.lowOf
  cases hc : B.columns[j]? with
  | none => rw [hc] at h; exact Option.noConfusion h
  | some c =>
    rw [hc] at h
    simp only at h
    have hget : B.columns.getD j [] = c := by
      rw [List.getD_eq_getElem?_getD, hc]; rfl
    rw [hget]
    cases hm : maxIndex c with
    | none => rw [hm] at h; simp at h
    | some i' =>
      rw [hm] at h
      simp only [Option.some.injEq, Prod.mk.injEq, and_true] at h
      rw [h]

theorem guard_of_triangular {B : BoundaryMatrix} (htri : B.Triangular) {max : Nat}
    (hN : loopBound B max ≤ B.columns.length) {j i : Nat} (hj : j < loopBound B max)
    (hlow : B.lowOf j = some i) : max = 0 ∨ i < max := by
  have hij := lowOf_lt_of_triangular htri (by omega) hlow
  by_cases h0 : max = 0
  · exact Or.inl h0
  · right
    unfold loopBound at hj
    rw [if_pos h0] at hj
    omega

/-- C13: for every well-formed matrix whose columns only contain row indices
smaller than their own column index, every reduction strategy that keeps the
shape and this invariant, and every `max` that does not exceed the column
count, `calculatePersistencePairing` returns a pairing; the truncation guard
`!max || i < max` holds for every non-empty column of the processed range; the
number of two-index pairs of the pairing is the number of non-empty columns
among the first `N` columns, `N` being the loop bound; and no index emitted as
an essential entry is the creator of a pair of the pairing. -/
theorem truncation_guard_true (red : BoundaryMatrix → BoundaryMatrix)
    (hshape : KeepsShape red) (htri : KeepsTriangular red) (M : BoundaryMatrix)
    (hwf : M.WellFormed) (hM : M.Triangular) (f : Bool) (max : Nat)
    (hmax : max ≤ M.getNumColumns) :
    ∃ p, calculatePersistencePairing red M f max = some p ∧
      (∀ j i, j < loopBound (red M) max → (red M).getMaximumIndex j = some (i, true) →
        (max = 0 ∨ i < max)) ∧
      p.countP (fun e => e.2.isSome) =
        (List.range (loopBound (red M) max)).countP
          (fun j => decide ((red M).columns.getD j [] ≠ [])) ∧
      ∀ c, (c, none) ∈ p → ∀ d, (c, some d) ∉ p := by
  obtain ⟨hlen, hdim, _⟩ := hshape M
  have hB := htri M hM
  have hd : (red M).dimensions.length = (red M).columns.length := by
    rw [hdim, hlen]; exact hwf.1
  have hmax' : max ≤ (red M).columns.length := by rw [hlen]; exact hmax
  have hN : loopBound (red M) max ≤ (red M).columns.length := by
    unfold loopBound BoundaryMatrix.getNumColumns
    split <;> omega
  have hNm : loopBound (red M) max < indexModulus := by
    have := hwf.2
    omega
  refine ⟨_, calculatePersistencePairing_eq_some red M f max hd hmax', ?_, ?_, ?_⟩
  · intro j i hj hmi
    exact guard_of_triangular hB hN hj (lowOf_eq_some_of_getMaximumIndex hmi)
  · unfold finishPairing
    rw [(List.perm_insertionSort entryLE _).countP_eq, List.countP_append,
      List.countP_filterMap, List.countP_map]
    have hess : List.countP
        ((fun (e : Entry) => e.2.isSome) ∘
          fun c => (essentialOf (red M).isDualized (loopBound (red M) max) c, none))
        (List.filter (fun c => decide (survives (red M) f (loopBound (red M) max) c))
          (List.range (loopBound (red M) max))) = 0 := by
      rw [List.countP_eq_zero]
      intro c _
      simp
    rw [hess, Nat.add_zero]
    apply List.countP_congr
    intro j hj
    rw [List.mem_range] at hj
    unfold pairEntry
    cases hlow : (red M).lowOf j with
    | none =>
      have : (red M).columns.getD j [] = [] := maxIndex_eq_none.mp hlow
      rw [List.getD_eq_getElem?_getD] at this
      simp [this]
    | some i =>
      have hne : (red M).columns.getD j [] ≠ [] := by
        intro h
        have := maxIndex_eq_none.mpr h
        unfold BoundaryMatrix.lowOf at hlow
        rw [this] at hlow
        exact Option.noConfusion hlow
      rw [List.getD_eq_getElem?_getD] at hne
      simp only
      rw [if_pos (guard_of_triangular hB hN hj hlow)]
      simp [hne]
  · intro c hc d hcd
    rcases mem_finishPairing.mp hc with h | ⟨c0, hc0, he⟩
    · obtain ⟨_, _, _, _, _, he⟩ := mem_filterMap_pairEntry.mp h
      simp only [Prod.mk.injEq] at he
      exact Option.noConfusion he.2
    · rw [List.mem_filter, List.mem_range, decide_eq_true_eq] at hc0
      obtain ⟨hc0N, hempty, _, hlater⟩ := hc0
      simp only [Prod.mk.injEq, and_true] at he
      rcases mem_finishPairing.mp hcd with h | ⟨_, _, h⟩
      · obtain ⟨j, i, hj, hlow, _, hp⟩ := mem_filterMap_pairEntry.mp h
        have hij := lowOf_lt_of_triangular hB (by omega) hlow
        simp only [Prod.mk.injEq, Option.some.injEq] at hp
        have hc1 := hp.1
        rw [he] at hc1
        unfold essentialOf pairOf at hc1
        cases hdz : (red M).isDualized with
        | false =>
          rw [hdz] at hc1
          simp only [Bool.false_eq_true, if_false] at hc1
          rw [← hc1] at hlow
          exact hlater j hj (by omega) hlow
        | true =>
          rw [hdz] at hc1
          simp only [if_true] at hc1
          rw [indexSub_reverse_eq hNm hc0N, indexSub_reverse_eq hNm hj] at hc1
          have : c0 = j := by omega
          rw [this, hlow] at hempty
          exact Option.noConfusion hempty
      · simp only [Prod.mk.injEq] at h
        exact Option.noConfusion h.2

/-- Witness of C13: the dualized boundary matrix of an edge with its two
vertices, `max = 2`. -/
theorem truncation_guard_true_witness :
    ∃ p, calculatePersistencePairing standardReduction
        { columns := [[], [0], [0]], dimensions := [0, 1, 1], dualized := true } true 2
        = some p ∧
      (∀ j i, j < loopBound (standardReduction
            { columns := [[], [0], [0]], dimensions := [0, 1, 1], dualized := true }) 2 →
        BoundaryMatrix.getMaximumIndex (standardReduction
            { columns := [[], [0], [0]], dimensions := [0, 1, 1], dualized := true }) j
          = some (i, true) →
        ((2 : Nat) = 0 ∨ i < 2)) ∧
      p.countP (fun e => e.2.isSome) =
        (List.range (loopBound (standardReduction
            { columns := [[], [0], [0]], dimensions := [0, 1, 1], dualized := true }) 2)).countP
          (fun j => decide ((standardReduction
            { columns := [[], [0], [0]], dimensions := [0, 1, 1], dualized := true }
              ).columns.getD j [] ≠ [])) ∧
      ∀ c, (c, none) ∈ p → ∀ d, (c, some d) ∉ p :=
  truncation_guard_true standardReduction standardReduction_keepsShape
    standardReduction_keepsTriangular
    { columns := [[], [0], [0]], dimensions := [0, 1, 1], dualized := true }
    (by decide) (by decide) true 2 (by decide)

end Aleph
